import Mathlib

/-!
# gogcli: the shell completion resolver and its neighbours

A shallow embedding of `internal/cmd/completion_internal.go` and the properties
of `completeWords` stated in the specification, followed by the functions of
`completion.go`, `account.go`, `config/paths.go`, `time_helpers.go` and
`classroom_materials.go` that the specification also describes.

Modelling conventions.

* A Go `string` is a Lean `String`.  Tokens are text, so Go's byte-wise
  equality, prefix test and `<` coincide with the character-wise ones used here.
* A Go `map[string]V` is an association list `List (String × V)`: the list
  order is the order in which `range` enumerates the entries, a lookup is
  `List.lookup`.  A list denotes a Go map when its keys are pairwise distinct
  (`completionNode.WF`).
* A Go `int` that is known to be non-negative is a `Nat`; the raw cursor
  argument of `completeWords` is an `Int`.
* `nil` and the empty slice are both the empty list.
-/

namespace Gog

/-! ## Library functions used by the source -/

/-- Go `strings.HasPrefix(s, prefix)`. -/
def strings.HasPrefix (s pre : String) : Bool :=
  pre.data.isPrefixOf s.data

/-- Go `strings.HasSuffix(s, suffix)`. -/
def strings.HasSuffix (s suf : String) : Bool :=
  suf.data.isSuffixOf s.data

/-- Go `sort.Strings`: the ascending rearrangement of the slice. -/
def sort.Strings (l : List String) : List String :=
  l.insertionSort (fun a b => a ≤ b)

/-! ## Data model (lines 10-17) -/

/-- The struct `completionFlag`. -/
structure completionFlag where
  takesValue : Bool
deriving DecidableEq, Repr

/-- The struct `completionNode`: a map of children and a map of flags. -/
inductive completionNode where
  | mk (children : List (String × completionNode))
       (flags : List (String × completionFlag))

/-- Field `children` of a node. -/
def completionNode.children : completionNode → List (String × completionNode)
  | .mk c _ => c

/-- Field `flags` of a node. -/
def completionNode.flags : completionNode → List (String × completionFlag)
  | .mk _ f => f

/-- The keys of a map, in enumeration order. -/
def keys {V : Type} (m : List (String × V)) : List String :=
  m.map Prod.fst

/-! ## Helpers of `completeWords` -/

/-- The function `isProgramName` (lines 113-124). -/
def isProgramName (word : String) : Bool :=
  if word = "gog" then true
  else if strings.HasSuffix word "/gog" || strings.HasSuffix word "\\gog" then true
  else if strings.HasSuffix word "/gog.exe" || strings.HasSuffix word "\\gog.exe" then true
  else false

/-- The function `splitFlagToken` (lines 191-196): the text before the first
`=` and `true`, or the whole word and `false` when it holds no `=`. -/
def splitFlagToken (word : String) : String × Bool :=
  if '=' ∈ word.data then
    (String.mk (word.data.takeWhile (fun c => c != '=')), true)
  else (word, false)

/-- The function `matchingCommands` (lines 198-206). -/
def matchingCommands (node : completionNode) (pre : String) : List String :=
  (keys node.children).filter (fun name => strings.HasPrefix name pre)

/-- The function `matchingFlags` (lines 208-216). -/
def matchingFlags (node : completionNode) (pre : String) : List String :=
  (keys node.flags).filter (fun name => strings.HasPrefix name pre)

/-- The condition `spec, ok := node.flags[flagToken]; ok && spec.takesValue`
(lines 58 and 91). -/
def takesValueOn (node : completionNode) (flagToken : String) : Bool :=
  match node.flags.lookup flagToken with
  | some spec => spec.takesValue
  | none => false

/-- What the walk of lines 44-74 leaves behind: the local `node`, the local
`terminatorIndex` (`-1` when no terminator was met) and whether the function
returned from inside the loop (line 60). -/
structure walkResult where
  node : completionNode
  terminatorIndex : Int
  returned : Bool

/-- The loop of lines 46-74, entered at its head with scan index `i` and
current node `node`. -/
def walk (words : List String) (cword : Nat) (i : Nat) (node : completionNode) :
    walkResult :=
  if h : i < cword ∧ i < words.length then
    let word := words[i]
    if word = "--" then
      ⟨node, i, false⟩
    else if strings.HasPrefix word "-" then
      if (splitFlagToken word).2 then
        walk words cword (i + 1) node
      else if takesValueOn node (splitFlagToken word).1 then
        if i + 1 = cword then ⟨node, -1, true⟩
        else walk words cword (i + 2) node
      else walk words cword (i + 1) node
    else
      match node.children.lookup word with
      | some child => walk words cword (i + 1) child
      | none => walk words cword (i + 1) node
  else ⟨node, -1, false⟩
termination_by words.length - i
decreasing_by all_goals omega

/-- The cursor after the normalisation of lines 29-37, for a non-empty slice. -/
def cursor (cword : Int) (words : List String) : Nat :=
  let cword := if cword < 0 then (words.length : Int) - 1 else cword
  let cword := if cword > words.length then (words.length : Int) else cword
  cword.toNat

/-- The local `start` (lines 39-42); `words[0]` is read on a non-empty slice
only, the first case is never reached from `completeWords`. -/
def startIndex (words : List String) : Nat :=
  match words with
  | [] => 0
  | w :: _ => if isProgramName w then 1 else 0

/-- The test of lines 84-95: `true` when the function returns there. -/
def prevTakesValue (words : List String) (node : completionNode)
    (start cword : Nat) : Bool :=
  if h : cword > start ∧ cword ≤ words.length then
    let prev := words[cword - 1]
    if strings.HasPrefix prev "-" then
      if (splitFlagToken prev).2 then true
      else takesValueOn node (splitFlagToken prev).1
    else false
  else false

/-- The local `current` (lines 97-100). -/
def currentWord (words : List String) (cword : Nat) : String :=
  if h : cword < words.length then words[cword] else ""

/-- Lines 102-110 of `completeWords`: the sorted matches of `current` on `node`. -/
def suggestions (node : completionNode) (current : String) : List String :=
  if strings.HasPrefix current "-" then
    sort.Strings (matchingFlags node current)
  else
    sort.Strings (matchingCommands node current ++ matchingFlags node current)

/-- Lines 39-110 of `completeWords`: the resolution proper, for a non-empty
slice and a cursor already normalised to `0 ≤ cword ≤ len(words)`. -/
def completeFrom (root : completionNode) (cword : Nat) (words : List String) :
    List String :=
  let start := startIndex words
  let w := walk words cword start root
  if w.returned then []
  else if w.terminatorIndex ≠ -1 ∧ (cword : Int) ≥ w.terminatorIndex then []
  else if (if h : cword < words.length then words[cword] = "--" else False) then []
  else if prevTakesValue words w.node start cword then []
  else suggestions w.node (currentWord words cword)

/-- The function `completeWords` (lines 19-111), with the tree `root` built at
lines 23-27 as a parameter. -/
def completeWords (root : completionNode) (cword : Int) (words : List String) :
    List String :=
  if words.length = 0 then []
  else
    let cword := if cword < 0 then (words.length : Int) - 1 else cword
    if cword < 0 then []
    else
      let cword := if cword > words.length then (words.length : Int) else cword
      completeFrom root cword.toNat words

/-! ## Building the tree (lines 126-189)

The command model comes from the library `kong`; of its types only the fields
and method results that the builder reads are kept. -/

/-- What `addFlagTokens` reads of a `kong.Flag`: `Name`, `Aliases`, `Short`
(the rune 0 when unset), the results of `IsBool()` and `IsCounter()`, and
`Tag.Negatable`. -/
structure kongFlag where
  Name : String
  Aliases : List String
  Short : Char
  IsBool : Bool
  IsCounter : Bool
  Negatable : String

/-- What `buildCompletionNode` reads of a `kong.Node`: `Name`, `Aliases`,
`Hidden`, the result of `AllFlags(true)` and `Children`. -/
inductive kongNode where
  | mk (Name : String) (Aliases : List String) (Hidden : Bool)
       (AllFlags : List (List kongFlag)) (Children : List kongNode)

/-- Field `Name` of a model node. -/
def kongNode.Name : kongNode → String
  | .mk n _ _ _ _ => n

/-- Field `Aliases` of a model node. -/
def kongNode.Aliases : kongNode → List String
  | .mk _ a _ _ _ => a

/-- Field `Hidden` of a model node. -/
def kongNode.Hidden : kongNode → Bool
  | .mk _ _ h _ _ => h

/-- The flag groups `AllFlags(true)` of a model node. -/
def kongNode.AllFlags : kongNode → List (List kongFlag)
  | .mk _ _ _ f _ => f

/-- Field `Children` of a model node. -/
def kongNode.Children : kongNode → List kongNode
  | .mk _ _ _ _ c => c

/-- The function `addFlag` (lines 181-189); a new entry is put last. -/
def addFlag (flags : List (String × completionFlag)) (token : String) (takesValue : Bool) :
    List (String × completionFlag) :=
  if token = "" then flags
  else if (flags.lookup token).isSome then flags
  else flags ++ [(token, ⟨takesValue⟩)]

/-- The function `negatedFlagName` (lines 170-179). -/
def negatedFlagName (flag : kongFlag) : String :=
  if flag.Negatable = "" then ""
  else if flag.Negatable = "_" then "--no-" ++ flag.Name
  else "--" ++ flag.Negatable

/-- The function `addFlagTokens` (lines 156-168). -/
def addFlagTokens (flags : List (String × completionFlag)) (flag : kongFlag) :
    List (String × completionFlag) :=
  let takesValue := !(flag.IsBool || flag.IsCounter)
  let flags := addFlag flags ("--" ++ flag.Name) takesValue
  let flags := flag.Aliases.foldl (fun fs al => addFlag fs ("--" ++ al) takesValue) flags
  let flags :=
    if flag.Short ≠ Char.ofNat 0 then
      addFlag flags ("-" ++ String.singleton flag.Short) takesValue
    else flags
  if negatedFlagName flag ≠ "" then addFlag flags (negatedFlagName flag) false else flags

/-- The inner loop of `buildCompletionNode` (lines 143-150): every non-empty
name not yet registered is mapped to `childNode`. -/
def addChildNames (children : List (String × completionNode)) (names : List String)
    (childNode : completionNode) : List (String × completionNode) :=
  names.foldl (fun m name =>
    if name = "" then m
    else if (m.lookup name).isSome then m
    else m ++ [(name, childNode)]) children

mutual
/-- The function `buildCompletionNode` (lines 126-154). -/
def buildCompletionNode : kongNode → completionNode
  | .mk _ _ _ allFlags children =>
    .mk (buildChildren children [])
      (allFlags.foldl (fun fs group => group.foldl addFlagTokens fs) [])
/-- The loop over `node.Children` of `buildCompletionNode` (lines 138-151), with
the map `current.children` built so far. -/
def buildChildren : List kongNode → List (String × completionNode) →
    List (String × completionNode)
  | [], acc => acc
  | child :: rest, acc =>
    if child.Hidden then buildChildren rest acc
    else
      buildChildren rest
        (addChildNames acc (child.Name :: child.Aliases) (buildCompletionNode child))
end

/-! ## Auxiliary notions used to state the properties -/

/-- The loop head of lines 46-74 is reached with scan index `i` and current
node `node`, when the loop is entered at `start` with node `root`.  One
constructor per `continue` of the loop body. -/
inductive walkReaches (words : List String) (cword start : Nat) (root : completionNode) :
    Nat → completionNode → Prop
  | entry : walkReaches words cword start root start root
  | inlineFlag {i : Nat} {node : completionNode} {word : String} :
      walkReaches words cword start root i node → i < cword → words[i]? = some word →
      word ≠ "--" → strings.HasPrefix word "-" = true → (splitFlagToken word).2 = true →
      walkReaches words cword start root (i + 1) node
  | valueFlag {i : Nat} {node : completionNode} {word : String} :
      walkReaches words cword start root i node → i < cword → words[i]? = some word →
      word ≠ "--" → strings.HasPrefix word "-" = true → (splitFlagToken word).2 = false →
      takesValueOn node (splitFlagToken word).1 = true → i + 1 ≠ cword →
      walkReaches words cword start root (i + 2) node
  | plainFlag {i : Nat} {node : completionNode} {word : String} :
      walkReaches words cword start root i node → i < cword → words[i]? = some word →
      word ≠ "--" → strings.HasPrefix word "-" = true → (splitFlagToken word).2 = false →
      takesValueOn node (splitFlagToken word).1 = false →
      walkReaches words cword start root (i + 1) node
  | descend {i : Nat} {node child : completionNode} {word : String} :
      walkReaches words cword start root i node → i < cword → words[i]? = some word →
      word ≠ "--" → strings.HasPrefix word "-" = false →
      node.children.lookup word = some child →
      walkReaches words cword start root (i + 1) child
  | positional {i : Nat} {node : completionNode} {word : String} :
      walkReaches words cword start root i node → i < cword → words[i]? = some word →
      word ≠ "--" → strings.HasPrefix word "-" = false →
      node.children.lookup word = none →
      walkReaches words cword start root (i + 1) node

/-- A node denotes Go maps: in it and in every node below it, the keys of
`children` and the keys of `flags` are pairwise distinct. -/
inductive completionNode.WF : completionNode → Prop
  | mk {children : List (String × completionNode)} {flags : List (String × completionFlag)} :
      (keys children).Nodup → (keys flags).Nodup →
      (∀ kv ∈ children, completionNode.WF kv.2) →
      completionNode.WF (completionNode.mk children flags)

/-! ## Sample trees -/

/-- The node of a subcommand `auth` with a value-taking flag `--account` and a
negatable boolean flag `--verbose`. -/
def authNode : completionNode :=
  .mk [] [("--account", ⟨true⟩), ("--verbose", ⟨false⟩), ("--no-verbose", ⟨false⟩)]

/-- A root with the subcommand `auth` (alias `login`), a value-taking flag
`--account` and a boolean flag `--verbose`. -/
def sampleRoot : completionNode :=
  .mk [("auth", authNode), ("login", authNode)]
      [("--account", ⟨true⟩), ("--verbose", ⟨false⟩)]

/-- A root whose only flag is a value-taking flag whose name is a slash
followed by `gog`, so that its long token also passes `isProgramName`. -/
def pathFlagRoot : completionNode :=
  .mk [] [("--/gog", ⟨true⟩)]

/-- A root with a subcommand named `--v` and a boolean flag named `v`, whose
long token is `--v` as well. -/
def clashRoot : completionNode :=
  .mk [("--v", .mk [] [])] [("--v", ⟨false⟩)]

/-- A command model of which `sampleRoot` is the tree: the flags `account`
(a string) and `verbose` (a boolean, negatable under `auth`), and the
subcommand `auth` with the alias `login`. -/
def sampleModel : kongNode :=
  .mk "gog" [] false
    [[⟨"account", [], Char.ofNat 0, false, false, ""⟩,
      ⟨"verbose", [], Char.ofNat 0, true, false, ""⟩]]
    [.mk "auth" ["login"] false
      [[⟨"account", [], Char.ofNat 0, false, false, ""⟩,
        ⟨"verbose", [], Char.ofNat 0, true, false, "_"⟩]] []]

/-- A command model of which `pathFlagRoot` is the tree. -/
def pathFlagModel : kongNode :=
  .mk "gog" [] false [[⟨"/gog", [], Char.ofNat 0, false, false, ""⟩]] []

/-- A command model of which `clashRoot` is the tree. -/
def clashModel : kongNode :=
  .mk "gog" [] false [[⟨"v", [], Char.ofNat 0, true, false, ""⟩]]
    [.mk "--v" [] false [] []]

/-! ## `completeWords` with the parser construction (lines 19-27) -/

/-- The function `completeWords` (lines 19-111) as a whole: `newParser` is the
outcome of the call `newParser(baseDescription())` of line 23, which is made
only after the test of line 20; the tree is `buildCompletionNode` of the model
of the parser.  The Go result `(nil, err)` is `.error err`. -/
def completeWordsResult {ε : Type} (newParser : Except ε kongNode) (cword : Int)
    (words : List String) : Except ε (List String) :=
  if words.length = 0 then .ok []
  else
    match newParser with
    | .error err => .error err
    | .ok model => .ok (completeWords (buildCompletionNode model) cword words)

/-! ## Notions used to state the properties of the builder -/

/-- The child `c` is not hidden and has `n` as its name or as one of its
aliases. -/
def kongNode.carries (c : kongNode) (n : String) : Bool :=
  !c.Hidden && decide (n ∈ c.Name :: c.Aliases)

/-- The model node `m` is `root` or is reached from `root` through children
that are not hidden. -/
inductive kongNode.visibleBelow (root : kongNode) : kongNode → Prop
  | self : kongNode.visibleBelow root root
  | child {m c : kongNode} : kongNode.visibleBelow root m → c ∈ m.Children →
      c.Hidden = false → kongNode.visibleBelow root c

/-- Scenario 5 of the specification: the command `auth`, then a command
`authorize` that also claims the alias `auth`, then a hidden command. -/
def collisionModel : kongNode :=
  .mk "gog" [] false []
    [.mk "auth" [] false [[⟨"account", [], Char.ofNat 0, false, false, ""⟩]] [],
     .mk "authorize" ["auth", "grant"] false [] [],
     .mk "secret" ["grant"] true [] []]

/-- Lines 157-164 of `addFlagTokens`: the map after the long token, the alias
tokens and the short token of the flag have been added, before the negated
form is. -/
def addPositiveTokens (flags : List (String × completionFlag)) (flag : kongFlag) :
    List (String × completionFlag) :=
  let takesValue := !(flag.IsBool || flag.IsCounter)
  let flags := addFlag flags ("--" ++ flag.Name) takesValue
  let flags := flag.Aliases.foldl (fun fs al => addFlag fs ("--" ++ al) takesValue) flags
  if flag.Short ≠ Char.ofNat 0 then
    addFlag flags ("-" ++ String.singleton flag.Short) takesValue
  else flags

/-- The flag `verbose` of the command `auth` in `sampleModel`: a boolean with
the negatable tag `_`. -/
def verboseFlag : kongFlag :=
  ⟨"verbose", [], Char.ofNat 0, true, false, "_"⟩

/-- A string flag `color` with the custom negated name `plain`. -/
def colorFlag : kongFlag :=
  ⟨"color", [], Char.ofNat 0, false, false, "plain"⟩

/-- Two nodes hold the same two maps, possibly enumerated in different orders:
the flag entries of one are a rearrangement of the flag entries of the other,
the child keys likewise, and the children under equal keys hold the same maps
in turn. -/
inductive completionNode.sameMaps : completionNode → completionNode → Prop
  | mk {c1 c2 : List (String × completionNode)} {f1 f2 : List (String × completionFlag)} :
      f1.Perm f2 → (keys c1).Perm (keys c2) →
      (∀ k n1 n2, (k, n1) ∈ c1 → (k, n2) ∈ c2 → completionNode.sameMaps n1 n2) →
      completionNode.sameMaps (completionNode.mk c1 f1) (completionNode.mk c2 f2)

/-- The tree `sampleRoot` with the entries of its maps, and of the maps of its
children, enumerated in another order. -/
def sampleRootShuffled : completionNode :=
  .mk [("login", .mk [] [("--no-verbose", ⟨false⟩), ("--account", ⟨true⟩),
          ("--verbose", ⟨false⟩)]),
       ("auth", .mk [] [("--verbose", ⟨false⟩), ("--no-verbose", ⟨false⟩),
          ("--account", ⟨true⟩)])]
      [("--verbose", ⟨false⟩), ("--account", ⟨true⟩)]

/-! ## The command `__complete` (`completion.go`, lines 22-38) -/

/-- The struct `CompletionInternalCmd`. -/
structure CompletionInternalCmd where
  Cword : Int
  Words : List String

/-- The call `fmt.Fprintln(os.Stdout, item)` on the text `out` written so far:
it fails with the error `fail`, if there is one, and otherwise appends the item
and one newline. -/
def Fprintln {ε : Type} (fail : Option ε) (out item : String) : Except ε String :=
  match fail with
  | some err => .error err
  | none => .ok (out ++ item ++ "\n")

/-- The loop of lines 32-36 of `Run`, from the `j`-th write on: the text on
standard output afterwards and the error returned (`none` for `nil`).
`writeErr j` is the error of the `j`-th write, if it fails. -/
def printItems {ε : Type} (writeErr : Nat → Option ε) :
    List String → Nat → String → String × Option ε
  | [], _, out => (out, none)
  | item :: rest, j, out =>
    match Fprintln (writeErr j) out item with
    | .error err => (out, some err)
    | .ok out' => printItems writeErr rest (j + 1) out'

/-- The method `CompletionInternalCmd.Run` (lines 27-38), started with the text
`stdout` on standard output. -/
def CompletionInternalCmd.Run {ε : Type} (c : CompletionInternalCmd)
    (newParser : Except ε kongNode) (writeErr : Nat → Option ε) (stdout : String) :
    String × Option ε :=
  match completeWordsResult newParser c.Cword c.Words with
  | .error err => (stdout, some err)
  | .ok items => printItems writeErr items 0 stdout

/-! ## The account to act for (`account.go`) -/

/-- Go `unicode.IsSpace`: the code points with the property White_Space. -/
def unicode.IsSpace (c : Char) : Bool :=
  let n := c.toNat
  (9 ≤ n && n ≤ 13) || n = 0x20 || n = 0x85 || n = 0xA0 || n = 0x1680 ||
    (0x2000 ≤ n && n ≤ 0x200A) || n = 0x2028 || n = 0x2029 || n = 0x202F || n = 0x205F ||
    n = 0x3000

/-- Go `strings.TrimSpace`: the text without its leading and trailing white
space. -/
def strings.TrimSpace (s : String) : String :=
  String.mk ((s.data.dropWhile unicode.IsSpace).reverse.dropWhile unicode.IsSpace).reverse

/-- The field `Account` of the struct `RootFlags`. -/
structure RootFlags where
  Account : String

/-- The field `Email` of `secrets.Token`. -/
structure Token where
  Email : String

/-- The two methods of `secrets.Store` that `requireAccount` calls, each given by
its outcome. -/
structure Store (ε : Type) where
  GetDefaultAccount : Except ε String
  ListTokens : Except ε (List Token)

/-- The error made by `usage(...)`. -/
inductive cmdError where
  | usage (msg : String)
deriving DecidableEq, Repr

/-- The error of line 35. -/
def missingAccount : cmdError :=
  .usage "missing --account (or set GOG_ACCOUNT, set default via `gog auth manage`, or store exactly one token)"

/-- The function `requireAccount` (lines 12-36); `Getenv` is `os.Getenv` and
`openSecretsStoreForAccount` the outcome of the call of line 20. -/
def requireAccount {ε : Type} (flags : RootFlags) (Getenv : String → String)
    (openSecretsStoreForAccount : Except ε (Store ε)) : Except cmdError String :=
  if strings.TrimSpace flags.Account ≠ "" then .ok (strings.TrimSpace flags.Account)
  else if strings.TrimSpace (Getenv "GOG_ACCOUNT") ≠ "" then
    .ok (strings.TrimSpace (Getenv "GOG_ACCOUNT"))
  else
    match openSecretsStoreForAccount with
    | .error _ => .error missingAccount
    | .ok store =>
      let fromTokens : Except cmdError String :=
        match store.ListTokens with
        | .error _ => .error missingAccount
        | .ok toks =>
          match toks with
          | [tok] =>
            if strings.TrimSpace tok.Email ≠ "" then .ok (strings.TrimSpace tok.Email)
            else .error missingAccount
          | _ => .error missingAccount
      match store.GetDefaultAccount with
      | .ok v =>
        if strings.TrimSpace v ≠ "" then .ok (strings.TrimSpace v) else fromTokens
      | .error _ => fromTokens

/-- The values the specification lists for the account, in its order: the
`--account` flag, the variable `GOG_ACCOUNT`, the default account of the store
when the store opens and the lookup succeeds, the e-mail of the stored token
when the store opens, the listing succeeds and exactly one token is stored. -/
def accountCandidates {ε : Type} (flags : RootFlags) (Getenv : String → String)
    (openSecretsStoreForAccount : Except ε (Store ε)) : List String :=
  [flags.Account, Getenv "GOG_ACCOUNT"] ++
    (match openSecretsStoreForAccount with
      | .ok store =>
        (match store.GetDefaultAccount with
          | .ok v => [v]
          | .error _ => []) ++
        (match store.ListTokens with
          | .ok [tok] => [tok.Email]
          | _ => [])
      | .error _ => [])

/-- The specification of `requireAccount`: the first candidate that is not
blank, trimmed, or the usage error when all are blank. -/
def requireAccountSpec {ε : Type} (flags : RootFlags) (Getenv : String → String)
    (openSecretsStoreForAccount : Except ε (Store ε)) : Except cmdError String :=
  match ((accountCandidates flags Getenv openSecretsStoreForAccount).map
      strings.TrimSpace).find? (fun v => v ≠ "") with
  | some v => .ok v
  | none => .error missingAccount

/-! ## `completeWords` with the run-time checks of the index expressions

The same source function once more, with Go's `int` as `Int` throughout and
every index expression `words[i]` made explicit: an index outside
`0 ≤ i < len(words)` is the run-time panic `index out of range`. -/

/-- The Go index expression `words[i]`; `none` is the panic. -/
def sliceIndex (words : List String) (i : Int) : Option String :=
  if i < 0 then none else words[i.toNat]?

/-- How a call of `completeWords` ends: it returns suggestions and `nil`, or
`nil` and an error, or it panics. -/
inductive outcome (ε : Type) where
  | ok (items : List String)
  | error (err : ε)
  | panic

/-- The loop of lines 46-74 with checked index expressions; `none` is the
panic. -/
def walkChecked (words : List String) (cword : Int) (i : Int) (node : completionNode) :
    Option walkResult :=
  if h : i < cword ∧ i < words.length then
    match sliceIndex words i with
    | none => none
    | some word =>
      if word = "--" then
        some ⟨node, i, false⟩
      else if strings.HasPrefix word "-" then
        if (splitFlagToken word).2 then
          walkChecked words cword (i + 1) node
        else if takesValueOn node (splitFlagToken word).1 then
          if i + 1 = cword then some ⟨node, -1, true⟩
          else walkChecked words cword (i + 2) node
        else walkChecked words cword (i + 1) node
      else
        match node.children.lookup word with
        | some child => walkChecked words cword (i + 1) child
        | none => walkChecked words cword (i + 1) node
  else some ⟨node, -1, false⟩
termination_by ((words.length : Int) - i).toNat
decreasing_by all_goals omega

/-- The test `cword < len(words) && words[cword] == "--"` of line 80, checked. -/
def currentIsTerminatorChecked (words : List String) (cword : Int) : Option Bool :=
  if cword < words.length then
    (sliceIndex words cword).map (fun current => decide (current = "--"))
  else some false

/-- The test of lines 84-95, checked: `some true` when the function returns
there. -/
def prevTakesValueChecked (words : List String) (node : completionNode)
    (start cword : Int) : Option Bool :=
  if cword > start ∧ cword ≤ words.length then
    (sliceIndex words (cword - 1)).map (fun prev =>
      if strings.HasPrefix prev "-" then
        if (splitFlagToken prev).2 then true
        else takesValueOn node (splitFlagToken prev).1
      else false)
  else some false

/-- The local `current` of lines 97-100, checked. -/
def currentWordChecked (words : List String) (cword : Int) : Option String :=
  if cword < words.length then sliceIndex words cword else some ""

/-- The function `completeWords` (lines 19-111) with checked index
expressions. -/
def completeWordsChecked {ε : Type} (newParser : Except ε kongNode) (cword : Int)
    (words : List String) : outcome ε :=
  if words.length = 0 then .ok []
  else
    match newParser with
    | .error err => .error err
    | .ok model =>
      let root := buildCompletionNode model
      let cword := if cword < 0 then (words.length : Int) - 1 else cword
      if cword < 0 then .ok []
      else
        let cword := if cword > words.length then (words.length : Int) else cword
        match sliceIndex words 0 with
        | none => .panic
        | some first =>
          let start : Int := if isProgramName first then 1 else 0
          match walkChecked words cword start root with
          | none => .panic
          | some w =>
            if w.returned then .ok []
            else if w.terminatorIndex ≠ -1 ∧ cword ≥ w.terminatorIndex then .ok []
            else
              match currentIsTerminatorChecked words cword with
              | none => .panic
              | some true => .ok []
              | some false =>
                match prevTakesValueChecked words w.node start cword with
                | none => .panic
                | some true => .ok []
                | some false =>
                  match currentWordChecked words cword with
                  | none => .panic
                  | some current => .ok (suggestions w.node current)

/-! ## Service-account key files (`config/paths.go`, lines 158-248) -/

/-- Go `strings.ToLower` on text: every rune is mapped by `unicode.ToLower`,
which is the parameter `lower` (the Unicode case tables). -/
def strings.ToLower (lower : Char → Char) (s : String) : String :=
  String.mk (s.data.map lower)

/-- Go `strings.TrimPrefix`. -/
def strings.TrimPrefix (s pre : String) : String :=
  if strings.HasPrefix s pre then String.mk (s.data.drop pre.length) else s

/-- Go `strings.TrimSuffix`. -/
def strings.TrimSuffix (s suf : String) : String :=
  if strings.HasSuffix s suf then String.mk (s.data.take (s.length - suf.length)) else s

/-- The UTF-8 encoding of one rune, as byte values. -/
def utf8.EncodeRune (c : Char) : List Nat :=
  let n := c.toNat
  if n < 0x80 then [n]
  else if n < 0x800 then [0xC0 + n / 64, 0x80 + n % 64]
  else if n < 0x10000 then [0xE0 + n / 4096, 0x80 + n / 64 % 64, 0x80 + n % 64]
  else [0xF0 + n / 262144, 0x80 + n / 4096 % 64, 0x80 + n / 64 % 64, 0x80 + n % 64]

/-- The Go conversion `[]byte(s)` of a text: its UTF-8 bytes. -/
def bytesOf (s : String) : List Nat :=
  s.data.flatMap utf8.EncodeRune

/-- The alphabet of `base64.URLEncoding`. -/
def base64.encodeURL : List Char :=
  "ABCDEFGHIJKLMNOPQRSTUVWXYZabcdefghijklmnopqrstuvwxyz0123456789-_".data

/-- The character of a 6-bit value. -/
def base64.encodeChar (n : Nat) : Char :=
  base64.encodeURL.getD n 'A'

/-- The 6-bit value of a character of the alphabet. -/
def base64.decodeChar (c : Char) : Option Nat :=
  if base64.encodeURL.indexOf c < 64 then some (base64.encodeURL.indexOf c) else none

/-- The characters of the unpadded base64 encoding of a byte sequence. -/
def base64.encode : List Nat → List Char
  | a :: b :: c :: rest =>
    base64.encodeChar (a / 4) :: base64.encodeChar (a % 4 * 16 + b / 16) ::
      base64.encodeChar (b % 16 * 4 + c / 64) :: base64.encodeChar (c % 64) ::
      base64.encode rest
  | [a, b] =>
    [base64.encodeChar (a / 4), base64.encodeChar (a % 4 * 16 + b / 16),
      base64.encodeChar (b % 16 * 4)]
  | [a] => [base64.encodeChar (a / 4), base64.encodeChar (a % 4 * 16)]
  | [] => []

/-- Go `base64.RawURLEncoding.EncodeToString`. -/
def base64.RawURLEncoding.EncodeToString (src : List Nat) : String :=
  String.mk (base64.encode src)

/-- The bytes of a sequence of 6-bit values; a single left-over value is an
error. -/
def base64.decodeValues : List Nat → Option (List Nat)
  | a :: b :: c :: d :: rest =>
    (base64.decodeValues rest).map
      (fun bytes => (a * 4 + b / 16) :: (b % 16 * 16 + c / 4) :: (c % 4 * 64 + d) :: bytes)
  | [a, b, c] => some [a * 4 + b / 16, b % 16 * 16 + c / 4]
  | [a, b] => some [a * 4 + b / 16]
  | [_] => none
  | [] => some []

/-- The 6-bit values of a sequence of characters; a character outside the
alphabet is an error. -/
def base64.values : List Char → Option (List Nat)
  | [] => some []
  | c :: cs =>
    match base64.decodeChar c, base64.values cs with
    | some v, some vs => some (v :: vs)
    | _, _ => none

/-- Go `base64.RawURLEncoding.DecodeString`; `none` when it returns an error.
Carriage returns and line feeds are skipped, any other character outside the
alphabet is an error. -/
def base64.RawURLEncoding.DecodeString (s : String) : Option (List Nat) :=
  (base64.values (s.data.filter (fun c => c != '\r' && c != '\n'))).bind
    base64.decodeValues

/-- Go `filepath.Join(dir, name)` for a clean `dir` and a `name` without
separator. -/
def filepath.Join (dir name : String) : String :=
  dir ++ "/" ++ name

/-- The local `safeEmail` of lines 164 and 178. -/
def safeEmail (lower : Char → Char) (email : String) : String :=
  base64.RawURLEncoding.EncodeToString
    (bytesOf (strings.ToLower lower (strings.TrimSpace email)))

/-- The function `ServiceAccountPath` (lines 158-167); `Dir` is the outcome of
the call `Dir()`. -/
def ServiceAccountPath {ε : Type} (lower : Char → Char) (Dir : Except ε String)
    (email : String) : Except ε String :=
  match Dir with
  | .error err => .error err
  | .ok dir => .ok (filepath.Join dir ("sa-" ++ safeEmail lower email ++ ".json"))

/-- The function `DirectServiceAccountPath` (lines 172-181). -/
def DirectServiceAccountPath {ε : Type} (lower : Char → Char) (Dir : Except ε String)
    (email : String) : Except ε String :=
  match Dir with
  | .error err => .error err
  | .ok dir => .ok (filepath.Join dir ("sa-direct-" ++ safeEmail lower email ++ ".json"))

/-- What `ListServiceAccountEmails` reads of an `os.DirEntry`. -/
structure DirEntry where
  Name : String
  IsDir : Bool

/-- The decoding `if b, err := DecodeString(enc); err == nil { email = TrimSpace(string(b)) }`
of lines 212-214 and 217-219; `stringOf` is the conversion `string(b)`. -/
def decodedEmail (stringOf : List Nat → String) (enc : String) : String :=
  match base64.RawURLEncoding.DecodeString enc with
  | some b => strings.TrimSpace (stringOf b)
  | none => ""

/-- The `switch` of lines 207-230 on the name of an entry: the local `email`
after it, or `none` in the `default` case. -/
def emailOfName (stringOf : List Nat → String) (name : String) : Option String :=
  if strings.HasPrefix name "sa-direct-" && strings.HasSuffix name ".json" then
    some (decodedEmail stringOf
      (strings.TrimSuffix (strings.TrimPrefix name "sa-direct-") ".json"))
  else if strings.HasPrefix name "sa-" && strings.HasSuffix name ".json" then
    some (decodedEmail stringOf
      (strings.TrimSuffix (strings.TrimPrefix name "sa-") ".json"))
  else if strings.HasPrefix name "keep-sa-" && strings.HasSuffix name ".json" then
    some (match base64.RawURLEncoding.DecodeString
        (strings.TrimSuffix (strings.TrimPrefix name "keep-sa-") ".json") with
      | some b => strings.TrimSpace (stringOf b)
      | none =>
        strings.TrimSpace (strings.TrimSuffix (strings.TrimPrefix name "keep-sa-") ".json"))
  else none

/-- One iteration of the loop of lines 202-243 on the pair of the slice `out`
and the set `seen`. -/
def listStep (lower : Char → Char) (stringOf : List Nat → String)
    (st : List String × List String) (e : DirEntry) : List String × List String :=
  if e.IsDir then st
  else
    match emailOfName stringOf e.Name with
    | none => st
    | some email =>
      let email := strings.ToLower lower (strings.TrimSpace email)
      if email = "" then st
      else if email ∈ st.2 then st
      else (st.1 ++ [email], email :: st.2)

/-- The error results of `ListServiceAccountEmails`: the error of `Dir()` as it
is, the error of `os.ReadDir` wrapped. -/
inductive listError (ε : Type) where
  | dir (err : ε)
  | readDir (err : ε)

/-- The function `ListServiceAccountEmails` (lines 183-248); `Dir` is the
outcome of `Dir()`, `ReadDir` is `os.ReadDir` and `IsNotExist` is
`os.IsNotExist`. -/
def ListServiceAccountEmails {ε : Type} (lower : Char → Char)
    (stringOf : List Nat → String) (Dir : Except ε String)
    (ReadDir : String → Except ε (List DirEntry)) (IsNotExist : ε → Bool) :
    Except (listError ε) (List String) :=
  match Dir with
  | .error err => .error (.dir err)
  | .ok dir =>
    match ReadDir dir with
    | .error err => if IsNotExist err then .ok [] else .error (.readDir err)
    | .ok entries => .ok (sort.Strings (entries.foldl (listStep lower stringOf) ([], [])).1)

/-! ## Notions used to state the property of `isProgramName` -/

/-- A path separator: `/` or the backslash. -/
def isSeparator (c : Char) : Bool :=
  c == '/' || c == '\\'

/-- The final path segment, in the words of the specification: the text after
the last `/` or backslash of `w`, or all of `w` when it holds neither. -/
def finalSegment (w : String) : String :=
  String.mk (w.data.reverse.takeWhile (fun c => !isSeparator c)).reverse

/-! ## Notions used to state the properties of `addFlagTokens` -/

/-- The tokens of a flag other than its negated form, in the words of the
specification: the long token, one token per alias and, when a short form is
set, the short token. -/
def positiveTokens (flag : kongFlag) : List String :=
  ("--" ++ flag.Name) :: flag.Aliases.map (fun al => "--" ++ al) ++
    (if flag.Short ≠ Char.ofNat 0 then ["-" ++ String.singleton flag.Short] else [])

/-! ## The walk of `completeWords` with its scan indices recorded -/

/-- What is recorded of a run of the loop of lines 46-74: the successive values
of the scan index `i`, and the number of executions of the loop body. -/
structure walkTrace where
  indices : List Nat
  iterations : Nat

/-- One execution of the loop body at scan index `i` that ends with `continue`,
followed by the run `t`. -/
def walkTrace.after (i : Nat) (t : walkTrace) : walkTrace :=
  ⟨i :: t.indices, t.iterations + 1⟩

/-- The loop of lines 46-74, entered at its head with scan index `i` and
current node `node`, with the values of `i` and the executions of the body
recorded: the branches are those of `walk`. -/
def walkTraced (words : List String) (cword : Nat) (i : Nat) (node : completionNode) :
    walkTrace :=
  if h : i < cword ∧ i < words.length then
    let word := words[i]
    if word = "--" then
      ⟨[i], 1⟩
    else if strings.HasPrefix word "-" then
      if (splitFlagToken word).2 then
        walkTrace.after i (walkTraced words cword (i + 1) node)
      else if takesValueOn node (splitFlagToken word).1 then
        if i + 1 = cword then ⟨[i], 1⟩
        else walkTrace.after i (walkTraced words cword (i + 2) node)
      else walkTrace.after i (walkTraced words cword (i + 1) node)
    else
      match node.children.lookup word with
      | some child => walkTrace.after i (walkTraced words cword (i + 1) child)
      | none => walkTrace.after i (walkTraced words cword (i + 1) node)
  else ⟨[i], 0⟩
termination_by words.length - i
decreasing_by all_goals omega

/-- The scan index advances by one or by two. -/
@[reducible] def advances (a b : Nat) : Prop :=
  b = a + 1 ∨ b = a + 2

/-! ## Weekday expressions (`time_helpers.go`, lines 153-186) -/

/-- The map `weekdays` of `parseWeekday` (lines 156-171); a `time.Weekday` is
its number, `time.Sunday = 0` to `time.Saturday = 6`. -/
def weekdays : List (String × Nat) :=
  [("sunday", 0), ("sun", 0), ("monday", 1), ("mon", 1), ("tuesday", 2), ("tue", 2),
   ("wednesday", 3), ("wed", 3), ("thursday", 4), ("thu", 4), ("friday", 5), ("fri", 5),
   ("saturday", 6), ("sat", 6)]

/-- The local `daysUntil` of `parseWeekday` (lines 178-182). -/
def daysUntil (targetDay currentDay : Nat) : Int :=
  let daysUntil := (targetDay : Int) - (currentDay : Int)
  if daysUntil ≤ 0 then daysUntil + 7 else daysUntil

/-- The function `parseWeekday` (lines 153-186) on a type `T` of times;
`Weekday` is `now.Weekday()`, `AddDate now n` is `now.AddDate(0, 0, n)` and
`startOfDay` is the function of that name. The result is `none` when the
second result of the source is `false`. -/
def parseWeekday {T : Type} (Weekday : T → Nat) (AddDate : T → Int → T)
    (startOfDay : T → T) (expr : String) (now : T) : Option T :=
  let expr := strings.TrimPrefix expr "next "
  match weekdays.lookup expr with
  | none => none
  | some targetDay => some (startOfDay (AddDate now (daysUntil targetDay (Weekday now))))

/-- The English names of the days of the week in the order of `time.Weekday`,
Sunday first: the names that the specification calls recognised, each in full
or cut to its first three letters. -/
def weekdayNames : List String :=
  ["sunday", "monday", "tuesday", "wednesday", "thursday", "friday", "saturday"]

/-! ## Listing classroom materials (`classroom_materials.go`, lines 64-102) -/

/-- What `Run` reads of a `classroom.CourseWorkMaterial` in the loop: the
field `TopicId`; `Id` tells the items apart. -/
structure CourseWorkMaterial where
  Id : String
  TopicId : String
deriving DecidableEq

/-- What `Run` reads of a `classroom.ListCourseWorkMaterialResponse`: the
slice of pointers `CourseWorkMaterial`, where `none` is a `nil` pointer, and
`NextPageToken`. -/
structure ListCourseWorkMaterialResponse where
  CourseWorkMaterial : List (Option CourseWorkMaterial)
  NextPageToken : String

/-- The locals `materials` and `nextPageToken` after the loop of lines 76-102. -/
structure scanResult where
  materials : List (Option CourseWorkMaterial)
  nextPageToken : String

/-- A run of the loop of lines 76-102: the page tokens of the requests made,
in order, and either the locals after the loop or the error that `Run`
returns from inside it. -/
structure scanRun (ε : Type) where
  requests : List String
  result : Except ε scanResult

/-- The slice `filtered` of lines 87-92. -/
def filterTopic (topicFilter : String) (items : List (Option CourseWorkMaterial)) :
    List (Option CourseWorkMaterial) :=
  items.filter (fun material =>
    match material with
    | some m => decide (m.TopicId = topicFilter)
    | none => false)

/-- The loop of lines 76-102, entered with the locals `page` and `pageToken`;
`Do pageToken` is `makeCall(pageToken).Do()`, an error stands for the wrapped
error that `Run` returns. -/
def scanLoop {ε : Type} (Do : String → Except ε ListCourseWorkMaterialResponse)
    (topicFilter : String) (scanPages : Int) (page : Nat) (pageToken : String) :
    scanRun ε :=
  match Do pageToken with
  | .error err => ⟨[pageToken], .error err⟩
  | .ok resp =>
    if topicFilter = "" then
      ⟨[pageToken], .ok ⟨resp.CourseWorkMaterial, resp.NextPageToken⟩⟩
    else if (filterTopic topicFilter resp.CourseWorkMaterial).length > 0 then
      ⟨[pageToken], .ok ⟨filterTopic topicFilter resp.CourseWorkMaterial, resp.NextPageToken⟩⟩
    else if _h : resp.NextPageToken = "" ∨ (page : Int) + 1 ≥ scanPages then
      ⟨[pageToken], .ok ⟨filterTopic topicFilter resp.CourseWorkMaterial, resp.NextPageToken⟩⟩
    else
      ⟨pageToken :: (scanLoop Do topicFilter scanPages (page + 1) resp.NextPageToken).requests,
        (scanLoop Do topicFilter scanPages (page + 1) resp.NextPageToken).result⟩
termination_by scanPages.toNat - page
decreasing_by all_goals omega

/-- Lines 64-102 of `ClassroomMaterialsListCmd.Run`; `Topic`, `Page` and
`ScanPages` are the fields of the command. -/
def scanMaterials {ε : Type} (Do : String → Except ε ListCourseWorkMaterialResponse)
    (Topic Page : String) (ScanPages : Int) : scanRun ε :=
  let topicFilter := strings.TrimSpace Topic
  let pageToken := Page
  let scanPages := if ScanPages ≤ 0 then 1 else ScanPages
  scanLoop Do topicFilter scanPages 0 pageToken

/-- Two pages: the first, at the empty token, holds an item of topic `t2` and
names the page `p2`; every other token gives a page with an item of topic `t1`
and no next page. -/
def samplePages (tok : String) : ListCourseWorkMaterialResponse :=
  if tok = "" then ⟨[some ⟨"m1", "t2"⟩], "p2"⟩ else ⟨[some ⟨"m2", "t1"⟩], ""⟩

/-! ## Basic facts -/

theorem completeWords_nil (root : completionNode) (cword : Int) :
    completeWords root cword [] = [] := by
  simp [completeWords]

theorem completeWords_eq_completeFrom (root : completionNode) (cword : Int)
    (words : List String) (hne : words ≠ []) :
    completeWords root cword words = completeFrom root (cursor cword words) words := by
  have hlen : 0 < words.length := List.length_pos.mpr hne
  unfold completeWords cursor
  rw [if_neg (by omega)]
  by_cases hc : cword < 0
  · simp only [hc, if_true]
    rw [if_neg (by omega)]
  · simp only [hc, if_false]

theorem cursor_le (cword : Int) (words : List String) (hne : words ≠ []) :
    cursor cword words ≤ words.length := by
  have hlen : 0 < words.length := List.length_pos.mpr hne
  unfold cursor
  by_cases hc : cword < 0
  · simp only [hc, if_true]
    split <;> omega
  · simp only [hc, if_false]
    split <;> omega

theorem walk_unfold (words : List String) (cword i : Nat) (node : completionNode) :
    walk words cword i node =
      if h : i < cword ∧ i < words.length then
        if words[i] = "--" then ⟨node, i, false⟩
        else if strings.HasPrefix words[i] "-" then
          if (splitFlagToken words[i]).2 then walk words cword (i + 1) node
          else if takesValueOn node (splitFlagToken words[i]).1 then
            if i + 1 = cword then ⟨node, -1, true⟩ else walk words cword (i + 2) node
          else walk words cword (i + 1) node
        else
          match node.children.lookup words[i] with
          | some child => walk words cword (i + 1) child
          | none => walk words cword (i + 1) node
      else ⟨node, -1, false⟩ := by
  rw [walk]

/-! ## One iteration of the walk -/

theorem getElem_of_getElem? {words : List String} {i : Nat} {word : String}
    (hw : words[i]? = some word) : ∃ h : i < words.length, words[i] = word := by
  rcases List.getElem?_eq_some.mp hw with ⟨h, e⟩
  exact ⟨h, e⟩

theorem walk_exit (words : List String) (cword i : Nat) (node : completionNode)
    (h : ¬(i < cword ∧ i < words.length)) :
    walk words cword i node = ⟨node, -1, false⟩ := by
  rw [walk_unfold, dif_neg h]

theorem walk_terminator_here (words : List String) (cword i : Nat) (node : completionNode)
    (hi : i < cword) (hw : words[i]? = some "--") :
    walk words cword i node = ⟨node, i, false⟩ := by
  obtain ⟨hl, e⟩ := getElem_of_getElem? hw
  rw [walk_unfold, dif_pos ⟨hi, hl⟩, if_pos e]

theorem walk_inlineFlag (words : List String) (cword i : Nat) (node : completionNode)
    (word : String) (hi : i < cword) (hw : words[i]? = some word) (hne : word ≠ "--")
    (hp : strings.HasPrefix word "-" = true) (hv : (splitFlagToken word).2 = true) :
    walk words cword i node = walk words cword (i + 1) node := by
  obtain ⟨hl, e⟩ := getElem_of_getElem? hw
  rw [walk_unfold, dif_pos ⟨hi, hl⟩]
  simp only [e, hne, hp, hv, if_true, if_false]

theorem walk_valueSlot (words : List String) (cword i : Nat) (node : completionNode)
    (word : String) (hi : i < cword) (hw : words[i]? = some word) (hne : word ≠ "--")
    (hp : strings.HasPrefix word "-" = true) (hv : (splitFlagToken word).2 = false)
    (ht : takesValueOn node (splitFlagToken word).1 = true) (hc : i + 1 = cword) :
    walk words cword i node = ⟨node, -1, true⟩ := by
  obtain ⟨hl, e⟩ := getElem_of_getElem? hw
  rw [walk_unfold, dif_pos ⟨hi, hl⟩]
  simp [e, hne, hp, hv, ht, hc]

theorem walk_valueFlag (words : List String) (cword i : Nat) (node : completionNode)
    (word : String) (hi : i < cword) (hw : words[i]? = some word) (hne : word ≠ "--")
    (hp : strings.HasPrefix word "-" = true) (hv : (splitFlagToken word).2 = false)
    (ht : takesValueOn node (splitFlagToken word).1 = true) (hc : i + 1 ≠ cword) :
    walk words cword i node = walk words cword (i + 2) node := by
  obtain ⟨hl, e⟩ := getElem_of_getElem? hw
  rw [walk_unfold, dif_pos ⟨hi, hl⟩]
  simp [e, hne, hp, hv, ht, hc]

theorem walk_plainFlag (words : List String) (cword i : Nat) (node : completionNode)
    (word : String) (hi : i < cword) (hw : words[i]? = some word) (hne : word ≠ "--")
    (hp : strings.HasPrefix word "-" = true) (hv : (splitFlagToken word).2 = false)
    (ht : takesValueOn node (splitFlagToken word).1 = false) :
    walk words cword i node = walk words cword (i + 1) node := by
  obtain ⟨hl, e⟩ := getElem_of_getElem? hw
  rw [walk_unfold, dif_pos ⟨hi, hl⟩]
  simp [e, hne, hp, hv, ht]

theorem walk_descend (words : List String) (cword i : Nat) (node child : completionNode)
    (word : String) (hi : i < cword) (hw : words[i]? = some word) (hne : word ≠ "--")
    (hp : strings.HasPrefix word "-" = false)
    (hl : node.children.lookup word = some child) :
    walk words cword i node = walk words cword (i + 1) child := by
  obtain ⟨hlen, e⟩ := getElem_of_getElem? hw
  rw [walk_unfold, dif_pos ⟨hi, hlen⟩]
  simp [e, hne, hp, hl]

theorem walk_positional (words : List String) (cword i : Nat) (node : completionNode)
    (word : String) (hi : i < cword) (hw : words[i]? = some word) (hne : word ≠ "--")
    (hp : strings.HasPrefix word "-" = false)
    (hl : node.children.lookup word = none) :
    walk words cword i node = walk words cword (i + 1) node := by
  obtain ⟨hlen, e⟩ := getElem_of_getElem? hw
  rw [walk_unfold, dif_pos ⟨hi, hlen⟩]
  simp [e, hne, hp, hl]

/-- Induction over the iterations of the walk: a property of (scan index, node,
result) that holds where the loop stops and is carried backwards over every
`continue` holds of every entry point. -/
theorem walk_rec (words : List String) (cword : Nat)
    (P : Nat → completionNode → walkResult → Prop)
    (hexit : ∀ i node, ¬(i < cword ∧ i < words.length) → P i node ⟨node, -1, false⟩)
    (hterm : ∀ i node, i < cword → words[i]? = some "--" → P i node ⟨node, i, false⟩)
    (hret : ∀ i node word, i < cword → words[i]? = some word → word ≠ "--" →
      strings.HasPrefix word "-" = true → (splitFlagToken word).2 = false →
      takesValueOn node (splitFlagToken word).1 = true → i + 1 = cword →
      P i node ⟨node, -1, true⟩)
    (hinline : ∀ i node word r, i < cword → words[i]? = some word → word ≠ "--" →
      strings.HasPrefix word "-" = true → (splitFlagToken word).2 = true →
      P (i + 1) node r → P i node r)
    (hvalue : ∀ i node word r, i < cword → words[i]? = some word → word ≠ "--" →
      strings.HasPrefix word "-" = true → (splitFlagToken word).2 = false →
      takesValueOn node (splitFlagToken word).1 = true → i + 1 ≠ cword →
      P (i + 2) node r → P i node r)
    (hplain : ∀ i node word r, i < cword → words[i]? = some word → word ≠ "--" →
      strings.HasPrefix word "-" = true → (splitFlagToken word).2 = false →
      takesValueOn node (splitFlagToken word).1 = false →
      P (i + 1) node r → P i node r)
    (hdescend : ∀ i node child word r, i < cword → words[i]? = some word → word ≠ "--" →
      strings.HasPrefix word "-" = false → node.children.lookup word = some child →
      P (i + 1) child r → P i node r)
    (hpos : ∀ i node word r, i < cword → words[i]? = some word → word ≠ "--" →
      strings.HasPrefix word "-" = false → node.children.lookup word = none →
      P (i + 1) node r → P i node r)
    (i : Nat) (node : completionNode) : P i node (walk words cword i node) := by
  induction i, node using walk.induct words cword with
  | case1 i node h word hw =>
    have hg : words[i]? = some "--" := by rw [List.getElem?_eq_getElem h.2]; exact congrArg some hw
    rw [walk_terminator_here words cword i node h.1 hg]
    exact hterm i node h.1 hg
  | case2 i node h word hw hp hv ih =>
    have hg : words[i]? = some word := List.getElem?_eq_getElem h.2
    rw [walk_inlineFlag words cword i node word h.1 hg hw hp hv]
    exact hinline i node word _ h.1 hg hw hp hv ih
  | case3 i node h word hw hp hv ht hc =>
    have hg : words[i]? = some word := List.getElem?_eq_getElem h.2
    have hv2 : (splitFlagToken word).2 = false := by simpa using hv
    rw [walk_valueSlot words cword i node word h.1 hg hw hp hv2 ht hc]
    exact hret i node word h.1 hg hw hp hv2 ht hc
  | case4 i node h word hw hp hv ht hc ih =>
    have hg : words[i]? = some word := List.getElem?_eq_getElem h.2
    have hv2 : (splitFlagToken word).2 = false := by simpa using hv
    rw [walk_valueFlag words cword i node word h.1 hg hw hp hv2 ht hc]
    exact hvalue i node word _ h.1 hg hw hp hv2 ht hc ih
  | case5 i node h word hw hp hv ht ih =>
    have hg : words[i]? = some word := List.getElem?_eq_getElem h.2
    have hv2 : (splitFlagToken word).2 = false := by simpa using hv
    have ht2 : takesValueOn node (splitFlagToken word).1 = false := by simpa using ht
    rw [walk_plainFlag words cword i node word h.1 hg hw hp hv2 ht2]
    exact hplain i node word _ h.1 hg hw hp hv2 ht2 ih
  | case6 i node h word hw hp child hl ih =>
    have hg : words[i]? = some word := List.getElem?_eq_getElem h.2
    have hp2 : strings.HasPrefix word "-" = false := by simpa using hp
    rw [walk_descend words cword i node child word h.1 hg hw hp2 hl]
    exact hdescend i node child word _ h.1 hg hw hp2 hl ih
  | case7 i node h word hw hp hl ih =>
    have hg : words[i]? = some word := List.getElem?_eq_getElem h.2
    have hp2 : strings.HasPrefix word "-" = false := by simpa using hp
    rw [walk_positional words cword i node word h.1 hg hw hp2 hl]
    exact hpos i node word _ h.1 hg hw hp2 hl ih
  | case8 i node h =>
    rw [walk_exit words cword i node h]
    exact hexit i node h

/-! ## Invariants of the walk -/

/-- A recorded terminator index is the index of a `--` token that lies in
`[i, cword)`; the walk then did not return from inside the loop. -/
theorem walk_terminatorIndex (words : List String) (cword i : Nat) (node : completionNode) :
    (walk words cword i node).terminatorIndex = -1 ∨
      ∃ t : Nat, (walk words cword i node).terminatorIndex = (t : Int) ∧ i ≤ t ∧ t < cword ∧
        words[t]? = some "--" := by
  refine walk_rec words cword
    (fun i _ r => r.terminatorIndex = -1 ∨
      ∃ t : Nat, r.terminatorIndex = (t : Int) ∧ i ≤ t ∧ t < cword ∧ words[t]? = some "--")
    ?_ ?_ ?_ ?_ ?_ ?_ ?_ ?_ i node
  · intro i node _; exact Or.inl rfl
  · intro i node hi hw; exact Or.inr ⟨i, rfl, le_refl i, hi, hw⟩
  · intro i node word _ _ _ _ _ _ _; exact Or.inl rfl
  · intro i node word r _ _ _ _ _ ih
    rcases ih with ih | ⟨t, h1, h2, h3⟩
    · exact Or.inl ih
    · exact Or.inr ⟨t, h1, by omega, h3⟩
  · intro i node word r _ _ _ _ _ _ _ ih
    rcases ih with ih | ⟨t, h1, h2, h3⟩
    · exact Or.inl ih
    · exact Or.inr ⟨t, h1, by omega, h3⟩
  · intro i node word r _ _ _ _ _ _ ih
    rcases ih with ih | ⟨t, h1, h2, h3⟩
    · exact Or.inl ih
    · exact Or.inr ⟨t, h1, by omega, h3⟩
  · intro i node child word r _ _ _ _ _ ih
    rcases ih with ih | ⟨t, h1, h2, h3⟩
    · exact Or.inl ih
    · exact Or.inr ⟨t, h1, by omega, h3⟩
  · intro i node word r _ _ _ _ _ ih
    rcases ih with ih | ⟨t, h1, h2, h3⟩
    · exact Or.inl ih
    · exact Or.inr ⟨t, h1, by omega, h3⟩

/-- When the walk returns from inside the loop, the token before the cursor is an
`=`-free flag token that takes a value on the node the walk stopped at. -/
theorem walk_returned (words : List String) (cword i : Nat) (node : completionNode)
    (h : (walk words cword i node).returned = true) :
    ∃ prev, i < cword ∧ words[cword - 1]? = some prev ∧
      strings.HasPrefix prev "-" = true ∧ (splitFlagToken prev).2 = false ∧
      takesValueOn (walk words cword i node).node (splitFlagToken prev).1 = true := by
  revert h
  refine walk_rec words cword
    (fun i _ r => r.returned = true → ∃ prev, i < cword ∧ words[cword - 1]? = some prev ∧
      strings.HasPrefix prev "-" = true ∧ (splitFlagToken prev).2 = false ∧
      takesValueOn r.node (splitFlagToken prev).1 = true)
    ?_ ?_ ?_ ?_ ?_ ?_ ?_ ?_ i node
  · intro i node _ h; simp at h
  · intro i node _ _ h; simp at h
  · intro i node word hi hw _ hp hv ht hc _
    refine ⟨word, hi, ?_, hp, hv, ht⟩
    have : cword - 1 = i := by omega
    rw [this]; exact hw
  · intro i node word r _ _ _ _ _ ih h
    obtain ⟨prev, h1, h2⟩ := ih h
    exact ⟨prev, by omega, h2⟩
  · intro i node word r _ _ _ _ _ _ _ ih h
    obtain ⟨prev, h1, h2⟩ := ih h
    exact ⟨prev, by omega, h2⟩
  · intro i node word r _ _ _ _ _ _ ih h
    obtain ⟨prev, h1, h2⟩ := ih h
    exact ⟨prev, by omega, h2⟩
  · intro i node child word r _ _ _ _ _ ih h
    obtain ⟨prev, h1, h2⟩ := ih h
    exact ⟨prev, by omega, h2⟩
  · intro i node word r _ _ _ _ _ ih h
    obtain ⟨prev, h1, h2⟩ := ih h
    exact ⟨prev, by omega, h2⟩

/-- The walk entered at the start passes through every state it reaches. -/
theorem walk_of_walkReaches (words : List String) (cword start : Nat) (root : completionNode)
    (i : Nat) (node : completionNode) (h : walkReaches words cword start root i node) :
    walk words cword start root = walk words cword i node := by
  induction h with
  | entry => rfl
  | inlineFlag _ hi hw hne hp hv ih =>
    rw [ih]; exact walk_inlineFlag words cword _ _ _ hi hw hne hp hv
  | valueFlag _ hi hw hne hp hv ht hc ih =>
    rw [ih]; exact walk_valueFlag words cword _ _ _ hi hw hne hp hv ht hc
  | plainFlag _ hi hw hne hp hv ht ih =>
    rw [ih]; exact walk_plainFlag words cword _ _ _ hi hw hne hp hv ht
  | descend _ hi hw hne hp hl ih =>
    rw [ih]; exact walk_descend words cword _ _ _ _ hi hw hne hp hl
  | positional _ hi hw hne hp hl ih =>
    rw [ih]; exact walk_positional words cword _ _ _ hi hw hne hp hl

/-- A recorded terminator is a `--` token at a reached loop head. -/
theorem walkReaches_of_terminatorIndex (words : List String) (cword start : Nat)
    (root : completionNode) (i : Nat) (node : completionNode)
    (hr : walkReaches words cword start root i node)
    (ht : (walk words cword i node).terminatorIndex ≠ -1) :
    ∃ t node', walkReaches words cword start root t node' ∧ t < cword ∧
      words[t]? = some "--" := by
  revert hr ht
  refine walk_rec words cword
    (fun i node r => walkReaches words cword start root i node → r.terminatorIndex ≠ -1 →
      ∃ t node', walkReaches words cword start root t node' ∧ t < cword ∧
        words[t]? = some "--")
    ?_ ?_ ?_ ?_ ?_ ?_ ?_ ?_ i node
  · intro i node _ _ h; exact absurd rfl h
  · intro i node hi hw hr _; exact ⟨i, node, hr, hi, hw⟩
  · intro i node word _ _ _ _ _ _ _ _ h; exact absurd rfl h
  · intro i node word r hi hw hne hp hv ih hr h
    exact ih (walkReaches.inlineFlag hr hi hw hne hp hv) h
  · intro i node word r hi hw hne hp hv ht hc ih hr h
    exact ih (walkReaches.valueFlag hr hi hw hne hp hv ht hc) h
  · intro i node word r hi hw hne hp hv ht ih hr h
    exact ih (walkReaches.plainFlag hr hi hw hne hp hv ht) h
  · intro i node child word r hi hw hne hp hl ih hr h
    exact ih (walkReaches.descend hr hi hw hne hp hl) h
  · intro i node word r hi hw hne hp hl ih hr h
    exact ih (walkReaches.positional hr hi hw hne hp hl) h

/-! ## Facts about `completeFrom` -/

theorem sort.Strings_perm (l : List String) : (sort.Strings l).Perm l :=
  List.perm_insertionSort _ l

theorem sort.Strings_sorted (l : List String) :
    List.Sorted (fun a b : String => a ≤ b) (sort.Strings l) :=
  List.sorted_insertionSort _ l

theorem mem_sort.Strings (l : List String) (s : String) : s ∈ sort.Strings l ↔ s ∈ l :=
  (sort.Strings_perm l).mem_iff

theorem completeFrom_of_returned (root : completionNode) (cword : Nat) (words : List String)
    (h : (walk words cword (startIndex words) root).returned = true) :
    completeFrom root cword words = [] := by
  unfold completeFrom
  simp only [h, if_true]

theorem completeFrom_of_terminatorIndex (root : completionNode) (cword : Nat)
    (words : List String)
    (h : (walk words cword (startIndex words) root).terminatorIndex ≠ -1) :
    completeFrom root cword words = [] := by
  unfold completeFrom
  rcases walk_terminatorIndex words cword (startIndex words) root with h1 | ⟨t, h1, _, h3, _⟩
  · exact absurd h1 h
  · have hge : (cword : Int) ≥ (walk words cword (startIndex words) root).terminatorIndex := by
      rw [h1]; omega
    simp only [ne_eq, h, not_false_eq_true, hge, and_self, if_true, ite_self]

theorem completeFrom_of_current_terminator (root : completionNode) (cword : Nat)
    (words : List String) (h : words[cword]? = some "--") :
    completeFrom root cword words = [] := by
  obtain ⟨hl, e⟩ := getElem_of_getElem? h
  unfold completeFrom
  simp only [hl, e, dite_true, if_true, ite_self]

theorem completeFrom_of_prevTakesValue (root : completionNode) (cword : Nat)
    (words : List String)
    (h : prevTakesValue words (walk words cword (startIndex words) root).node
      (startIndex words) cword = true) :
    completeFrom root cword words = [] := by
  unfold completeFrom
  simp only [h, if_true, ite_self]

/-- The value of `completeFrom` when none of its four early returns fires. -/
theorem completeFrom_of_pass (root : completionNode) (cword : Nat) (words : List String)
    (hret : (walk words cword (startIndex words) root).returned = false)
    (hterm : (walk words cword (startIndex words) root).terminatorIndex = -1)
    (hcur : words[cword]? ≠ some "--")
    (hprev : prevTakesValue words (walk words cword (startIndex words) root).node
      (startIndex words) cword = false) :
    completeFrom root cword words =
      suggestions (walk words cword (startIndex words) root).node
        (currentWord words cword) := by
  have hc : ¬(if h : cword < words.length then words[cword] = "--" else False) := by
    intro hc
    split at hc
    · rename_i hl
      exact hcur (by rw [List.getElem?_eq_getElem hl, hc])
    · exact hc
  unfold completeFrom
  simp only [hret, hterm, hprev, hc, ne_eq, not_true_eq_false, false_and, if_false,
    Bool.false_eq_true]

theorem suggestions_sorted (node : completionNode) (current : String) :
    List.Sorted (fun a b : String => a ≤ b) (suggestions node current) := by
  unfold suggestions
  split <;> exact sort.Strings_sorted _

theorem mem_suggestions (node : completionNode) (current s : String) :
    s ∈ suggestions node current ↔
      if strings.HasPrefix current "-" = true then
        s ∈ keys node.flags ∧ strings.HasPrefix s current = true
      else
        (s ∈ keys node.children ∨ s ∈ keys node.flags) ∧ strings.HasPrefix s current = true := by
  unfold suggestions
  split
  · simp [mem_sort.Strings, matchingFlags]
  · simp only [mem_sort.Strings, matchingFlags, matchingCommands, List.mem_append,
      List.mem_filter]
    tauto

/-- Every value of `completeFrom` is empty or the sorted matches of the node
the walk stopped at. -/
theorem completeFrom_cases (root : completionNode) (cword : Nat) (words : List String) :
    completeFrom root cword words = [] ∨
    completeFrom root cword words =
      suggestions (walk words cword (startIndex words) root).node
        (currentWord words cword) := by
  by_cases hret : (walk words cword (startIndex words) root).returned = true
  · exact Or.inl (completeFrom_of_returned root cword words hret)
  by_cases hterm : (walk words cword (startIndex words) root).terminatorIndex = -1
  swap
  · exact Or.inl (completeFrom_of_terminatorIndex root cword words hterm)
  by_cases hcur : words[cword]? = some "--"
  · exact Or.inl (completeFrom_of_current_terminator root cword words hcur)
  by_cases hprev : prevTakesValue words (walk words cword (startIndex words) root).node
      (startIndex words) cword = true
  · exact Or.inl (completeFrom_of_prevTakesValue root cword words hprev)
  · exact Or.inr (completeFrom_of_pass root cword words (by simpa using hret) hterm hcur
      (by simpa using hprev))

/-- Every value of `completeWords` is empty or a value of `completeFrom` at the
normalised cursor. -/
theorem completeWords_cases (root : completionNode) (cword : Int) (words : List String) :
    completeWords root cword words = [] ∨
    (words ≠ [] ∧
      completeWords root cword words = completeFrom root (cursor cword words) words) := by
  by_cases hne : words = []
  · subst hne; exact Or.inl (completeWords_nil root cword)
  · exact Or.inr ⟨hne, completeWords_eq_completeFrom root cword words hne⟩

/-! ## The sample trees are built from command models -/

theorem sampleRoot_built : buildCompletionNode sampleModel = sampleRoot := by
  simp [buildCompletionNode, buildChildren, sampleModel, sampleRoot, authNode, addChildNames,
    addFlagTokens, addFlag, negatedFlagName, kongNode.Hidden, kongNode.Name, kongNode.Aliases]

theorem pathFlagRoot_built : buildCompletionNode pathFlagModel = pathFlagRoot := by
  simp [buildCompletionNode, buildChildren, pathFlagModel, pathFlagRoot, addFlagTokens, addFlag,
    negatedFlagName]

theorem clashRoot_built : buildCompletionNode clashModel = clashRoot := by
  simp [buildCompletionNode, buildChildren, clashModel, clashRoot, addChildNames,
    addFlagTokens, addFlag, negatedFlagName, kongNode.Hidden, kongNode.Name, kongNode.Aliases]

/-! ## C1: the cursor after a terminator -/

/-- C1 (as amended): if the walk over `tokens[start..cword)` reaches a loop head
at an index `t < cword` whose token is the terminator `--` (a `--` that is not
skipped as the value of a value-taking flag), `completeWords` returns the empty
list. -/
theorem completeWords_after_terminator (root : completionNode) (cword : Int)
    (words : List String) (t : Nat) (node : completionNode)
    (hreach : walkReaches words (cursor cword words) (startIndex words) root t node)
    (hlt : t < cursor cword words) (hw : words[t]? = some "--") :
    completeWords root cword words = [] := by
  have hne : words ≠ [] := by
    intro h; subst h; simp at hw
  rw [completeWords_eq_completeFrom root cword words hne]
  apply completeFrom_of_terminatorIndex
  rw [walk_of_walkReaches words _ _ root t node hreach,
    walk_terminator_here words _ t node hlt hw]
  simp

theorem cursor_sample : cursor 3 ["gog", "auth", "--", "-"] = 3 := by
  simp [cursor]

theorem startIndex_gog (ws : List String) : startIndex ("gog" :: ws) = 1 := by
  simp [startIndex, isProgramName]

/-- C1 (witness): scenario 2 of the specification. -/
theorem completeWords_after_terminator_witness :
    walkReaches ["gog", "auth", "--", "-"] (cursor 3 ["gog", "auth", "--", "-"])
        (startIndex ["gog", "auth", "--", "-"]) sampleRoot 2 authNode ∧
      2 < cursor 3 ["gog", "auth", "--", "-"] ∧
      (["gog", "auth", "--", "-"] : List String)[2]? = some "--" ∧
      completeWords sampleRoot 3 ["gog", "auth", "--", "-"] = [] := by
  have hr : walkReaches ["gog", "auth", "--", "-"] (cursor 3 ["gog", "auth", "--", "-"])
      (startIndex ["gog", "auth", "--", "-"]) sampleRoot 2 authNode := by
    rw [startIndex_gog, cursor_sample]
    exact @walkReaches.descend _ _ _ _ 1 sampleRoot authNode "auth" walkReaches.entry
      (by decide) (by simp) (by decide) (by decide)
      (by simp [sampleRoot, completionNode.children, List.lookup])
  have hl : 2 < cursor 3 ["gog", "auth", "--", "-"] := by rw [cursor_sample]; decide
  exact ⟨hr, hl, by simp,
    completeWords_after_terminator sampleRoot 3 ["gog", "auth", "--", "-"] 2 authNode hr hl
      (by simp)⟩

/-- C1 (counterexample): a `--` token at index 2, before the cursor at index 3,
that is consumed as the value of the value-taking flag `--account`; the result
is not empty. -/
theorem completeWords_after_terminator_counterexample :
    (["gog", "--account", "--", "-"] : List String)[2]? = some "--" ∧
      2 < cursor 3 ["gog", "--account", "--", "-"] ∧
      completeWords sampleRoot 3 ["gog", "--account", "--", "-"] =
        ["--account", "--verbose"] := by
  refine ⟨by simp, by simp [cursor], ?_⟩
  simp [completeWords, completeFrom, suggestions, walk, startIndex, isProgramName, sampleRoot,
    takesValueOn, splitFlagToken, prevTakesValue, currentWord, strings.HasPrefix, matchingFlags,
    keys, completionNode.flags, sort.Strings, List.lookup]
  decide

/-! ## C2: the value slot of a flag -/

theorem splitFlagToken_of_no_eq (word : String) (h : '=' ∉ word.data) :
    splitFlagToken word = (word, false) := by
  simp [splitFlagToken, h]

/-- C2 (as amended): if the token immediately before the cursor lies at an
index `≥ start` (it is not the skipped program name), starts with `-`, contains
no `=` and is registered as a value-taking flag on the node reached by the walk,
`completeWords` returns the empty list. -/
theorem completeWords_value_slot (root : completionNode) (cword : Int) (words : List String)
    (prev : String)
    (hstart : startIndex words < cursor cword words)
    (hprev : words[cursor cword words - 1]? = some prev)
    (hdash : strings.HasPrefix prev "-" = true)
    (heq : '=' ∉ prev.data)
    (htv : takesValueOn (walk words (cursor cword words) (startIndex words) root).node prev
      = true) :
    completeWords root cword words = [] := by
  have hne : words ≠ [] := by
    intro h; subst h; simp at hprev
  rw [completeWords_eq_completeFrom root cword words hne]
  apply completeFrom_of_prevTakesValue
  obtain ⟨hl, e⟩ := getElem_of_getElem? hprev
  have hle := cursor_le cword words hne
  unfold prevTakesValue
  rw [dif_pos ⟨hstart, hle⟩]
  simp only [e, hdash, if_true, splitFlagToken_of_no_eq prev heq, htv, Bool.false_eq_true,
    if_false]

/-- C2 (witness): scenario 4 of the specification. -/
theorem completeWords_value_slot_witness :
    startIndex ["gog", "auth", "--account", "x"] < cursor 3 ["gog", "auth", "--account", "x"] ∧
      (["gog", "auth", "--account", "x"] : List String)[
        cursor 3 ["gog", "auth", "--account", "x"] - 1]? = some "--account" ∧
      completeWords sampleRoot 3 ["gog", "auth", "--account", "x"] = [] := by
  have hs : startIndex ["gog", "auth", "--account", "x"]
      < cursor 3 ["gog", "auth", "--account", "x"] := by
    simp [startIndex_gog, cursor]
  have hp : (["gog", "auth", "--account", "x"] : List String)[
      cursor 3 ["gog", "auth", "--account", "x"] - 1]? = some "--account" := by
    simp [cursor]
  refine ⟨hs, hp, completeWords_value_slot sampleRoot 3 ["gog", "auth", "--account", "x"]
    "--account" hs hp (by decide) (by decide) ?_⟩
  simp [walk, cursor, startIndex, isProgramName, sampleRoot, authNode, takesValueOn,
    splitFlagToken, strings.HasPrefix, completionNode.flags, completionNode.children,
    List.lookup]

/-- C2 (counterexample): on the tree built from a model with one string flag
whose long token ends like a path to `gog`, the only token is that flag token:
it is skipped as program name, stands immediately before the cursor, contains
no `=` and takes a value on the root, yet the result is not empty. -/
theorem completeWords_value_slot_counterexample :
    buildCompletionNode pathFlagModel = pathFlagRoot ∧
      (["--/gog"] : List String)[cursor 1 ["--/gog"] - 1]? = some "--/gog" ∧
      '=' ∉ ("--/gog" : String).data ∧
      takesValueOn (walk ["--/gog"] (cursor 1 ["--/gog"]) (startIndex ["--/gog"])
        pathFlagRoot).node "--/gog" = true ∧
      completeWords pathFlagRoot 1 ["--/gog"] = ["--/gog"] := by
  have hs : startIndex ["--/gog"] = 1 := by decide
  refine ⟨pathFlagRoot_built, by simp [cursor], by decide, ?_, ?_⟩
  · simp [walk, cursor, hs, pathFlagRoot, takesValueOn, completionNode.flags, List.lookup]
  · simp [completeWords, completeFrom, suggestions, walk, hs, pathFlagRoot, prevTakesValue,
      currentWord, strings.HasPrefix, matchingFlags, matchingCommands, keys,
      completionNode.flags, completionNode.children, sort.Strings]

/-! ## C4: the result is sorted -/

theorem completeFrom_sorted (root : completionNode) (cword : Nat) (words : List String) :
    List.Sorted (fun a b : String => a ≤ b) (completeFrom root cword words) := by
  rcases completeFrom_cases root cword words with h | h
  · rw [h]; exact List.sorted_nil
  · rw [h]; exact suggestions_sorted _ _

/-- C4: for every tree, token list and cursor, the list returned by
`completeWords` is sorted in ascending lexicographic order. -/
theorem completeWords_sorted (root : completionNode) (cword : Int) (words : List String) :
    List.Sorted (fun a b : String => a ≤ b) (completeWords root cword words) := by
  rcases completeWords_cases root cword words with h | ⟨_, h⟩
  · rw [h]; exact List.sorted_nil
  · rw [h]; exact completeFrom_sorted root _ words

/-! ## C6: the cursor on the terminator -/

theorem cursor_of_nonneg (cword : Int) (words : List String) (h0 : 0 ≤ cword)
    (h1 : cword ≤ words.length) : cursor cword words = cword.toNat := by
  unfold cursor
  rw [if_neg (by omega)]
  simp only
  rw [if_neg (by omega)]

/-- C6: for every tree, token list and cursor with `0 ≤ cword < len(tokens)` and
`tokens[cword] = "--"`, `completeWords` returns the empty list, whatever the
preceding tokens are. -/
theorem completeWords_at_terminator (root : completionNode) (cword : Int)
    (words : List String) (h0 : 0 ≤ cword) (h1 : cword < words.length)
    (h2 : words[cword.toNat]? = some "--") :
    completeWords root cword words = [] := by
  have hne : words ≠ [] := by
    intro h; subst h; simp at h2
  rw [completeWords_eq_completeFrom root cword words hne,
    cursor_of_nonneg cword words h0 (by omega)]
  exact completeFrom_of_current_terminator root _ words h2

/-- C6 (witness): scenario 1 of the specification. -/
theorem completeWords_at_terminator_witness :
    completeWords sampleRoot 1 ["gog", "--"] = [] :=
  completeWords_at_terminator sampleRoot 1 ["gog", "--"] (by decide) (by decide) (by simp)

/-! ## The walk over two token lists that agree on the scanned region -/

/-- If `ws1` read `d` places further on agrees with `ws2` on the indices in
`[i0, c)`, the walk over `ws1` with cursor `c + d` entered at `i + d` does what the
walk over `ws2` with cursor `c` entered at `i` does, a recorded terminator index
being `d` greater. -/
theorem walk_shift (ws1 ws2 : List String) (c d i0 : Nat)
    (hagree : ∀ j, i0 ≤ j → j < c → ws1[j + d]? = ws2[j]?)
    (i : Nat) (node : completionNode) (hi : i0 ≤ i) :
    walk ws1 (c + d) (i + d) node =
      ⟨(walk ws2 c i node).node,
        if (walk ws2 c i node).terminatorIndex = -1 then -1
        else (walk ws2 c i node).terminatorIndex + d,
        (walk ws2 c i node).returned⟩ := by
  revert hi
  refine walk_rec ws2 c
    (fun i node r => i0 ≤ i → walk ws1 (c + d) (i + d) node =
      ⟨r.node, if r.terminatorIndex = -1 then -1 else r.terminatorIndex + d, r.returned⟩)
    ?_ ?_ ?_ ?_ ?_ ?_ ?_ ?_ i node
  · intro i node h hi
    have h1 : ¬(i + d < c + d ∧ i + d < ws1.length) := by
      rintro ⟨ha, hb⟩
      have hic : i < c := by omega
      have hnone : ws2[i]? = none := List.getElem?_eq_none (by
        by_contra hlt
        exact h ⟨hic, by omega⟩)
      have hsome := hagree i hi hic
      rw [hnone, List.getElem?_eq_getElem hb] at hsome
      exact Option.noConfusion hsome
    rw [walk_exit ws1 (c + d) (i + d) node h1]
    simp
  · intro i node hic hw hi
    rw [walk_terminator_here ws1 (c + d) (i + d) node (by omega) ((hagree i hi hic).trans hw)]
    have hne : ¬((i : Int) = -1) := by omega
    simp [hne]
  · intro i node word hic hw hne hp hv ht hc hi
    rw [walk_valueSlot ws1 (c + d) (i + d) node word (by omega) ((hagree i hi hic).trans hw)
      hne hp hv ht (by omega)]
    simp
  · intro i node word r hic hw hne hp hv ih hi
    rw [walk_inlineFlag ws1 (c + d) (i + d) node word (by omega) ((hagree i hi hic).trans hw)
      hne hp hv]
    have e : i + d + 1 = i + 1 + d := by omega
    rw [e]; exact ih (by omega)
  · intro i node word r hic hw hne hp hv ht hc ih hi
    rw [walk_valueFlag ws1 (c + d) (i + d) node word (by omega) ((hagree i hi hic).trans hw)
      hne hp hv ht (by omega)]
    have e : i + d + 2 = i + 2 + d := by omega
    rw [e]; exact ih (by omega)
  · intro i node word r hic hw hne hp hv ht ih hi
    rw [walk_plainFlag ws1 (c + d) (i + d) node word (by omega) ((hagree i hi hic).trans hw)
      hne hp hv ht]
    have e : i + d + 1 = i + 1 + d := by omega
    rw [e]; exact ih (by omega)
  · intro i node child word r hic hw hne hp hl ih hi
    rw [walk_descend ws1 (c + d) (i + d) node child word (by omega)
      ((hagree i hi hic).trans hw) hne hp hl]
    have e : i + d + 1 = i + 1 + d := by omega
    rw [e]; exact ih (by omega)
  · intro i node word r hic hw hne hp hl ih hi
    rw [walk_positional ws1 (c + d) (i + d) node word (by omega)
      ((hagree i hi hic).trans hw) hne hp hl]
    have e : i + d + 1 = i + 1 + d := by omega
    rw [e]; exact ih (by omega)

/-- The walk reads only the tokens before the cursor. -/
theorem walk_congr (ws1 ws2 : List String) (c : Nat)
    (hagree : ∀ j, j < c → ws1[j]? = ws2[j]?) (i : Nat) (node : completionNode) :
    walk ws1 c i node = walk ws2 c i node := by
  have h := walk_shift ws1 ws2 c 0 0 (fun j _ hj => hagree j hj) i node (Nat.zero_le i)
  simp only [Nat.add_zero, Nat.cast_zero, Int.add_zero] at h
  rw [h]
  by_cases ht : (walk ws2 c i node).terminatorIndex = -1
  · rw [if_pos ht, ← ht]
  · rw [if_neg ht]

/-! ## C3: the suggestions when no early return fires -/

/-- C3: for a non-empty token list (the empty one is answered by the first
empty-result rule), whenever the walk over `tokens[start..cword)` met no `--`,
the token at `cword` is not `--`, and the token before `cword`, if there is one
at an index `≥ start`, either does not start with `-` or is an `=`-free token
that is not a value-taking flag of the current node, the result of `completeWords`
contains exactly: when the current token starts with `-`, the flag tokens of the
current node that have the current token as a prefix; otherwise the child
names and the flag tokens of the current node that have it as a prefix. -/
theorem completeWords_suggestions (root : completionNode) (cword : Int) (words : List String)
    (hne : words ≠ [])
    (hterm : ∀ t node, walkReaches words (cursor cword words) (startIndex words) root t node →
      t < cursor cword words → words[t]? ≠ some "--")
    (hcur : words[cursor cword words]? ≠ some "--")
    (hprev : ∀ prev, startIndex words < cursor cword words →
      words[cursor cword words - 1]? = some prev →
      strings.HasPrefix prev "-" = false ∨
        ('=' ∉ prev.data ∧
          takesValueOn (walk words (cursor cword words) (startIndex words) root).node prev
            = false))
    (s : String) :
    s ∈ completeWords root cword words ↔
      if strings.HasPrefix (currentWord words (cursor cword words)) "-" = true then
        s ∈ keys (walk words (cursor cword words) (startIndex words) root).node.flags ∧
          strings.HasPrefix s (currentWord words (cursor cword words)) = true
      else
        (s ∈ keys (walk words (cursor cword words) (startIndex words) root).node.children ∨
          s ∈ keys (walk words (cursor cword words) (startIndex words) root).node.flags) ∧
          strings.HasPrefix s (currentWord words (cursor cword words)) = true := by
  have hret : (walk words (cursor cword words) (startIndex words) root).returned = false := by
    by_contra hr
    have hr2 : (walk words (cursor cword words) (startIndex words) root).returned = true := by
      simpa using hr
    obtain ⟨prev, h1, h2, h3, h4, h5⟩ := walk_returned words _ _ root hr2
    rcases hprev prev h1 h2 with h | ⟨h, h6⟩
    · rw [h3] at h; exact Bool.noConfusion h
    · rw [splitFlagToken_of_no_eq prev h] at h5
      rw [h6] at h5; exact Bool.noConfusion h5
  have hti : (walk words (cursor cword words) (startIndex words) root).terminatorIndex = -1 := by
    by_contra ht
    obtain ⟨t, node', hr, hlt, hw⟩ :=
      walkReaches_of_terminatorIndex words _ _ root _ root walkReaches.entry ht
    exact hterm t node' hr hlt hw
  have hpv : prevTakesValue words (walk words (cursor cword words) (startIndex words) root).node
      (startIndex words) (cursor cword words) = false := by
    unfold prevTakesValue
    split
    · rename_i hc
      have hlt : cursor cword words - 1 < words.length := by omega
      rcases hprev _ hc.1 (List.getElem?_eq_getElem hlt) with h | ⟨h, h6⟩
      · simp only [h, Bool.false_eq_true, if_false]
      · simp only [splitFlagToken_of_no_eq _ h, h6, Bool.false_eq_true, if_false, ite_self]
    · rfl
  rw [completeWords_eq_completeFrom root cword words hne,
    completeFrom_of_pass root _ words hret hti hcur hpv]
  exact mem_suggestions _ _ s

/-- C3 (witness): scenario 3 of the specification. -/
theorem completeWords_suggestions_witness :
    "--account" ∈ completeWords sampleRoot 2 ["gog", "auth", "--account"] ↔
      if strings.HasPrefix
          (currentWord ["gog", "auth", "--account"] (cursor 2 ["gog", "auth", "--account"]))
          "-" = true then
        "--account" ∈ keys (walk ["gog", "auth", "--account"]
          (cursor 2 ["gog", "auth", "--account"])
          (startIndex ["gog", "auth", "--account"]) sampleRoot).node.flags ∧
          strings.HasPrefix "--account"
            (currentWord ["gog", "auth", "--account"] (cursor 2 ["gog", "auth", "--account"]))
            = true
      else
        ("--account" ∈ keys (walk ["gog", "auth", "--account"]
            (cursor 2 ["gog", "auth", "--account"])
            (startIndex ["gog", "auth", "--account"]) sampleRoot).node.children ∨
          "--account" ∈ keys (walk ["gog", "auth", "--account"]
            (cursor 2 ["gog", "auth", "--account"])
            (startIndex ["gog", "auth", "--account"]) sampleRoot).node.flags) ∧
          strings.HasPrefix "--account"
            (currentWord ["gog", "auth", "--account"] (cursor 2 ["gog", "auth", "--account"]))
            = true := by
  have hc : cursor 2 ["gog", "auth", "--account"] = 2 := by simp [cursor]
  refine completeWords_suggestions sampleRoot 2 ["gog", "auth", "--account"] (by simp) ?_ ?_ ?_
    "--account"
  · intro t node _ ht
    rw [hc] at ht
    interval_cases t <;> simp
  · rw [hc]; simp
  · intro prev _ hp
    rw [hc] at hp
    left
    simp at hp
    subst hp
    decide

/-! ## C7: every suggestion extends the current token -/

/-- C7: every string returned by `completeWords` has the token being completed
(`tokens[cword]` after cursor normalisation, or the empty string when the cursor
is past the last token) as a prefix. -/
theorem completeWords_prefix (root : completionNode) (cword : Int) (words : List String)
    (s : String) (hs : s ∈ completeWords root cword words) :
    strings.HasPrefix s (currentWord words (cursor cword words)) = true := by
  rcases completeWords_cases root cword words with h | ⟨_, h⟩
  · rw [h] at hs; simp at hs
  · rw [h] at hs
    rcases completeFrom_cases root (cursor cword words) words with h2 | h2
    · rw [h2] at hs; simp at hs
    · rw [h2, mem_suggestions] at hs
      split at hs
      · exact hs.2
      · exact hs.2

/-- C7 (witness): completing `a` under the root offers `auth`. -/
theorem completeWords_prefix_witness :
    "auth" ∈ completeWords sampleRoot 1 ["gog", "a"] ∧
      strings.HasPrefix "auth" (currentWord ["gog", "a"] (cursor 1 ["gog", "a"])) = true := by
  have hm : "auth" ∈ completeWords sampleRoot 1 ["gog", "a"] := by
    simp [completeWords, completeFrom, suggestions, walk, startIndex, isProgramName, sampleRoot,
      prevTakesValue, currentWord, strings.HasPrefix, matchingFlags, matchingCommands, keys,
      completionNode.flags, completionNode.children, sort.Strings]
  exact ⟨hm, completeWords_prefix sampleRoot 1 ["gog", "a"] "auth" hm⟩

/-! ## C9: a negative cursor -/

/-- C9: for every non-empty token list and every negative `cword`,
`completeWords(cword, tokens)` equals `completeWords(len(tokens) - 1, tokens)`. -/
theorem completeWords_negative_cursor (root : completionNode) (cword : Int)
    (words : List String) (hne : words ≠ []) (hneg : cword < 0) :
    completeWords root cword words =
      completeWords root ((words.length : Int) - 1) words := by
  have hlen : 0 < words.length := List.length_pos.mpr hne
  rw [completeWords_eq_completeFrom root cword words hne,
    completeWords_eq_completeFrom root _ words hne]
  have e : cursor cword words = cursor ((words.length : Int) - 1) words := by
    unfold cursor
    rw [if_pos hneg, if_neg (by omega)]
  rw [e]

/-- C9 (witness): the default cursor `-1` of the command completes the last
token. -/
theorem completeWords_negative_cursor_witness :
    completeWords sampleRoot (-1) ["gog", "a"] =
      completeWords sampleRoot (((["gog", "a"] : List String).length : Int) - 1) ["gog", "a"] :=
  completeWords_negative_cursor sampleRoot (-1) ["gog", "a"] (by simp) (by decide)

/-! ## Two calls that read the same tokens -/

theorem currentWord_eq_getD (words : List String) (c : Nat) :
    currentWord words c = (words[c]?).getD "" := by
  unfold currentWord
  split
  · rename_i h; rw [List.getElem?_eq_getElem h]; rfl
  · rename_i h; rw [List.getElem?_eq_none (by omega)]; rfl

theorem getElem?_terminator_iff (words : List String) (c : Nat) :
    words[c]? = some "--" ↔ currentWord words c = "--" := by
  rw [currentWord_eq_getD]
  cases h : words[c]? with
  | none => simp
  | some w => simp

/-- The four early returns of `completeFrom` in one condition. -/
theorem completeFrom_eq_ite (root : completionNode) (c : Nat) (words : List String) :
    completeFrom root c words =
      if (walk words c (startIndex words) root).returned = true ∨
          (walk words c (startIndex words) root).terminatorIndex ≠ -1 ∨
          currentWord words c = "--" ∨
          prevTakesValue words (walk words c (startIndex words) root).node
            (startIndex words) c = true then []
      else suggestions (walk words c (startIndex words) root).node (currentWord words c) := by
  split
  · rename_i h
    rcases h with h | h | h | h
    · exact completeFrom_of_returned root c words h
    · exact completeFrom_of_terminatorIndex root c words h
    · exact completeFrom_of_current_terminator root c words
        ((getElem?_terminator_iff words c).mpr h)
    · exact completeFrom_of_prevTakesValue root c words h
  · rename_i h
    simp only [not_or, ne_eq, not_not] at h
    exact completeFrom_of_pass root c words (by simpa using h.1) h.2.1
      (fun hc => h.2.2.1 ((getElem?_terminator_iff words c).mp hc)) (by simpa using h.2.2.2)

theorem prevTakesValue_congr (ws1 ws2 : List String) (node : completionNode)
    (s1 s2 c1 c2 : Nat) (hs : s1 < c1 ↔ s2 < c2) (hc1 : c1 ≤ ws1.length)
    (hc2 : c2 ≤ ws2.length) (hprev : s1 < c1 → ws1[c1 - 1]? = ws2[c2 - 1]?) :
    prevTakesValue ws1 node s1 c1 = prevTakesValue ws2 node s2 c2 := by
  unfold prevTakesValue
  by_cases h : s1 < c1
  · have h2 : s2 < c2 := hs.mp h
    have hp := hprev h
    rw [List.getElem?_eq_getElem (by omega), List.getElem?_eq_getElem (by omega)] at hp
    have hp2 := Option.some.inj hp
    rw [dif_pos ⟨h, hc1⟩, dif_pos ⟨h2, hc2⟩]
    simp only [hp2]
  · have h2 : ¬ s2 < c2 := fun h3 => h (hs.mpr h3)
    rw [dif_neg (fun hh => h hh.1), dif_neg (fun hh => h2 hh.1)]

/-- Two calls of `completeFrom` whose walks end alike, whose current tokens are
equal and whose previous-token tests agree return the same list. -/
theorem completeFrom_congr (root : completionNode) (ws1 ws2 : List String) (c1 c2 : Nat)
    (hret : (walk ws1 c1 (startIndex ws1) root).returned
      = (walk ws2 c2 (startIndex ws2) root).returned)
    (hnode : (walk ws1 c1 (startIndex ws1) root).node
      = (walk ws2 c2 (startIndex ws2) root).node)
    (hti : (walk ws1 c1 (startIndex ws1) root).terminatorIndex = -1 ↔
      (walk ws2 c2 (startIndex ws2) root).terminatorIndex = -1)
    (hcur : currentWord ws1 c1 = currentWord ws2 c2)
    (hprev : prevTakesValue ws1 (walk ws2 c2 (startIndex ws2) root).node (startIndex ws1) c1
      = prevTakesValue ws2 (walk ws2 c2 (startIndex ws2) root).node (startIndex ws2) c2) :
    completeFrom root c1 ws1 = completeFrom root c2 ws2 := by
  rw [completeFrom_eq_ite root c1 ws1, completeFrom_eq_ite root c2 ws2, hret, hnode, hcur,
    hprev]
  simp only [ne_eq, hti]

/-! ## C10: a cursor at or past the end -/

/-- C10: for every non-empty token list and every `cword ≥ len(tokens)`,
`completeWords(cword, tokens)` equals `completeWords(len(tokens), tokens ++ [""])`. -/
theorem completeWords_past_end (root : completionNode) (cword : Int) (words : List String)
    (hne : words ≠ []) (hge : (words.length : Int) ≤ cword) :
    completeWords root cword words =
      completeWords root (words.length : Int) (words ++ [""]) := by
  have hlen : 0 < words.length := List.length_pos.mpr hne
  have hne2 : words ++ [""] ≠ [] := by simp
  rw [completeWords_eq_completeFrom root cword words hne,
    completeWords_eq_completeFrom root _ _ hne2]
  have e1 : cursor cword words = words.length := by
    unfold cursor
    rw [if_neg (by omega)]
    simp only
    split <;> omega
  have e2 : cursor (words.length : Int) (words ++ [""]) = words.length := by
    unfold cursor
    rw [if_neg (by omega)]
    simp only [List.length_append, List.length_singleton]
    rw [if_neg (by push_cast; omega)]
    simp
  have hs : startIndex (words ++ [""]) = startIndex words := by
    cases words with
    | nil => exact absurd rfl hne
    | cons w ws => rfl
  have hw : walk words words.length (startIndex words) root =
      walk (words ++ [""]) words.length (startIndex words) root :=
    walk_congr words (words ++ [""]) words.length
      (fun j hj => (List.getElem?_append_left hj).symm) _ root
  rw [e1, e2]
  apply completeFrom_congr
  · rw [hs, hw]
  · rw [hs, hw]
  · rw [hs, hw]
  · rw [currentWord_eq_getD, currentWord_eq_getD]
    simp
  · rw [hs]
    apply prevTakesValue_congr
    · exact Iff.rfl
    · exact le_refl _
    · simp
    · intro _
      exact (List.getElem?_append_left (by omega)).symm

/-- C10 (witness): a cursor past the single token completes a new empty token. -/
theorem completeWords_past_end_witness :
    completeWords sampleRoot 5 ["gog", "auth"] =
      completeWords sampleRoot ((["gog", "auth"] : List String).length : Int)
        (["gog", "auth"] ++ [""]) :=
  completeWords_past_end sampleRoot 5 ["gog", "auth"] (by simp) (by decide)

/-! ## C8: a flag written in inline form -/

theorem startIndex_of_isProgramName (g : String) (ws : List String)
    (hg : isProgramName g = true) : startIndex (g :: ws) = 1 := by
  simp [startIndex, hg]

theorem splitFlagToken_of_eq (word : String) (h : '=' ∈ word.data) :
    (splitFlagToken word).2 = true := by
  simp [splitFlagToken, h]

theorem ne_terminator_of_eq (word : String) (h : '=' ∈ word.data) : word ≠ "--" := by
  intro e
  subst e
  revert h
  decide

theorem cursor_cons_cons (g x : String) (rest : List String) (k : Int) (hk : 1 ≤ k) :
    cursor (k + 1) (g :: x :: rest) = cursor k (g :: rest) + 1 := by
  unfold cursor
  rw [if_neg (by omega), if_neg (by omega)]
  simp only [List.length_cons]
  push_cast
  split <;> split <;> omega

/-- C8 (as amended): let `g` be a program-name token, `x` a token that starts
with `-` and contains `=`, and `k ≥ 1`.  When `x` is not the token immediately
before the cursor (`k ≥ 2` and `rest` non-empty), `completeWords(k+1, [g, x] ++ rest)`
equals `completeWords(k, [g] ++ rest)`.  When it is (`k = 1` or `rest` empty),
`completeWords(k+1, [g, x] ++ rest)` is empty: the slot right after an
inline-form flag is not completed. -/
theorem completeWords_inline_flag (root : completionNode) (g x : String)
    (rest : List String) (k : Int)
    (hg : isProgramName g = true) (hx : strings.HasPrefix x "-" = true)
    (heq : '=' ∈ x.data) (hk : 1 ≤ k) :
    (2 ≤ k → rest ≠ [] →
      completeWords root (k + 1) (g :: x :: rest) = completeWords root k (g :: rest)) ∧
    ((k = 1 ∨ rest = []) → completeWords root (k + 1) (g :: x :: rest) = []) := by
  have hs1 : startIndex (g :: x :: rest) = 1 := startIndex_of_isProgramName g _ hg
  have hs2 : startIndex (g :: rest) = 1 := startIndex_of_isProgramName g _ hg
  have hc := cursor_cons_cons g x rest k hk
  have hle2 : cursor k (g :: rest) ≤ (g :: rest).length := cursor_le k _ (by simp)
  have hpos : 1 ≤ cursor k (g :: rest) := by
    unfold cursor
    rw [if_neg (by omega)]
    simp only [List.length_cons]
    push_cast
    split <;> omega
  constructor
  · intro hk2 hrest
    have hlen : 0 < rest.length := List.length_pos.mpr hrest
    have hc2 : 2 ≤ cursor k (g :: rest) := by
      unfold cursor
      rw [if_neg (by omega)]
      simp only [List.length_cons]
      push_cast
      split <;> omega
    rw [completeWords_eq_completeFrom root _ _ (by simp),
      completeWords_eq_completeFrom root _ _ (by simp), hc]
    have hstep : walk (g :: x :: rest) (cursor k (g :: rest) + 1) 1 root =
        walk (g :: x :: rest) (cursor k (g :: rest) + 1) (1 + 1) root :=
      walk_inlineFlag _ _ 1 root x (by omega) (by simp) (ne_terminator_of_eq x heq) hx
        (splitFlagToken_of_eq x heq)
    have hshift := walk_shift (g :: x :: rest) (g :: rest) (cursor k (g :: rest)) 1 1
      (fun j hj _ => by
        obtain ⟨j', rfl⟩ : ∃ j', j = j' + 1 := ⟨j - 1, by omega⟩
        simp) 1 root (le_refl 1)
    have hw := hstep.trans hshift
    apply completeFrom_congr
    · rw [hs1, hs2, hw]
    · rw [hs1, hs2, hw]
    · rw [hs1, hs2, hw]
      simp only
      rcases walk_terminatorIndex (g :: rest) (cursor k (g :: rest)) 1 root with h | ⟨t, h, _⟩
      · simp [h]
      · rw [h]
        have h1 : ¬((t : Int) = -1) := by omega
        have h2 : ¬((t : Int) + 1 = -1) := by omega
        simp [h1, h2]
    · rw [currentWord_eq_getD, currentWord_eq_getD]
      obtain ⟨c, hcc⟩ : ∃ c, cursor k (g :: rest) = c + 1 := ⟨cursor k (g :: rest) - 1, by omega⟩
      rw [hcc]
      simp
    · rw [hs1, hs2]
      apply prevTakesValue_congr
      · constructor <;> intro _ <;> omega
      · simp only [List.length_cons] at hle2 ⊢
        omega
      · exact hle2
      · intro _
        obtain ⟨c, hcc⟩ : ∃ c, cursor k (g :: rest) = c + 2 := ⟨cursor k (g :: rest) - 2, by omega⟩
        rw [hcc]
        simp
  · intro h
    have hc1 : cursor k (g :: rest) = 1 := by
      unfold cursor
      rw [if_neg (by omega)]
      simp only [List.length_cons]
      push_cast
      rcases h with h | h
      · subst h; split <;> omega
      · subst h; simp only [List.length_nil]; split <;> omega
    rw [completeWords_eq_completeFrom root _ _ (by simp), hc, hc1]
    apply completeFrom_of_prevTakesValue
    rw [hs1]
    unfold prevTakesValue
    rw [dif_pos ⟨by omega, by simp⟩]
    simp [hx, splitFlagToken_of_eq x heq]

/-- C8 (witness): an inline flag two places before the cursor changes nothing,
and the slot right after an inline flag gets no suggestion. -/
theorem completeWords_inline_flag_witness :
    ((2 : Int) ≤ 2 → (["auth", "x"] : List String) ≠ [] →
      completeWords sampleRoot (2 + 1) ("gog" :: "--account=me" :: ["auth", "x"]) =
        completeWords sampleRoot 2 ("gog" :: ["auth", "x"])) ∧
    (((2 : Int) = 1 ∨ (["auth", "x"] : List String) = []) →
      completeWords sampleRoot (2 + 1) ("gog" :: "--account=me" :: ["auth", "x"]) = []) :=
  completeWords_inline_flag sampleRoot "gog" "--account=me" ["auth", "x"] 2 (by decide)
    (by decide) (by decide) (by decide)

/-- C8 (counterexample): with the cursor right after the inline-form flag
`--account=me`, nothing is suggested, whereas without that flag the same cursor
position completes `a` to `auth`. -/
theorem completeWords_inline_flag_counterexample :
    isProgramName "gog" = true ∧ strings.HasPrefix "--account=me" "-" = true ∧
      '=' ∈ ("--account=me" : String).data ∧
      completeWords sampleRoot (1 + 1) (["gog", "--account=me"] ++ ["a"]) = [] ∧
      completeWords sampleRoot 1 (["gog"] ++ ["a"]) = ["auth"] := by
  refine ⟨by decide, by decide, by decide, ?_, ?_⟩
  · simp [completeWords, completeFrom, suggestions, walk, startIndex, isProgramName, sampleRoot,
      takesValueOn, splitFlagToken, prevTakesValue, currentWord, strings.HasPrefix,
      completionNode.flags, completionNode.children, List.lookup]
  · simp [completeWords, completeFrom, suggestions, walk, startIndex, isProgramName, sampleRoot,
      prevTakesValue, currentWord, strings.HasPrefix, matchingFlags, matchingCommands, keys,
      completionNode.flags, completionNode.children, sort.Strings]

/-! ## C5: duplicates in the result -/

theorem mem_of_lookup {V : Type} (m : List (String × V)) (k : String) (v : V)
    (h : m.lookup k = some v) : (k, v) ∈ m := by
  induction m with
  | nil => simp at h
  | cons kv m ih =>
    obtain ⟨k', v'⟩ := kv
    rw [List.lookup_cons] at h
    by_cases e : k = k'
    · subst e
      simp at h
      subst h
      exact List.mem_cons_self _ _
    · have e2 : (k == k') = false := by simpa using e
      rw [e2] at h
      exact List.mem_cons_of_mem _ (ih h)

theorem completionNode.WF.children_nodup {node : completionNode} (h : node.WF) :
    (keys node.children).Nodup := by
  cases h with
  | mk h1 _ _ => exact h1

theorem completionNode.WF.flags_nodup {node : completionNode} (h : node.WF) :
    (keys node.flags).Nodup := by
  cases h with
  | mk _ h2 _ => exact h2

theorem completionNode.WF.child {node : completionNode} (h : node.WF)
    (kv : String × completionNode) (hkv : kv ∈ node.children) : kv.2.WF := by
  cases h with
  | mk _ _ h3 => exact h3 kv hkv

/-- The walk stays inside well-formed nodes. -/
theorem walk_WF (words : List String) (cword i : Nat) (node : completionNode)
    (h : node.WF) : (walk words cword i node).node.WF := by
  revert h
  refine walk_rec words cword (fun _ node r => node.WF → r.node.WF)
    ?_ ?_ ?_ ?_ ?_ ?_ ?_ ?_ i node
  · intro i node _ h; exact h
  · intro i node _ _ h; exact h
  · intro i node word _ _ _ _ _ _ _ h; exact h
  · intro i node word r _ _ _ _ _ ih h; exact ih h
  · intro i node word r _ _ _ _ _ _ _ ih h; exact ih h
  · intro i node word r _ _ _ _ _ _ ih h; exact ih h
  · intro i node child word r _ _ _ _ hl ih h
    exact ih (h.child (word, child) (mem_of_lookup _ _ _ hl))
  · intro i node word r _ _ _ _ _ ih h; exact ih h

theorem suggestions_nodup (node : completionNode) (current : String) (h : node.WF)
    (hclash : strings.HasPrefix current "-" = false → ∀ s ∈ keys node.children,
      strings.HasPrefix s current = true → s ∉ keys node.flags) :
    (suggestions node current).Nodup := by
  unfold suggestions
  split
  · exact (sort.Strings_perm _).nodup_iff.mpr (h.flags_nodup.filter _)
  · rename_i hp
    refine (sort.Strings_perm _).nodup_iff.mpr ?_
    unfold matchingCommands matchingFlags
    refine List.Nodup.append (h.children_nodup.filter _) (h.flags_nodup.filter _) ?_
    intro s hs1 hs2
    rw [List.mem_filter] at hs1 hs2
    exact hclash (by simpa using hp) s hs1.1 hs1.2 hs2.1

/-- C5 (as amended): on a tree whose maps have pairwise distinct keys, the list
returned by `completeWords` contains no duplicate entries provided that, when
the current token does not start with `-`, no child name of the current node
that extends the current token is also a flag token of that node.  (The result
is sorted but not deduplicated.) -/
theorem completeWords_nodup (root : completionNode) (cword : Int) (words : List String)
    (hwf : root.WF)
    (hclash : strings.HasPrefix (currentWord words (cursor cword words)) "-" = false →
      ∀ s ∈ keys (walk words (cursor cword words) (startIndex words) root).node.children,
        strings.HasPrefix s (currentWord words (cursor cword words)) = true →
        s ∉ keys (walk words (cursor cword words) (startIndex words) root).node.flags) :
    (completeWords root cword words).Nodup := by
  rcases completeWords_cases root cword words with h | ⟨_, h⟩
  · rw [h]; exact List.nodup_nil
  · rw [h]
    rcases completeFrom_cases root (cursor cword words) words with h2 | h2
    · rw [h2]; exact List.nodup_nil
    · rw [h2]
      exact suggestions_nodup _ _ (walk_WF words _ _ root hwf) hclash

theorem authNode_WF : authNode.WF := by
  unfold authNode
  refine completionNode.WF.mk (by simp [keys]) (by simp [keys]) ?_
  intro kv hkv
  simp at hkv

theorem sampleRoot_WF : sampleRoot.WF := by
  unfold sampleRoot
  refine completionNode.WF.mk (by simp [keys]) (by simp [keys]) ?_
  intro kv hkv
  simp only [List.mem_cons, List.mem_singleton, List.not_mem_nil, or_false] at hkv
  rcases hkv with rfl | rfl <;> exact authNode_WF

theorem clashRoot_WF : clashRoot.WF := by
  unfold clashRoot
  refine completionNode.WF.mk (by simp [keys]) (by simp [keys]) ?_
  intro kv hkv
  simp only [List.mem_singleton] at hkv
  subst hkv
  exact completionNode.WF.mk (by simp [keys]) (by simp [keys]) (by simp)

/-- C5 (witness): completing the empty token under the root of the sample tree. -/
theorem completeWords_nodup_witness :
    sampleRoot.WF ∧ (completeWords sampleRoot 1 ["gog"]).Nodup := by
  refine ⟨sampleRoot_WF, completeWords_nodup sampleRoot 1 ["gog"] sampleRoot_WF ?_⟩
  intro _ s hs _
  have hn : (walk ["gog"] (cursor 1 ["gog"]) (startIndex ["gog"]) sampleRoot).node
      = sampleRoot := by
    simp [walk, cursor, startIndex, isProgramName]
  rw [hn] at hs ⊢
  simp only [sampleRoot, keys, completionNode.children, completionNode.flags, List.map_cons,
    List.map_nil, List.mem_cons, List.mem_singleton, List.not_mem_nil, or_false] at hs ⊢
  rcases hs with rfl | rfl <;> decide

/-- C5 (counterexample): on the tree built from a model with a subcommand named
`--v` and a boolean flag named `v`, the subcommand name and the flag token are
the same text and both are suggested, so the sorted result holds it twice. -/
theorem completeWords_nodup_counterexample :
    buildCompletionNode clashModel = clashRoot ∧ clashRoot.WF ∧
      completeWords clashRoot 1 ["gog"] = ["--v", "--v"] ∧
      ¬(completeWords clashRoot 1 ["gog"]).Nodup := by
  have h : completeWords clashRoot 1 ["gog"] = ["--v", "--v"] := by
    simp [completeWords, completeFrom, suggestions, walk, startIndex, isProgramName, clashRoot,
      prevTakesValue, currentWord, strings.HasPrefix, matchingFlags, matchingCommands, keys,
      completionNode.flags, completionNode.children, sort.Strings]
  refine ⟨clashRoot_built, clashRoot_WF, h, ?_⟩
  rw [h]
  simp

/-! ## Built trees denote Go maps -/

theorem lookup_isSome_iff {V : Type} (m : List (String × V)) (k : String) :
    (m.lookup k).isSome = true ↔ k ∈ keys m := by
  induction m with
  | nil => simp [keys]
  | cons kv m ih =>
    obtain ⟨k', v'⟩ := kv
    rw [List.lookup_cons]
    by_cases e : k = k'
    · subst e; simp [keys]
    · have e2 : (k == k') = false := by simpa using e
      rw [e2]
      simp only [keys, List.map_cons, List.mem_cons, e, false_or] at ih ⊢
      exact ih

theorem keys_append_nodup {V : Type} (m : List (String × V)) (k : String) (v : V)
    (h : (keys m).Nodup) (hk : k ∉ keys m) : (keys (m ++ [(k, v)])).Nodup := by
  simp only [keys, List.map_append, List.map_cons, List.map_nil] at hk ⊢
  rw [List.nodup_append]
  refine ⟨h, List.nodup_singleton _, ?_⟩
  intro a ha hb
  simp only [List.mem_singleton] at hb
  subst hb
  exact hk ha

theorem addFlag_nodup (flags : List (String × completionFlag)) (token : String) (tv : Bool)
    (h : (keys flags).Nodup) : (keys (addFlag flags token tv)).Nodup := by
  unfold addFlag
  split
  · exact h
  · split
    · exact h
    · rename_i _ hl
      rw [lookup_isSome_iff] at hl
      exact keys_append_nodup flags token _ h hl

theorem foldl_invariant {α β : Type} (P : β → Prop) (f : β → α → β)
    (hf : ∀ b a, P b → P (f b a)) (l : List α) (b : β) (hb : P b) : P (l.foldl f b) := by
  induction l generalizing b with
  | nil => exact hb
  | cons a l ih => exact ih (f b a) (hf b a hb)

theorem addFlagTokens_nodup (flags : List (String × completionFlag)) (flag : kongFlag)
    (h : (keys flags).Nodup) : (keys (addFlagTokens flags flag)).Nodup := by
  have h1 := addFlag_nodup flags ("--" ++ flag.Name) (!(flag.IsBool || flag.IsCounter)) h
  have h2 := foldl_invariant (fun fs => (keys fs).Nodup)
    (fun fs al => addFlag fs ("--" ++ al) (!(flag.IsBool || flag.IsCounter)))
    (fun b a hb => addFlag_nodup b _ _ hb) flag.Aliases _ h1
  have h3 : (keys (if flag.Short ≠ Char.ofNat 0 then
      addFlag (flag.Aliases.foldl
        (fun fs al => addFlag fs ("--" ++ al) (!(flag.IsBool || flag.IsCounter)))
        (addFlag flags ("--" ++ flag.Name) (!(flag.IsBool || flag.IsCounter))))
        ("-" ++ String.singleton flag.Short) (!(flag.IsBool || flag.IsCounter))
      else flag.Aliases.foldl
        (fun fs al => addFlag fs ("--" ++ al) (!(flag.IsBool || flag.IsCounter)))
        (addFlag flags ("--" ++ flag.Name) (!(flag.IsBool || flag.IsCounter))))).Nodup := by
    by_cases hs : flag.Short ≠ Char.ofNat 0
    · rw [if_pos hs]; exact addFlag_nodup _ _ _ h2
    · rw [if_neg hs]; exact h2
  unfold addFlagTokens
  by_cases hn : negatedFlagName flag ≠ ""
  · rw [if_pos hn]
    exact addFlag_nodup _ _ _ h3
  · rw [if_neg hn]
    exact h3

theorem addChildNames_inv (children : List (String × completionNode)) (names : List String)
    (childNode : completionNode) (hc : childNode.WF)
    (h : (keys children).Nodup ∧ ∀ kv ∈ children, completionNode.WF kv.2) :
    (keys (addChildNames children names childNode)).Nodup ∧
      ∀ kv ∈ addChildNames children names childNode, completionNode.WF kv.2 := by
  unfold addChildNames
  refine foldl_invariant
    (fun m : List (String × completionNode) => (keys m).Nodup ∧ ∀ kv ∈ m, completionNode.WF kv.2)
    _ ?_ names children h
  intro m name hm
  beta_reduce
  split
  · exact hm
  · split
    · exact hm
    · rename_i _ hl
      rw [lookup_isSome_iff] at hl
      refine ⟨keys_append_nodup m name _ hm.1 hl, ?_⟩
      intro kv hkv
      rw [List.mem_append] at hkv
      rcases hkv with hkv | hkv
      · exact hm.2 kv hkv
      · simp only [List.mem_singleton] at hkv
        subst hkv
        exact hc

mutual
/-- Every tree built by `buildCompletionNode` has maps with pairwise distinct
keys, in all of its nodes. -/
theorem buildCompletionNode_WF : ∀ node : kongNode, (buildCompletionNode node).WF
  | .mk _ _ _ allFlags children => by
    rw [buildCompletionNode]
    have hb := buildChildren_inv children [] ⟨by simp [keys], by simp⟩
    refine completionNode.WF.mk hb.1 ?_ hb.2
    exact foldl_invariant (fun fs => (keys fs).Nodup) _
      (fun b g hb => foldl_invariant (fun fs => (keys fs).Nodup) _
        (fun b a hb => addFlagTokens_nodup b a hb) g b hb) allFlags [] (by simp [keys])
/-- The loop over the children keeps the keys distinct and the nodes
well-formed. -/
theorem buildChildren_inv : ∀ (children : List kongNode)
    (acc : List (String × completionNode)),
    ((keys acc).Nodup ∧ ∀ kv ∈ acc, completionNode.WF kv.2) →
    (keys (buildChildren children acc)).Nodup ∧
      ∀ kv ∈ buildChildren children acc, completionNode.WF kv.2
  | [], acc, h => by rw [buildChildren]; exact h
  | child :: rest, acc, h => by
    rw [buildChildren]
    split
    · exact buildChildren_inv rest acc h
    · exact buildChildren_inv rest _
        (addChildNames_inv acc _ _ (buildCompletionNode_WF child) h)
end

/-! ## C11: the empty token list -/

/-- C11: for every `cword`, `completeWords(cword, [])` returns an empty
suggestion list and no error whatever the outcome of the parser construction
is, also when that construction fails. -/
theorem completeWordsResult_nil {ε : Type} (newParser : Except ε kongNode) (cword : Int) :
    completeWordsResult newParser cword [] = .ok [] := by
  simp [completeWordsResult]

/-! ## C20: descending into a subcommand -/

/-- Two calls of `completeFrom`, possibly on different trees, whose walks end
alike, whose current tokens are equal and whose previous-token tests agree
return the same list. -/
theorem completeFrom_congr_roots (root1 root2 : completionNode) (ws1 ws2 : List String)
    (c1 c2 : Nat)
    (hret : (walk ws1 c1 (startIndex ws1) root1).returned
      = (walk ws2 c2 (startIndex ws2) root2).returned)
    (hnode : (walk ws1 c1 (startIndex ws1) root1).node
      = (walk ws2 c2 (startIndex ws2) root2).node)
    (hti : (walk ws1 c1 (startIndex ws1) root1).terminatorIndex = -1 ↔
      (walk ws2 c2 (startIndex ws2) root2).terminatorIndex = -1)
    (hcur : currentWord ws1 c1 = currentWord ws2 c2)
    (hprev : prevTakesValue ws1 (walk ws2 c2 (startIndex ws2) root2).node (startIndex ws1) c1
      = prevTakesValue ws2 (walk ws2 c2 (startIndex ws2) root2).node (startIndex ws2) c2) :
    completeFrom root1 c1 ws1 = completeFrom root2 c2 ws2 := by
  rw [completeFrom_eq_ite root1 c1 ws1, completeFrom_eq_ite root2 c2 ws2, hret, hnode, hcur,
    hprev]
  simp only [ne_eq, hti]

theorem cursor_pos (k : Int) (ws : List String) (hne : ws ≠ []) (hk : 1 ≤ k) :
    1 ≤ cursor k ws := by
  have hlen : 0 < ws.length := List.length_pos.mpr hne
  unfold cursor
  rw [if_neg (by omega)]
  simp only
  split <;> omega

/-- A terminator index shifted by one is `-1` exactly when the original is. -/
theorem shifted_terminatorIndex_iff (ws : List String) (c i : Nat) (node : completionNode) :
    (if (walk ws c i node).terminatorIndex = -1 then (-1 : Int)
      else (walk ws c i node).terminatorIndex + ((1 : Nat) : Int)) = -1 ↔
      (walk ws c i node).terminatorIndex = -1 := by
  rcases walk_terminatorIndex ws c i node with h | ⟨t, h, _⟩
  · simp [h]
  · rw [h]
    have h1 : ¬((t : Int) = -1) := by omega
    have h2 : ¬((t : Int) + 1 = -1) := by omega
    simp [h1, h2]

/-- C20: for every tree `root`, program-name token `g`, token `c` that does not
start with `-` and is a key of `root`'s children with `children[c] = child`,
every token list `rest` and every cursor `k ≥ 1`, `completeWords` on
`[g, c] ++ rest` at cursor `k+1` against `root` returns what it returns on
`[g] ++ rest` at cursor `k` against `child`. -/
theorem completeWords_descend (root child : completionNode) (g c : String)
    (rest : List String) (k : Int)
    (hg : isProgramName g = true) (hc : strings.HasPrefix c "-" = false)
    (hl : root.children.lookup c = some child) (hk : 1 ≤ k) :
    completeWords root (k + 1) (g :: c :: rest) = completeWords child k (g :: rest) := by
  have hs1 : startIndex (g :: c :: rest) = 1 := startIndex_of_isProgramName g _ hg
  have hs2 : startIndex (g :: rest) = 1 := startIndex_of_isProgramName g _ hg
  have hcc := cursor_cons_cons g c rest k hk
  have hle2 : cursor k (g :: rest) ≤ (g :: rest).length := cursor_le k _ (by simp)
  have hpos : 1 ≤ cursor k (g :: rest) := cursor_pos k _ (by simp) hk
  have hne : c ≠ "--" := by
    intro e
    subst e
    revert hc
    decide
  rw [completeWords_eq_completeFrom root _ _ (by simp),
    completeWords_eq_completeFrom child _ _ (by simp), hcc]
  have hstep : walk (g :: c :: rest) (cursor k (g :: rest) + 1) 1 root =
      walk (g :: c :: rest) (cursor k (g :: rest) + 1) (1 + 1) child :=
    walk_descend _ _ 1 root child c (by omega) (by simp) hne hc hl
  have hshift := walk_shift (g :: c :: rest) (g :: rest) (cursor k (g :: rest)) 1 1
    (fun j hj _ => by
      obtain ⟨j', rfl⟩ : ∃ j', j = j' + 1 := ⟨j - 1, by omega⟩
      simp) 1 child (le_refl 1)
  have hw := hstep.trans hshift
  apply completeFrom_congr_roots
  · rw [hs1, hs2, hw]
  · rw [hs1, hs2, hw]
  · rw [hs1, hs2, hw]
    exact shifted_terminatorIndex_iff _ _ _ _
  · rw [currentWord_eq_getD, currentWord_eq_getD]
    obtain ⟨n, hn⟩ : ∃ n, cursor k (g :: rest) = n + 1 := ⟨cursor k (g :: rest) - 1, by omega⟩
    rw [hn]
    simp
  · rw [hs1, hs2]
    by_cases h1 : cursor k (g :: rest) = 1
    · rw [h1]
      unfold prevTakesValue
      rw [dif_pos ⟨by omega, by simp⟩, dif_neg (by omega)]
      simp [hc]
    · apply prevTakesValue_congr
      · constructor <;> intro _ <;> omega
      · simp only [List.length_cons] at hle2 ⊢
        omega
      · exact hle2
      · intro _
        obtain ⟨n, hn⟩ : ∃ n, cursor k (g :: rest) = n + 2 :=
          ⟨cursor k (g :: rest) - 2, by omega⟩
        rw [hn]
        simp

/-- C20 (witness): completing under `auth` of the sample tree. -/
theorem completeWords_descend_witness :
    completeWords sampleRoot (1 + 1) ("gog" :: "auth" :: ["--a"]) =
      completeWords authNode 1 ("gog" :: ["--a"]) :=
  completeWords_descend sampleRoot authNode "gog" "auth" ["--a"] 1 (by decide) (by decide)
    (by simp [sampleRoot, completionNode.children, List.lookup]) (by decide)

/-! ## The children map of a built node -/

theorem lookup_append_of_some {V : Type} (m l : List (String × V)) (k : String) (v : V)
    (h : m.lookup k = some v) : (m ++ l).lookup k = some v := by
  induction m with
  | nil => simp at h
  | cons kv m ih =>
    obtain ⟨k', v'⟩ := kv
    rw [List.cons_append, List.lookup_cons]
    rw [List.lookup_cons] at h
    by_cases e : (k == k') = true
    · rw [e] at h ⊢; exact h
    · have e2 : (k == k') = false := by simpa using e
      rw [e2] at h ⊢; exact ih h

theorem lookup_append_of_none {V : Type} (m l : List (String × V)) (k : String)
    (h : m.lookup k = none) : (m ++ l).lookup k = l.lookup k := by
  induction m with
  | nil => rfl
  | cons kv m ih =>
    obtain ⟨k', v'⟩ := kv
    rw [List.cons_append, List.lookup_cons]
    rw [List.lookup_cons] at h
    by_cases e : (k == k') = true
    · rw [e] at h; exact Option.noConfusion h
    · have e2 : (k == k') = false := by simpa using e
      rw [e2] at h ⊢; exact ih h

theorem addChildNames_cons (acc : List (String × completionNode)) (name : String)
    (names : List String) (node : completionNode) :
    addChildNames acc (name :: names) node =
      addChildNames
        (if name = "" then acc
          else if (acc.lookup name).isSome then acc
          else acc ++ [(name, node)]) names node := by
  simp [addChildNames]

theorem addChildNames_lookup_of_some (acc : List (String × completionNode))
    (names : List String) (node : completionNode) (n : String) (v : completionNode)
    (h : acc.lookup n = some v) : (addChildNames acc names node).lookup n = some v := by
  induction names generalizing acc with
  | nil => simpa [addChildNames] using h
  | cons name names ih =>
    rw [addChildNames_cons]
    apply ih
    split
    · exact h
    · split
      · exact h
      · exact lookup_append_of_some acc _ n v h

theorem addChildNames_lookup_of_none (acc : List (String × completionNode))
    (names : List String) (node : completionNode) (n : String)
    (h : acc.lookup n = none) :
    (addChildNames acc names node).lookup n =
      if n ≠ "" ∧ n ∈ names then some node else none := by
  induction names generalizing acc with
  | nil => simpa [addChildNames] using h
  | cons name names ih =>
    rw [addChildNames_cons]
    by_cases hname : name = ""
    · rw [if_pos hname, ih acc h]
      by_cases hn : n = ""
      · simp [hn]
      · have : n ≠ name := by rw [hname]; exact hn
        simp [hn, this]
    · rw [if_neg hname]
      by_cases hex : (acc.lookup name).isSome = true
      · rw [if_pos hex, ih acc h]
        have hne : n ≠ name := by
          intro e; subst e; rw [h] at hex; simp at hex
        simp [hne]
      · rw [if_neg hex]
        by_cases e : n = name
        · subst e
          have hl : (acc ++ [(n, node)]).lookup n = some node := by
            rw [lookup_append_of_none acc _ n h]; simp [List.lookup]
          rw [addChildNames_lookup_of_some _ names node n node hl]
          simp [hname]
        · have hl : (acc ++ [(name, node)]).lookup n = none := by
            rw [lookup_append_of_none acc _ n h]
            have e2 : (n == name) = false := by simpa using e
            simp [List.lookup, e2]
          rw [ih _ hl]
          simp [e]

theorem buildChildren_lookup_of_some (children : List kongNode)
    (acc : List (String × completionNode)) (n : String) (v : completionNode)
    (h : acc.lookup n = some v) : (buildChildren children acc).lookup n = some v := by
  induction children generalizing acc with
  | nil => rw [buildChildren]; exact h
  | cons child rest ih =>
    rw [buildChildren]
    split
    · exact ih acc h
    · exact ih _ (addChildNames_lookup_of_some acc _ _ n v h)

theorem buildChildren_lookup_of_none (children : List kongNode)
    (acc : List (String × completionNode)) (n : String) (hn : n ≠ "")
    (h : acc.lookup n = none) :
    (buildChildren children acc).lookup n =
      (children.find? (fun c => c.carries n)).map buildCompletionNode := by
  induction children generalizing acc with
  | nil => rw [buildChildren]; simpa using h
  | cons child rest ih =>
    rw [buildChildren, List.find?_cons]
    by_cases hh : child.Hidden = true
    · rw [if_pos hh]
      have hc : child.carries n = false := by simp [kongNode.carries, hh]
      rw [hc]
      exact ih acc h
    · rw [if_neg hh]
      have hh2 : child.Hidden = false := by simpa using hh
      have hl := addChildNames_lookup_of_none acc (child.Name :: child.Aliases)
        (buildCompletionNode child) n h
      by_cases hm : n ∈ child.Name :: child.Aliases
      · rw [if_pos ⟨hn, hm⟩] at hl
        have hc : child.carries n = true := by simp [kongNode.carries, hh2, hm]
        rw [hc, buildChildren_lookup_of_some rest _ n _ hl]
        rfl
      · rw [if_neg (fun hx => hm hx.2)] at hl
        have hc : child.carries n = false := by simp [kongNode.carries, hm]
        rw [hc]
        exact ih _ hl

theorem buildChildren_lookup_empty (children : List kongNode)
    (acc : List (String × completionNode)) (h : acc.lookup "" = none) :
    (buildChildren children acc).lookup "" = none := by
  induction children generalizing acc with
  | nil => rw [buildChildren]; exact h
  | cons child rest ih =>
    rw [buildChildren]
    split
    · exact ih acc h
    · apply ih
      rw [addChildNames_lookup_of_none acc _ _ "" h]
      simp

theorem buildCompletionNode_children (model : kongNode) :
    (buildCompletionNode model).children = buildChildren model.Children [] := by
  cases model with
  | mk _ _ _ allFlags children => rw [buildCompletionNode]; rfl

/-- The children map of a built node, key by key. -/
theorem buildCompletionNode_lookup (model : kongNode) (n : String) :
    (buildCompletionNode model).children.lookup n =
      if n = "" then none
      else (model.Children.find? (fun c => c.carries n)).map buildCompletionNode := by
  rw [buildCompletionNode_children]
  by_cases hn : n = ""
  · rw [if_pos hn, hn]
    exact buildChildren_lookup_empty _ [] rfl
  · rw [if_neg hn]
    exact buildChildren_lookup_of_none _ [] n hn rfl

/-! ## C14: the first registration of a name wins -/

/-- C14: in the node built by `buildCompletionNode`, for every non-empty name
`n`, `children[n]` is the completion node of the first child in declaration
order that is not hidden and has `n` as its name or as one of its aliases (and
`n` is no key when there is no such child); in particular, whatever children
follow that first child, they do not override it. -/
theorem buildCompletionNode_first_child_wins (model : kongNode) (n : String) (hn : n ≠ "") :
    (buildCompletionNode model).children.lookup n =
        (model.Children.find? (fun c => c.carries n)).map buildCompletionNode ∧
      ∀ (before after : List kongNode) (c : kongNode),
        model.Children = before ++ c :: after → c.carries n = true →
        (∀ b ∈ before, b.carries n = false) →
        (buildCompletionNode model).children.lookup n = some (buildCompletionNode c) := by
  have h1 : (buildCompletionNode model).children.lookup n =
      (model.Children.find? (fun c => c.carries n)).map buildCompletionNode := by
    rw [buildCompletionNode_lookup, if_neg hn]
  refine ⟨h1, ?_⟩
  intro before after c hsplit hc hb
  rw [h1, hsplit, List.find?_append]
  have hnone : before.find? (fun c => c.carries n) = none := by
    rw [List.find?_eq_none]
    intro b hbm
    simp [hb b hbm]
  rw [hnone, List.find?_cons, hc]
  rfl

/-- C14 (witness): scenario 5 of the specification; `auth` resolves to the
first command although the second one claims it as an alias. -/
theorem buildCompletionNode_first_child_wins_witness :
    (buildCompletionNode collisionModel).children.lookup "auth" =
        (collisionModel.Children.find? (fun c => c.carries "auth")).map buildCompletionNode ∧
      ∀ (before after : List kongNode) (c : kongNode),
        collisionModel.Children = before ++ c :: after → c.carries "auth" = true →
        (∀ b ∈ before, b.carries "auth" = false) →
        (buildCompletionNode collisionModel).children.lookup "auth" =
          some (buildCompletionNode c) :=
  buildCompletionNode_first_child_wins collisionModel "auth" (by decide)

/-! ## C15: hidden commands -/

theorem mem_keys_buildCompletionNode (model : kongNode) (n : String) :
    n ∈ keys (buildCompletionNode model).children ↔
      n ≠ "" ∧ ∃ c ∈ model.Children, c.Hidden = false ∧ n ∈ c.Name :: c.Aliases := by
  rw [← lookup_isSome_iff, buildCompletionNode_lookup]
  by_cases hn : n = ""
  · simp [hn]
  · rw [if_neg hn]
    simp only [Option.isSome_map', List.find?_isSome, ne_eq, hn, not_false_eq_true, true_and]
    constructor
    · rintro ⟨c, hc, hp⟩
      simp only [kongNode.carries, Bool.and_eq_true, Bool.not_eq_true', decide_eq_true_eq] at hp
      exact ⟨c, hc, hp.1, hp.2⟩
    · rintro ⟨c, hc, hh, hm⟩
      refine ⟨c, hc, ?_⟩
      simp [kongNode.carries, hh, hm]

/-- The walk over a built tree stops at the built node of a model node that is
reached through children that are not hidden. -/
theorem walk_built (model : kongNode) (words : List String) (cword i : Nat) (m : kongNode)
    (hm : model.visibleBelow m) :
    ∃ m', model.visibleBelow m' ∧
      (walk words cword i (buildCompletionNode m)).node = buildCompletionNode m' := by
  have key : ∀ node, ∀ m, model.visibleBelow m → node = buildCompletionNode m →
      ∃ m', model.visibleBelow m' ∧
        (walk words cword i node).node = buildCompletionNode m' := by
    intro node
    refine walk_rec words cword
      (fun _ node r => ∀ m, model.visibleBelow m → node = buildCompletionNode m →
        ∃ m', model.visibleBelow m' ∧ r.node = buildCompletionNode m')
      ?_ ?_ ?_ ?_ ?_ ?_ ?_ ?_ i node
    · intro i node _ m hm e; exact ⟨m, hm, e⟩
    · intro i node _ _ m hm e; exact ⟨m, hm, e⟩
    · intro i node word _ _ _ _ _ _ _ m hm e; exact ⟨m, hm, e⟩
    · intro i node word r _ _ _ _ _ ih m hm e; exact ih m hm e
    · intro i node word r _ _ _ _ _ _ _ ih m hm e; exact ih m hm e
    · intro i node word r _ _ _ _ _ _ ih m hm e; exact ih m hm e
    · intro i node child word r _ _ _ _ hl ih m hm e
      rw [e, buildCompletionNode_lookup] at hl
      by_cases hw : word = ""
      · rw [if_pos hw] at hl; exact Option.noConfusion hl
      · rw [if_neg hw] at hl
        cases hf : m.Children.find? (fun c => c.carries word) with
        | none => rw [hf] at hl; exact Option.noConfusion hl
        | some c =>
          rw [hf] at hl
          have hcm : c ∈ m.Children := List.mem_of_find?_eq_some hf
          have hcc : c.carries word = true :=
            @List.find?_some _ (fun c : kongNode => c.carries word) c m.Children hf
          simp only [kongNode.carries, Bool.and_eq_true, Bool.not_eq_true'] at hcc
          exact ih c (kongNode.visibleBelow.child hm hcm hcc.1) (Option.some.inj hl).symm
    · intro i node word r _ _ _ _ _ ih m hm e; exact ih m hm e
  exact key _ m hm rfl

/-- C15: the key set of `children` in a node built by `buildCompletionNode` is
exactly the set of non-empty names and aliases of its children that are not
hidden; and every string `completeWords` returns on a built tree is a flag
token of the current node or a non-empty name or alias of a child, not hidden,
of the model node the current node is built from, itself reached through
commands that are not hidden. -/
theorem buildCompletionNode_hides_hidden (model : kongNode) :
    (∀ n, n ∈ keys (buildCompletionNode model).children ↔
      n ≠ "" ∧ ∃ c ∈ model.Children, c.Hidden = false ∧ n ∈ c.Name :: c.Aliases) ∧
    ∀ (cword : Int) (words : List String) (s : String),
      s ∈ completeWords (buildCompletionNode model) cword words →
      s ∈ keys (walk words (cursor cword words) (startIndex words)
          (buildCompletionNode model)).node.flags ∨
      ∃ m c, model.visibleBelow m ∧
        (walk words (cursor cword words) (startIndex words)
          (buildCompletionNode model)).node = buildCompletionNode m ∧
        c ∈ m.Children ∧ c.Hidden = false ∧ s ≠ "" ∧ s ∈ c.Name :: c.Aliases := by
  refine ⟨mem_keys_buildCompletionNode model, ?_⟩
  intro cword words s hs
  rcases completeWords_cases (buildCompletionNode model) cword words with h | ⟨_, h⟩
  · rw [h] at hs; simp at hs
  rw [h] at hs
  rcases completeFrom_cases (buildCompletionNode model) (cursor cword words) words with h2 | h2
  · rw [h2] at hs; simp at hs
  rw [h2, mem_suggestions] at hs
  obtain ⟨m, hm, hnode⟩ :=
    walk_built model words (cursor cword words) (startIndex words) model kongNode.visibleBelow.self
  have hkeys : s ∈ keys (walk words (cursor cword words) (startIndex words)
      (buildCompletionNode model)).node.children ∨
      s ∈ keys (walk words (cursor cword words) (startIndex words)
        (buildCompletionNode model)).node.flags := by
    split at hs
    · exact Or.inr hs.1
    · exact hs.1
  rcases hkeys with hk | hk
  · right
    rw [hnode, mem_keys_buildCompletionNode] at hk
    obtain ⟨hne, c, hc, hh, hmem⟩ := hk
    exact ⟨m, c, hm, hnode, hc, hh, hne, hmem⟩
  · exact Or.inl hk

/-! ## C16: the negated form of a flag -/

theorem addFlagTokens_eq (flags : List (String × completionFlag)) (flag : kongFlag) :
    addFlagTokens flags flag =
      if negatedFlagName flag ≠ "" then
        addFlag (addPositiveTokens flags flag) (negatedFlagName flag) false
      else addPositiveTokens flags flag := rfl

theorem negatedFlagName_eq_empty_iff (flag : kongFlag) :
    negatedFlagName flag = "" ↔ flag.Negatable = "" := by
  unfold negatedFlagName
  constructor
  · intro h
    by_contra hn
    rw [if_neg hn] at h
    split at h
    · have hlen := congrArg String.length h
      rw [String.length_append] at hlen
      have h5 : ("--no-" : String).length = 5 := by decide
      have h0 : ("" : String).length = 0 := by decide
      omega
    · have hlen := congrArg String.length h
      rw [String.length_append] at hlen
      have h2 : ("--" : String).length = 2 := by decide
      have h0 : ("" : String).length = 0 := by decide
      omega
  · intro h
    rw [if_pos h]

theorem mem_keys_addFlag_of_mem (flags : List (String × completionFlag)) (token : String)
    (tv : Bool) (t : String) (h : t ∈ keys flags) : t ∈ keys (addFlag flags token tv) := by
  unfold addFlag
  split
  · exact h
  · split
    · exact h
    · simp only [keys, List.map_append, List.mem_append] at h ⊢
      exact Or.inl h

theorem mem_keys_addFlag_self (flags : List (String × completionFlag)) (token : String)
    (tv : Bool) (hne : token ≠ "") : token ∈ keys (addFlag flags token tv) := by
  unfold addFlag
  rw [if_neg hne]
  split
  · rename_i h
    exact (lookup_isSome_iff flags token).mp h
  · simp [keys]

theorem lookup_addFlag_new (flags : List (String × completionFlag)) (token : String)
    (tv : Bool) (hne : token ≠ "") (hnew : token ∉ keys flags) :
    (addFlag flags token tv).lookup token = some ⟨tv⟩ := by
  have hl : ¬((flags.lookup token).isSome = true) := fun h =>
    hnew ((lookup_isSome_iff flags token).mp h)
  have hnone : flags.lookup token = none := by
    cases h : flags.lookup token with
    | none => rfl
    | some v => rw [h] at hl; simp at hl
  unfold addFlag
  rw [if_neg hne, if_neg hl, lookup_append_of_none flags _ token hnone]
  simp [List.lookup]

theorem mem_keys_addFlagTokens_of_mem (flags : List (String × completionFlag))
    (flag : kongFlag) (t : String) (h : t ∈ keys flags) :
    t ∈ keys (addFlagTokens flags flag) := by
  have h1 := mem_keys_addFlag_of_mem flags ("--" ++ flag.Name)
    (!(flag.IsBool || flag.IsCounter)) t h
  have h2 := foldl_invariant (fun fs => t ∈ keys fs)
    (fun fs al => addFlag fs ("--" ++ al) (!(flag.IsBool || flag.IsCounter)))
    (fun b a hb => mem_keys_addFlag_of_mem b _ _ t hb) flag.Aliases _ h1
  have h3 : t ∈ keys (addPositiveTokens flags flag) := by
    unfold addPositiveTokens
    by_cases hs : flag.Short ≠ Char.ofNat 0
    · rw [if_pos hs]; exact mem_keys_addFlag_of_mem _ _ _ t h2
    · rw [if_neg hs]; exact h2
  rw [addFlagTokens_eq]
  by_cases hn : negatedFlagName flag ≠ ""
  · rw [if_pos hn]; exact mem_keys_addFlag_of_mem _ _ _ t h3
  · rw [if_neg hn]; exact h3

theorem foldl_establish {α β : Type} (P : β → Prop) (f : β → α → β) (a0 : α)
    (hmono : ∀ b a, P b → P (f b a)) (hest : ∀ b, P (f b a0))
    (l : List α) (b : β) (hmem : a0 ∈ l) : P (l.foldl f b) := by
  induction l generalizing b with
  | nil => simp at hmem
  | cons a l ih =>
    rw [List.foldl_cons]
    rcases List.mem_cons.mp hmem with e | hm
    · subst e
      exact foldl_invariant P f hmono l _ (hest b)
    · exact ih _ hm

theorem buildCompletionNode_flags (model : kongNode) :
    (buildCompletionNode model).flags =
      model.AllFlags.foldl (fun fs group => group.foldl addFlagTokens fs) [] := by
  cases model with
  | mk _ _ _ allFlags children => rw [buildCompletionNode]; rfl

/-- The negated form of every flag of a model node is a flag token of the built
node. -/
theorem negated_mem_keys_buildCompletionNode (model : kongNode) (group : List kongFlag)
    (flag : kongFlag) (hg : group ∈ model.AllFlags) (hf : flag ∈ group)
    (hn : negatedFlagName flag ≠ "") :
    negatedFlagName flag ∈ keys (buildCompletionNode model).flags := by
  rw [buildCompletionNode_flags]
  refine foldl_establish (fun fs => negatedFlagName flag ∈ keys fs) _ group ?_ ?_ _ _ hg
  · intro b g hb
    exact foldl_invariant (fun fs => negatedFlagName flag ∈ keys fs) addFlagTokens
      (fun b a hb => mem_keys_addFlagTokens_of_mem b a _ hb) g b hb
  · intro b
    refine foldl_establish (fun fs => negatedFlagName flag ∈ keys fs) addFlagTokens flag
      (fun b a hb => mem_keys_addFlagTokens_of_mem b a _ hb) ?_ group b hf
    intro b
    rw [addFlagTokens_eq, if_pos hn]
    exact mem_keys_addFlag_self _ _ _ hn

/-- When none of the early returns fires, `completeWords` returns the sorted
matches of the current token on the current node. -/
theorem completeWords_eq_suggestions (root : completionNode) (cword : Int)
    (words : List String) (hne : words ≠ [])
    (hterm : ∀ t node, walkReaches words (cursor cword words) (startIndex words) root t node →
      t < cursor cword words → words[t]? ≠ some "--")
    (hcur : words[cursor cword words]? ≠ some "--")
    (hprev : ∀ prev, startIndex words < cursor cword words →
      words[cursor cword words - 1]? = some prev →
      strings.HasPrefix prev "-" = false ∨
        ('=' ∉ prev.data ∧
          takesValueOn (walk words (cursor cword words) (startIndex words) root).node prev
            = false)) :
    completeWords root cword words =
      suggestions (walk words (cursor cword words) (startIndex words) root).node
        (currentWord words (cursor cword words)) := by
  have hret : (walk words (cursor cword words) (startIndex words) root).returned = false := by
    by_contra hr
    have hr2 : (walk words (cursor cword words) (startIndex words) root).returned = true := by
      simpa using hr
    obtain ⟨prev, h1, h2, h3, h4, h5⟩ := walk_returned words _ _ root hr2
    rcases hprev prev h1 h2 with h | ⟨h, h6⟩
    · rw [h3] at h; exact Bool.noConfusion h
    · rw [splitFlagToken_of_no_eq prev h] at h5
      rw [h6] at h5; exact Bool.noConfusion h5
  have hti : (walk words (cursor cword words) (startIndex words) root).terminatorIndex = -1 := by
    by_contra ht
    obtain ⟨t, node', hr, hlt, hw⟩ :=
      walkReaches_of_terminatorIndex words _ _ root _ root walkReaches.entry ht
    exact hterm t node' hr hlt hw
  have hpv : prevTakesValue words (walk words (cursor cword words) (startIndex words) root).node
      (startIndex words) (cursor cword words) = false := by
    unfold prevTakesValue
    split
    · rename_i hc
      have hlt : cursor cword words - 1 < words.length := by omega
      rcases hprev _ hc.1 (List.getElem?_eq_getElem hlt) with h | ⟨h, h6⟩
      · simp only [h, Bool.false_eq_true, if_false]
      · simp only [splitFlagToken_of_no_eq _ h, h6, Bool.false_eq_true, if_false, ite_self]
    · rfl
  rw [completeWords_eq_completeFrom root cword words hne,
    completeFrom_of_pass root _ words hret hti hcur hpv]

/-- C16 (as amended): for every flag, `addFlagTokens` registers nothing for the
negation when the negatable tag is empty; otherwise it registers the negated
form, which is `--no-<name>` when the tag is `_` and `--<custom>` when the tag
is a custom name, as a flag token, and, when that token was not registered
before, as not value-taking whatever the flag itself is.  That token is a flag
token of every node built from a model node that has the flag, and completing
a prefix of it other than the bare terminator `--`, at a position where no
empty-result rule applies and the node is the current node, includes it. -/
theorem addFlagTokens_negated (flags : List (String × completionFlag)) (flag : kongFlag) :
    (flag.Negatable = "" → addFlagTokens flags flag = addPositiveTokens flags flag) ∧
    (flag.Negatable = "_" → negatedFlagName flag = "--no-" ++ flag.Name) ∧
    (flag.Negatable ≠ "" → flag.Negatable ≠ "_" →
      negatedFlagName flag = "--" ++ flag.Negatable) ∧
    (flag.Negatable ≠ "" →
      negatedFlagName flag ∈ keys (addFlagTokens flags flag) ∧
      (negatedFlagName flag ∉ keys (addPositiveTokens flags flag) →
        (addFlagTokens flags flag).lookup (negatedFlagName flag) = some ⟨false⟩)) ∧
    (∀ (model : kongNode) (group : List kongFlag), group ∈ model.AllFlags → flag ∈ group →
      flag.Negatable ≠ "" →
      negatedFlagName flag ∈ keys (buildCompletionNode model).flags) ∧
    (∀ (root : completionNode) (cword : Int) (words : List String), words ≠ [] →
      (∀ t node, walkReaches words (cursor cword words) (startIndex words) root t node →
        t < cursor cword words → words[t]? ≠ some "--") →
      words[cursor cword words]? ≠ some "--" →
      (∀ prev, startIndex words < cursor cword words →
        words[cursor cword words - 1]? = some prev →
        strings.HasPrefix prev "-" = false ∨
          ('=' ∉ prev.data ∧
            takesValueOn (walk words (cursor cword words) (startIndex words) root).node prev
              = false)) →
      negatedFlagName flag ∈
        keys (walk words (cursor cword words) (startIndex words) root).node.flags →
      strings.HasPrefix (negatedFlagName flag) (currentWord words (cursor cword words)) = true →
      negatedFlagName flag ∈ completeWords root cword words) := by
  refine ⟨?_, ?_, ?_, ?_, ?_, ?_⟩
  · intro h
    rw [addFlagTokens_eq, if_neg (by
      intro hn; exact hn ((negatedFlagName_eq_empty_iff flag).mpr h))]
  · intro h
    unfold negatedFlagName
    rw [if_neg (by rw [h]; decide), if_pos h]
  · intro h1 h2
    unfold negatedFlagName
    rw [if_neg h1, if_neg h2]
  · intro h
    have hn : negatedFlagName flag ≠ "" := fun e => h ((negatedFlagName_eq_empty_iff flag).mp e)
    rw [addFlagTokens_eq, if_pos hn]
    exact ⟨mem_keys_addFlag_self _ _ _ hn, fun hnew => lookup_addFlag_new _ _ _ hn hnew⟩
  · intro model group hg hf h
    exact negated_mem_keys_buildCompletionNode model group flag hg hf
      (fun e => h ((negatedFlagName_eq_empty_iff flag).mp e))
  · intro root cword words hne hterm hcur hprev hkey hpre
    rw [completeWords_eq_suggestions root cword words hne hterm hcur hprev, mem_suggestions]
    split
    · exact ⟨hkey, hpre⟩
    · exact ⟨Or.inr hkey, hpre⟩

theorem negatedFlagName_verboseFlag : negatedFlagName verboseFlag = "--no-verbose" := by
  decide

theorem walk_sample_auth (p : String) :
    walk ["gog", "auth", p] 2 1 sampleRoot = ⟨authNode, -1, false⟩ := by
  rw [walk_descend ["gog", "auth", p] 2 1 sampleRoot authNode "auth" (by decide) (by simp)
    (by decide) (by decide) (by simp [sampleRoot, completionNode.children, List.lookup])]
  exact walk_exit _ _ _ _ (by omega)

/-- C16 (witness): scenario 6 of the specification; completing `--no-` under
`auth` includes `--no-verbose`. -/
theorem addFlagTokens_negated_witness :
    negatedFlagName verboseFlag ∈ completeWords sampleRoot 2 ["gog", "auth", "--no-"] := by
  have hc : cursor 2 ["gog", "auth", "--no-"] = 2 := by simp [cursor]
  have hs : startIndex ["gog", "auth", "--no-"] = 1 := startIndex_gog _
  refine (addFlagTokens_negated [] verboseFlag).2.2.2.2.2 sampleRoot 2 ["gog", "auth", "--no-"]
    (by simp) ?_ ?_ ?_ ?_ ?_
  · intro t node _ ht
    rw [hc] at ht
    interval_cases t <;> simp
  · rw [hc]; simp
  · intro prev _ hp
    rw [hc] at hp
    left
    simp at hp
    subst hp
    decide
  · rw [hc, hs, walk_sample_auth, negatedFlagName_verboseFlag]
    simp [authNode, keys, completionNode.flags]
  · rw [hc, negatedFlagName_verboseFlag]
    decide

/-- C16 (counterexample): under `auth` of the tree built from `sampleModel`, the
negated form `--no-verbose` of the flag `verbose` is a flag token of the
current node and has the token being completed, `--`, as a prefix, yet
completing that prefix returns nothing. -/
theorem addFlagTokens_negated_counterexample :
    buildCompletionNode sampleModel = sampleRoot ∧
      negatedFlagName verboseFlag = "--no-verbose" ∧
      (walk ["gog", "auth", "--"] (cursor 2 ["gog", "auth", "--"])
        (startIndex ["gog", "auth", "--"]) sampleRoot).node = authNode ∧
      "--no-verbose" ∈ keys authNode.flags ∧
      strings.HasPrefix "--no-verbose"
        (currentWord ["gog", "auth", "--"] (cursor 2 ["gog", "auth", "--"])) = true ∧
      completeWords sampleRoot 2 ["gog", "auth", "--"] = [] := by
  have hc : cursor 2 ["gog", "auth", "--"] = 2 := by simp [cursor]
  have hs : startIndex ["gog", "auth", "--"] = 1 := startIndex_gog _
  refine ⟨sampleRoot_built, negatedFlagName_verboseFlag, ?_, ?_, ?_, ?_⟩
  · rw [hc, hs, walk_sample_auth]
  · simp [authNode, keys, completionNode.flags]
  · rw [hc]; decide
  · rw [completeWords_eq_completeFrom _ _ _ (by simp), hc]
    exact completeFrom_of_current_terminator _ _ _ (by simp)

/-! ## C13: the enumeration order of the maps -/

theorem lookup_of_mem {V : Type} (m : List (String × V)) (k : String) (v : V)
    (hnd : (keys m).Nodup) (h : (k, v) ∈ m) : m.lookup k = some v := by
  induction m with
  | nil => simp at h
  | cons kv m ih =>
    obtain ⟨k', v'⟩ := kv
    simp only [keys, List.map_cons, List.nodup_cons] at hnd
    rw [List.lookup_cons]
    rcases List.mem_cons.mp h with e | hm
    · have e1 : k = k' := congrArg Prod.fst e
      have e2 : v = v' := congrArg Prod.snd e
      subst e1; subst e2
      simp
    · have hne : k ≠ k' := by
        intro e
        subst e
        exact hnd.1 (List.mem_map_of_mem Prod.fst hm)
      have e2 : (k == k') = false := by simpa using hne
      rw [e2]
      exact ih hnd.2 hm

theorem lookup_eq_of_perm {V : Type} (m1 m2 : List (String × V)) (k : String)
    (hp : m1.Perm m2) (hnd : (keys m1).Nodup) : m1.lookup k = m2.lookup k := by
  have hnd2 : (keys m2).Nodup := (hp.map Prod.fst).nodup_iff.mp hnd
  apply Option.ext
  intro v
  constructor
  · intro h
    exact lookup_of_mem m2 k v hnd2 (hp.mem_iff.mp (mem_of_lookup m1 k v h))
  · intro h
    exact lookup_of_mem m1 k v hnd (hp.mem_iff.mpr (mem_of_lookup m2 k v h))

theorem lookup_eq_none_iff {V : Type} (m : List (String × V)) (k : String) :
    m.lookup k = none ↔ k ∉ keys m := by
  rw [← lookup_isSome_iff]
  cases m.lookup k <;> simp

theorem completionNode.sameMaps.flags_perm {n1 n2 : completionNode} (h : n1.sameMaps n2) :
    n1.flags.Perm n2.flags := by
  cases h with
  | mk h1 _ _ => exact h1

theorem completionNode.sameMaps.keys_perm {n1 n2 : completionNode} (h : n1.sameMaps n2) :
    (keys n1.children).Perm (keys n2.children) := by
  cases h with
  | mk _ h2 _ => exact h2

theorem completionNode.sameMaps.of_child {n1 n2 : completionNode} (h : n1.sameMaps n2)
    (k : String) (x y : completionNode) (hx : (k, x) ∈ n1.children)
    (hy : (k, y) ∈ n2.children) : x.sameMaps y := by
  cases h with
  | mk _ _ h3 => exact h3 k x y hx hy

theorem takesValueOn_eq_of_sameMaps (n1 n2 : completionNode) (h : n1.sameMaps n2)
    (hwf : n1.WF) (t : String) : takesValueOn n1 t = takesValueOn n2 t := by
  unfold takesValueOn
  rw [lookup_eq_of_perm n1.flags n2.flags t h.flags_perm hwf.flags_nodup]

theorem lookup_child_of_sameMaps (n1 n2 : completionNode) (h : n1.sameMaps n2)
    (hwf2 : n2.WF) (k : String) (x : completionNode)
    (hx : n1.children.lookup k = some x) :
    ∃ y, n2.children.lookup k = some y ∧ x.sameMaps y := by
  have hmem := mem_of_lookup _ _ _ hx
  have hk : k ∈ keys n2.children :=
    h.keys_perm.mem_iff.mp (List.mem_map_of_mem Prod.fst hmem)
  obtain ⟨kv, hkv, e⟩ := List.mem_map.mp hk
  obtain ⟨k', y⟩ := kv
  simp only at e
  subst e
  exact ⟨y, lookup_of_mem _ _ _ hwf2.children_nodup hkv, h.of_child _ x y hmem hkv⟩

theorem lookup_none_of_sameMaps (n1 n2 : completionNode) (h : n1.sameMaps n2)
    (k : String) (hx : n1.children.lookup k = none) : n2.children.lookup k = none := by
  rw [lookup_eq_none_iff] at hx ⊢
  exact fun hk => hx (h.keys_perm.mem_iff.mpr hk)

theorem sort.Strings_eq_of_perm (l1 l2 : List String) (h : l1.Perm l2) :
    sort.Strings l1 = sort.Strings l2 :=
  List.eq_of_perm_of_sorted
    (((sort.Strings_perm l1).trans h).trans (sort.Strings_perm l2).symm)
    (sort.Strings_sorted l1) (sort.Strings_sorted l2)

theorem suggestions_eq_of_sameMaps (n1 n2 : completionNode) (h : n1.sameMaps n2)
    (current : String) : suggestions n1 current = suggestions n2 current := by
  have hf : (matchingFlags n1 current).Perm (matchingFlags n2 current) :=
    (h.flags_perm.map Prod.fst).filter _
  have hc : (matchingCommands n1 current).Perm (matchingCommands n2 current) :=
    h.keys_perm.filter _
  unfold suggestions
  split
  · exact sort.Strings_eq_of_perm _ _ hf
  · exact sort.Strings_eq_of_perm _ _ (hc.append hf)

theorem prevTakesValue_congr_node (words : List String) (n1 n2 : completionNode)
    (start cword : Nat) (h : ∀ t, takesValueOn n1 t = takesValueOn n2 t) :
    prevTakesValue words n1 start cword = prevTakesValue words n2 start cword := by
  unfold prevTakesValue
  split
  · simp only [h]
  · rfl

/-- The walks over two trees that hold the same maps end alike, on nodes that
hold the same maps. -/
theorem walk_sameMaps (words : List String) (cword i : Nat) (n1 n2 : completionNode)
    (h : n1.sameMaps n2) (hwf1 : n1.WF) (hwf2 : n2.WF) :
    (walk words cword i n1).returned = (walk words cword i n2).returned ∧
      (walk words cword i n1).terminatorIndex = (walk words cword i n2).terminatorIndex ∧
      (walk words cword i n1).node.sameMaps (walk words cword i n2).node ∧
      (walk words cword i n1).node.WF := by
  refine walk_rec words cword
    (fun i n1 r => ∀ n2, n1.sameMaps n2 → n1.WF → n2.WF →
      r.returned = (walk words cword i n2).returned ∧
        r.terminatorIndex = (walk words cword i n2).terminatorIndex ∧
        r.node.sameMaps (walk words cword i n2).node ∧ r.node.WF)
    ?_ ?_ ?_ ?_ ?_ ?_ ?_ ?_ i n1 n2 h hwf1 hwf2 <;> clear h hwf1 hwf2 n2 n1 i
  · intro i n1 hx n2 h hwf1 _
    rw [walk_exit words cword i n2 hx]
    exact ⟨rfl, rfl, h, hwf1⟩
  · intro i n1 hi hw n2 h hwf1 _
    rw [walk_terminator_here words cword i n2 hi hw]
    exact ⟨rfl, rfl, h, hwf1⟩
  · intro i n1 word hi hw hne hp hv ht hc n2 h hwf1 _
    rw [walk_valueSlot words cword i n2 word hi hw hne hp hv
      ((takesValueOn_eq_of_sameMaps n1 n2 h hwf1 _).symm.trans ht) hc]
    exact ⟨rfl, rfl, h, hwf1⟩
  · intro i n1 word r hi hw hne hp hv ih n2 h hwf1 hwf2
    rw [walk_inlineFlag words cword i n2 word hi hw hne hp hv]
    exact ih n2 h hwf1 hwf2
  · intro i n1 word r hi hw hne hp hv ht hc ih n2 h hwf1 hwf2
    rw [walk_valueFlag words cword i n2 word hi hw hne hp hv
      ((takesValueOn_eq_of_sameMaps n1 n2 h hwf1 _).symm.trans ht) hc]
    exact ih n2 h hwf1 hwf2
  · intro i n1 word r hi hw hne hp hv ht ih n2 h hwf1 hwf2
    rw [walk_plainFlag words cword i n2 word hi hw hne hp hv
      ((takesValueOn_eq_of_sameMaps n1 n2 h hwf1 _).symm.trans ht)]
    exact ih n2 h hwf1 hwf2
  · intro i n1 child word r hi hw hne hp hl ih n2 h hwf1 hwf2
    obtain ⟨y, hy, hxy⟩ := lookup_child_of_sameMaps n1 n2 h hwf2 word child hl
    rw [walk_descend words cword i n2 y word hi hw hne hp hy]
    exact ih y hxy (hwf1.child (word, child) (mem_of_lookup _ _ _ hl))
      (hwf2.child (word, y) (mem_of_lookup _ _ _ hy))
  · intro i n1 word r hi hw hne hp hl ih n2 h hwf1 hwf2
    rw [walk_positional words cword i n2 word hi hw hne hp
      (lookup_none_of_sameMaps n1 n2 h word hl)]
    exact ih n2 h hwf1 hwf2

/-- C13: `completeWords` is a function of the tree, the cursor and the token
list, and its output does not depend on the order in which the children map
and the flags map of the nodes are enumerated: on two trees that hold the same
maps in any two enumeration orders it returns the same list. -/
theorem completeWords_order_independent (root1 root2 : completionNode) (cword : Int)
    (words : List String) (hwf1 : root1.WF) (hwf2 : root2.WF)
    (h : root1.sameMaps root2) :
    completeWords root1 cword words = completeWords root2 cword words := by
  by_cases hne : words = []
  · subst hne; rw [completeWords_nil, completeWords_nil]
  rw [completeWords_eq_completeFrom root1 cword words hne,
    completeWords_eq_completeFrom root2 cword words hne,
    completeFrom_eq_ite root1, completeFrom_eq_ite root2]
  obtain ⟨hret, hti, hnode, hwfn⟩ :=
    walk_sameMaps words (cursor cword words) (startIndex words) root1 root2 h hwf1 hwf2
  rw [hret, hti,
    prevTakesValue_congr_node words _ _ _ _ (takesValueOn_eq_of_sameMaps _ _ hnode hwfn),
    suggestions_eq_of_sameMaps _ _ hnode]

theorem sampleRootShuffled_WF : sampleRootShuffled.WF := by
  unfold sampleRootShuffled
  refine completionNode.WF.mk (by simp [keys]) (by simp [keys]) ?_
  intro kv hkv
  simp only [List.mem_cons, List.mem_singleton, List.not_mem_nil, or_false] at hkv
  rcases hkv with rfl | rfl <;>
    exact completionNode.WF.mk (by simp [keys]) (by simp [keys]) (by simp)

theorem authNode_sameMaps_first :
    authNode.sameMaps (.mk [] [("--no-verbose", ⟨false⟩), ("--account", ⟨true⟩),
      ("--verbose", ⟨false⟩)]) := by
  unfold authNode
  refine completionNode.sameMaps.mk ?_ (List.Perm.refl _) (by simp)
  decide

theorem authNode_sameMaps_second :
    authNode.sameMaps (.mk [] [("--verbose", ⟨false⟩), ("--no-verbose", ⟨false⟩),
      ("--account", ⟨true⟩)]) := by
  unfold authNode
  refine completionNode.sameMaps.mk ?_ (List.Perm.refl _) (by simp)
  decide

theorem sampleRoot_sameMaps : sampleRoot.sameMaps sampleRootShuffled := by
  unfold sampleRoot sampleRootShuffled
  refine completionNode.sameMaps.mk (List.Perm.swap _ _ _) (List.Perm.swap _ _ _) ?_
  intro k n1 n2 h1 h2
  simp only [List.mem_cons, List.mem_singleton, List.not_mem_nil, or_false, Prod.mk.injEq]
    at h1 h2
  rcases h1 with ⟨rfl, rfl⟩ | ⟨rfl, rfl⟩ <;> rcases h2 with ⟨hk, rfl⟩ | ⟨hk, rfl⟩
  · exact absurd hk (by decide)
  · exact authNode_sameMaps_second
  · exact authNode_sameMaps_first
  · exact absurd hk (by decide)

/-- C13 (witness): the sample tree and the same tree enumerated in another
order give the same completions of the empty token. -/
theorem completeWords_order_independent_witness :
    completeWords sampleRoot 1 ["gog", ""] = completeWords sampleRootShuffled 1 ["gog", ""] :=
  completeWords_order_independent sampleRoot sampleRootShuffled 1 ["gog", ""] sampleRoot_WF
    sampleRootShuffled_WF sampleRoot_sameMaps

/-! ## C17: the output of the command `__complete` -/

theorem foldl_append_eq (l : List String) (acc : String) :
    l.foldl (fun r s => r ++ s) acc = acc ++ l.foldl (fun r s => r ++ s) "" := by
  induction l generalizing acc with
  | nil => simp
  | cons a l ih =>
    rw [List.foldl_cons, List.foldl_cons, ih (acc ++ a), ih ("" ++ a), String.empty_append,
      String.append_assoc]

theorem join_cons (a : String) (l : List String) :
    String.join (a :: l) = a ++ String.join l := by
  unfold String.join
  rw [List.foldl_cons, foldl_append_eq, String.empty_append]

theorem printItems_of_no_error {ε : Type} (writeErr : Nat → Option ε) (items : List String)
    (j : Nat) (out : String) (hw : ∀ i, i < items.length → writeErr (j + i) = none) :
    printItems writeErr items j out =
      (out ++ String.join (items.map (fun item => item ++ "\n")), none) := by
  induction items generalizing j out with
  | nil => simp [printItems, String.join]
  | cons item rest ih =>
    have h0 : writeErr j = none := hw 0 (by simp)
    rw [printItems, h0]
    simp only [Fprintln]
    rw [ih (j + 1) _ (fun i hi => by
      have := hw (i + 1) (by simpa using hi)
      rw [← this]; congr 1; omega)]
    rw [List.map_cons, join_cons]
    simp only [String.append_assoc]

/-- C17: when `completeWords` returns the suggestions `items` and the writes to
standard output succeed, `CompletionInternalCmd.Run` appends to standard output
exactly the suggestions, in the same order, each followed by one newline, and
returns `nil`; when `completeWords` returns an error, `Run` writes nothing and
returns that error. -/
theorem Run_output {ε : Type} (c : CompletionInternalCmd) (newParser : Except ε kongNode)
    (writeErr : Nat → Option ε) (stdout : String) :
    (∀ items, completeWordsResult newParser c.Cword c.Words = .ok items →
      (∀ j, j < items.length → writeErr j = none) →
      c.Run newParser writeErr stdout =
        (stdout ++ String.join (items.map (fun item => item ++ "\n")), none)) ∧
    (∀ err, completeWordsResult newParser c.Cword c.Words = .error err →
      c.Run newParser writeErr stdout = (stdout, some err)) := by
  constructor
  · intro items h hw
    unfold CompletionInternalCmd.Run
    rw [h]
    exact printItems_of_no_error writeErr items 0 stdout (fun i hi => by
      rw [Nat.zero_add]; exact hw i hi)
  · intro err h
    unfold CompletionInternalCmd.Run
    rw [h]

theorem completeWords_sample_a : completeWords sampleRoot 1 ["gog", "a"] = ["auth"] := by
  simp [completeWords, completeFrom, suggestions, walk, startIndex, isProgramName, sampleRoot,
    prevTakesValue, currentWord, strings.HasPrefix, matchingFlags, matchingCommands, keys,
    completionNode.flags, completionNode.children, sort.Strings]

/-- C17 (witness): completing `a` prints the line `auth`; a failing parser
construction prints nothing. -/
theorem Run_output_witness :
    CompletionInternalCmd.Run ⟨1, ["gog", "a"]⟩ (Except.ok sampleModel : Except String kongNode)
        (fun _ => none) "" = ("auth\n", none) ∧
      CompletionInternalCmd.Run ⟨1, ["gog", "a"]⟩ (Except.error "bad" : Except String kongNode)
        (fun _ => none) "" = ("", some "bad") := by
  have h1 : completeWordsResult (Except.ok sampleModel : Except String kongNode) 1 ["gog", "a"]
      = .ok ["auth"] := by
    simp [completeWordsResult, sampleRoot_built, completeWords_sample_a]
  have h2 : completeWordsResult (Except.error "bad" : Except String kongNode) 1 ["gog", "a"]
      = .error "bad" := by
    simp [completeWordsResult]
  constructor
  · rw [(Run_output ⟨1, ["gog", "a"]⟩ (Except.ok sampleModel : Except String kongNode)
      (fun _ => none) "").1 ["auth"] h1 (fun _ _ => rfl)]
    decide
  · exact (Run_output ⟨1, ["gog", "a"]⟩ (Except.error "bad" : Except String kongNode)
      (fun _ => none) "").2 "bad" h2

/-! ## C18: the account to act for -/

theorem requireAccount_eq_spec {ε : Type} (flags : RootFlags) (Getenv : String → String)
    (openSecretsStoreForAccount : Except ε (Store ε)) :
    requireAccount flags Getenv openSecretsStoreForAccount =
      requireAccountSpec flags Getenv openSecretsStoreForAccount := by
  unfold requireAccount requireAccountSpec accountCandidates
  by_cases h1 : strings.TrimSpace flags.Account = ""
  swap
  · simp [h1, List.find?]
  by_cases h2 : strings.TrimSpace (Getenv "GOG_ACCOUNT") = ""
  swap
  · simp [h1, h2, List.find?]
  cases openSecretsStoreForAccount with
  | error e => simp [h1, h2, List.find?]
  | ok store =>
    obtain ⟨gd, lt⟩ := store
    cases gd with
    | error e =>
      cases lt with
      | error e' => simp [h1, h2, List.find?]
      | ok toks =>
        match toks with
        | [] => simp [h1, h2, List.find?]
        | [tok] =>
          by_cases h4 : strings.TrimSpace tok.Email = "" <;> simp [h1, h2, h4, List.find?]
        | _ :: _ :: _ => simp [h1, h2, List.find?]
    | ok d =>
      by_cases h3 : strings.TrimSpace d = ""
      swap
      · simp [h1, h2, h3, List.find?]
      cases lt with
      | error e' => simp [h1, h2, h3, List.find?]
      | ok toks =>
        match toks with
        | [] => simp [h1, h2, h3, List.find?]
        | [tok] =>
          by_cases h4 : strings.TrimSpace tok.Email = "" <;>
            simp [h1, h2, h3, h4, List.find?]
        | _ :: _ :: _ => simp [h1, h2, h3, List.find?]

/-- C18: `requireAccount` returns the first non-blank value, trimmed, among the
`--account` flag, the variable `GOG_ACCOUNT`, the default account of the store
(when the store opens and the lookup succeeds) and the e-mail of the single
stored token (when the store opens, the listing succeeds and exactly one token
is stored), in this order; it returns the usage error if and only if none of
them is non-blank, in particular when flag and variable are blank, there is no
default and the number of stored tokens is not one. -/
theorem requireAccount_first_non_blank {ε : Type} (flags : RootFlags)
    (Getenv : String → String) (openSecretsStoreForAccount : Except ε (Store ε)) :
    requireAccount flags Getenv openSecretsStoreForAccount =
        requireAccountSpec flags Getenv openSecretsStoreForAccount ∧
      (∀ v, requireAccount flags Getenv openSecretsStoreForAccount = .ok v →
        v ≠ "" ∧ ∃ c ∈ accountCandidates flags Getenv openSecretsStoreForAccount,
          v = strings.TrimSpace c) ∧
      ((∃ err, requireAccount flags Getenv openSecretsStoreForAccount = .error err) ↔
        ∀ c ∈ accountCandidates flags Getenv openSecretsStoreForAccount,
          strings.TrimSpace c = "") ∧
      (∀ err, requireAccount flags Getenv openSecretsStoreForAccount = .error err →
        err = missingAccount) ∧
      (∀ store, openSecretsStoreForAccount = .ok store →
        strings.TrimSpace flags.Account = "" →
        strings.TrimSpace (Getenv "GOG_ACCOUNT") = "" →
        (∀ d, store.GetDefaultAccount = .ok d → strings.TrimSpace d = "") →
        (∀ toks, store.ListTokens = .ok toks → toks.length ≠ 1) →
        requireAccount flags Getenv openSecretsStoreForAccount = .error missingAccount) := by
  have hspec := requireAccount_eq_spec flags Getenv openSecretsStoreForAccount
  have hiff : (∃ err, requireAccount flags Getenv openSecretsStoreForAccount = .error err) ↔
      ∀ c ∈ accountCandidates flags Getenv openSecretsStoreForAccount,
        strings.TrimSpace c = "" := by
    rw [hspec]
    unfold requireAccountSpec
    cases hf : ((accountCandidates flags Getenv openSecretsStoreForAccount).map
        strings.TrimSpace).find? (fun v => v ≠ "") with
    | none =>
      rw [List.find?_eq_none] at hf
      refine ⟨fun _ => ?_, fun _ => ⟨missingAccount, rfl⟩⟩
      intro c hc
      have := hf (strings.TrimSpace c) (List.mem_map_of_mem _ hc)
      simpa using this
    | some v =>
      have hp : decide (v ≠ "") = true :=
        @List.find?_some _ (fun v : String => decide (v ≠ "")) v _ hf
      have hm := List.mem_of_find?_eq_some hf
      obtain ⟨c, hc, e⟩ := List.mem_map.mp hm
      constructor
      · rintro ⟨err, h⟩
        exact Except.noConfusion h
      · intro h
        have h0 := h c hc
        rw [e] at h0
        simp [h0] at hp
  refine ⟨hspec, ?_, hiff, ?_, ?_⟩
  · intro v hv
    rw [hspec] at hv
    unfold requireAccountSpec at hv
    cases hf : ((accountCandidates flags Getenv openSecretsStoreForAccount).map
        strings.TrimSpace).find? (fun v => v ≠ "") with
    | none => rw [hf] at hv; exact Except.noConfusion hv
    | some w =>
      rw [hf] at hv
      have e : w = v := by injection hv
      subst e
      have hp : decide (w ≠ "") = true :=
        @List.find?_some _ (fun v : String => decide (v ≠ "")) w _ hf
      have hm := List.mem_of_find?_eq_some hf
      obtain ⟨c, hc, e⟩ := List.mem_map.mp hm
      exact ⟨by simpa using hp, c, hc, e.symm⟩
  · intro err h
    rw [hspec] at h
    unfold requireAccountSpec at h
    split at h
    · exact Except.noConfusion h
    · injection h with h; exact h.symm
  · intro store hs h1 h2 hd hl
    have hall : ∀ c ∈ accountCandidates flags Getenv openSecretsStoreForAccount,
        strings.TrimSpace c = "" := by
      intro c hc
      subst hs
      unfold accountCandidates at hc
      simp only [List.mem_append, List.mem_cons, List.mem_singleton, List.not_mem_nil,
        or_false] at hc
      rcases hc with (rfl | rfl) | hc | hc
      · exact h1
      · exact h2
      · cases hg : store.GetDefaultAccount with
        | error e => rw [hg] at hc; simp at hc
        | ok d =>
          rw [hg] at hc
          simp only [List.mem_singleton] at hc
          subst hc
          exact hd _ hg
      · cases hg : store.ListTokens with
        | error e => rw [hg] at hc; simp at hc
        | ok toks =>
          have hlen := hl toks hg
          rw [hg] at hc
          match toks, hlen, hc with
          | [], _, hc => simp at hc
          | [tok], hlen, _ => simp at hlen
          | _ :: _ :: _, _, hc => simp at hc
    obtain ⟨err, herr⟩ := hiff.mpr hall
    rw [herr]
    have := hspec ▸ herr
    unfold requireAccountSpec at this
    split at this
    · exact Except.noConfusion this
    · exact this.symm ▸ rfl

/-- C18 (witness): with blank flag and variable, no default and two stored
tokens the account is missing; with a single stored token its e-mail is taken. -/
theorem requireAccount_first_non_blank_witness :
    requireAccount ⟨""⟩ (fun _ => "  ")
        (Except.ok ⟨.ok "", .ok [⟨"a@example.com"⟩, ⟨"b@example.com"⟩]⟩ :
          Except String (Store String)) = .error missingAccount ∧
      requireAccount ⟨""⟩ (fun _ => "")
        (Except.ok ⟨.error "no default", .ok [⟨" one@example.com "⟩]⟩ :
          Except String (Store String)) = .ok "one@example.com" := by
  constructor
  · exact (requireAccount_first_non_blank ⟨""⟩ (fun _ => "  ")
      (Except.ok ⟨.ok "", .ok [⟨"a@example.com"⟩, ⟨"b@example.com"⟩]⟩ :
        Except String (Store String))).2.2.2.2
      ⟨.ok "", .ok [⟨"a@example.com"⟩, ⟨"b@example.com"⟩]⟩ rfl (by decide) (by decide)
      (fun d hd => by
        have e : d = "" := by injection hd with hd; exact hd.symm
        subst e; decide)
      (fun toks hl => by
        have e : toks = [⟨"a@example.com"⟩, ⟨"b@example.com"⟩] := by
          injection hl with hl; exact hl.symm
        subst e; decide)
  · rw [(requireAccount_first_non_blank ⟨""⟩ (fun _ => "")
      (Except.ok ⟨.error "no default", .ok [⟨" one@example.com "⟩]⟩ :
        Except String (Store String))).1]
    rfl

/-! ## C12: no index is out of range -/

theorem sliceIndex_natCast (words : List String) (i : Nat) :
    sliceIndex words (i : Int) = words[i]? := by
  unfold sliceIndex
  rw [if_neg (by omega)]
  simp

theorem walkChecked_unfold (words : List String) (cword i : Int) (node : completionNode) :
    walkChecked words cword i node =
      if i < cword ∧ i < words.length then
        match sliceIndex words i with
        | none => none
        | some word =>
          if word = "--" then some ⟨node, i, false⟩
          else if strings.HasPrefix word "-" then
            if (splitFlagToken word).2 then walkChecked words cword (i + 1) node
            else if takesValueOn node (splitFlagToken word).1 then
              if i + 1 = cword then some ⟨node, -1, true⟩
              else walkChecked words cword (i + 2) node
            else walkChecked words cword (i + 1) node
          else
            match node.children.lookup word with
            | some child => walkChecked words cword (i + 1) child
            | none => walkChecked words cword (i + 1) node
      else some ⟨node, -1, false⟩ := by
  rw [walkChecked]
  split <;> rfl

/-- The checked walk never panics and does what the walk does. -/
theorem walkChecked_eq_walk (words : List String) (cword i : Nat) (node : completionNode) :
    walkChecked words (cword : Int) (i : Int) node = some (walk words cword i node) := by
  refine walk_rec words cword
    (fun i node r => walkChecked words (cword : Int) (i : Int) node = some r)
    ?_ ?_ ?_ ?_ ?_ ?_ ?_ ?_ i node
  · intro i node h
    rw [walkChecked_unfold, if_neg (by omega)]
  · intro i node hi hw
    obtain ⟨hl, _⟩ := getElem_of_getElem? hw
    rw [walkChecked_unfold, if_pos (by omega), sliceIndex_natCast, hw]
    simp
  · intro i node word hi hw hne hp hv ht hc
    obtain ⟨hl, _⟩ := getElem_of_getElem? hw
    rw [walkChecked_unfold, if_pos (by omega), sliceIndex_natCast, hw]
    have hc2 : (i : Int) + 1 = (cword : Int) := by omega
    simp [hne, hp, hv, ht, hc2]
  · intro i node word r hi hw hne hp hv ih
    obtain ⟨hl, _⟩ := getElem_of_getElem? hw
    rw [walkChecked_unfold, if_pos (by omega), sliceIndex_natCast, hw]
    simp only [hne, hp, hv, if_true, if_false]
    exact_mod_cast ih
  · intro i node word r hi hw hne hp hv ht hc ih
    obtain ⟨hl, _⟩ := getElem_of_getElem? hw
    rw [walkChecked_unfold, if_pos (by omega), sliceIndex_natCast, hw]
    have hc2 : ¬((i : Int) + 1 = (cword : Int)) := by omega
    simp only [hne, hp, hv, ht, hc2, if_true, if_false, Bool.false_eq_true]
    exact_mod_cast ih
  · intro i node word r hi hw hne hp hv ht ih
    obtain ⟨hl, _⟩ := getElem_of_getElem? hw
    rw [walkChecked_unfold, if_pos (by omega), sliceIndex_natCast, hw]
    simp only [hne, hp, hv, ht, if_true, if_false, Bool.false_eq_true]
    exact_mod_cast ih
  · intro i node child word r hi hw hne hp hl ih
    obtain ⟨hlen, _⟩ := getElem_of_getElem? hw
    rw [walkChecked_unfold, if_pos (by omega), sliceIndex_natCast, hw]
    simp only [hne, hp, hl, if_false, Bool.false_eq_true]
    exact_mod_cast ih
  · intro i node word r hi hw hne hp hl ih
    obtain ⟨hlen, _⟩ := getElem_of_getElem? hw
    rw [walkChecked_unfold, if_pos (by omega), sliceIndex_natCast, hw]
    simp only [hne, hp, hl, if_false, Bool.false_eq_true]
    exact_mod_cast ih

theorem currentIsTerminatorChecked_natCast (words : List String) (c : Nat) :
    currentIsTerminatorChecked words (c : Int) = some (decide (words[c]? = some "--")) := by
  unfold currentIsTerminatorChecked
  rw [sliceIndex_natCast]
  by_cases h : c < words.length
  · rw [if_pos (by omega), List.getElem?_eq_getElem h]
    simp
  · rw [if_neg (by omega), List.getElem?_eq_none (by omega)]
    simp

theorem prevTakesValueChecked_natCast (words : List String) (node : completionNode)
    (s c : Nat) :
    prevTakesValueChecked words node (s : Int) (c : Int) =
      some (prevTakesValue words node s c) := by
  unfold prevTakesValueChecked prevTakesValue
  by_cases h : c > s ∧ c ≤ words.length
  · have e : (c : Int) - 1 = ((c - 1 : Nat) : Int) := by omega
    rw [if_pos (by omega), dif_pos h, e, sliceIndex_natCast,
      List.getElem?_eq_getElem (by omega)]
    rfl
  · rw [if_neg (by omega), dif_neg h]

theorem currentWordChecked_natCast (words : List String) (c : Nat) :
    currentWordChecked words (c : Int) = some (currentWord words c) := by
  unfold currentWordChecked currentWord
  by_cases h : c < words.length
  · rw [if_pos (by omega), dif_pos h, sliceIndex_natCast, List.getElem?_eq_getElem h]
  · rw [if_neg (by omega), dif_neg h]

/-- On a built tree the checked function returns, without panic, what
`completeWords` returns. -/
theorem completeWordsChecked_ok {ε : Type} (model : kongNode) (cword : Int)
    (words : List String) :
    completeWordsChecked (Except.ok model : Except ε kongNode) cword words =
      .ok (completeWords (buildCompletionNode model) cword words) := by
  cases words with
  | nil => simp [completeWordsChecked, completeWords]
  | cons first rest =>
    have hne : first :: rest ≠ [] := by simp
    have hlen : 0 < (first :: rest).length := by simp
    rw [completeWords_eq_completeFrom _ cword _ hne]
    unfold completeWordsChecked
    rw [if_neg (by omega)]
    simp only
    rw [if_neg (by split <;> omega)]
    have hcur : (if (if cword < 0 then ((first :: rest).length : Int) - 1 else cword) >
          ((first :: rest).length : Int) then ((first :: rest).length : Int)
        else (if cword < 0 then ((first :: rest).length : Int) - 1 else cword)) =
        ((cursor cword (first :: rest) : Nat) : Int) := by
      unfold cursor
      simp only
      rw [Int.toNat_of_nonneg]
      split <;> split <;> omega
    rw [hcur]
    have h0 : sliceIndex (first :: rest) 0 = some first := by
      have := sliceIndex_natCast (first :: rest) 0
      simpa using this
    rw [h0]
    simp only
    have hstart : (if isProgramName first = true then (1 : Int) else 0) =
        ((startIndex (first :: rest) : Nat) : Int) := by
      unfold startIndex
      split <;> simp [*]
    rw [hstart, walkChecked_eq_walk]
    simp only
    rw [currentIsTerminatorChecked_natCast, prevTakesValueChecked_natCast,
      currentWordChecked_natCast, completeFrom_eq_ite]
    have hcw := getElem?_terminator_iff (first :: rest) (cursor cword (first :: rest))
    by_cases hr : (walk (first :: rest) (cursor cword (first :: rest))
        (startIndex (first :: rest)) (buildCompletionNode model)).returned = true
    · simp [hr]
    by_cases ht : (walk (first :: rest) (cursor cword (first :: rest))
        (startIndex (first :: rest)) (buildCompletionNode model)).terminatorIndex = -1
    swap
    · have hge : ((cursor cword (first :: rest) : Nat) : Int) ≥
          (walk (first :: rest) (cursor cword (first :: rest))
            (startIndex (first :: rest)) (buildCompletionNode model)).terminatorIndex := by
        rcases walk_terminatorIndex (first :: rest) (cursor cword (first :: rest))
          (startIndex (first :: rest)) (buildCompletionNode model) with h | ⟨t, h, _, h3, _⟩
        · exact absurd h ht
        · rw [h]; omega
      simp [hr, ht, hge]
    by_cases hc : (first :: rest)[cursor cword (first :: rest)]? = some "--"
    · have hc2 := hcw.mp hc
      simp [hr, ht, hc, hc2]
    have hc2 : ¬(currentWord (first :: rest) (cursor cword (first :: rest)) = "--") :=
      fun h => hc (hcw.mpr h)
    by_cases hp : prevTakesValue (first :: rest)
        (walk (first :: rest) (cursor cword (first :: rest))
          (startIndex (first :: rest)) (buildCompletionNode model)).node
        (startIndex (first :: rest)) (cursor cword (first :: rest)) = true
    · simp [hr, ht, hc, hc2, hp]
    · simp [hr, ht, hc, hc2, hp]

theorem completeWordsChecked_error {ε : Type} (err : ε) (cword : Int) (words : List String) :
    completeWordsChecked (Except.error err : Except ε kongNode) cword words =
      if words = [] then .ok [] else .error err := by
  cases words with
  | nil => simp [completeWordsChecked]
  | cons first rest => simp [completeWordsChecked]

/-- C12: for every integer `cword` and every token list, `completeWords` with
checked index expressions never panics (every index it uses into the token
list is within bounds); once the tree is built it returns a list and no error,
the list that `completeWords` computes on the built tree; and it returns an
error if and only if the token list is non-empty and the parser construction
fails, the error being that of the construction and no suggestions coming with
it. -/
theorem completeWordsChecked_total {ε : Type} (newParser : Except ε kongNode) (cword : Int)
    (words : List String) :
    completeWordsChecked newParser cword words ≠ .panic ∧
      (∀ model, newParser = .ok model →
        completeWordsChecked newParser cword words =
          .ok (completeWords (buildCompletionNode model) cword words)) ∧
      ((∃ err, completeWordsChecked newParser cword words = .error err) ↔
        words ≠ [] ∧ ∃ err, newParser = .error err) ∧
      (∀ err, words ≠ [] → newParser = .error err →
        completeWordsChecked newParser cword words = .error err) := by
  cases newParser with
  | ok model =>
    have h := @completeWordsChecked_ok ε model cword words
    refine ⟨?_, ?_, ?_, ?_⟩
    · rw [h]; exact fun e => outcome.noConfusion e
    · intro m hm
      injection hm with hm
      subst hm
      exact h
    · rw [h]
      constructor
      · rintro ⟨err, e⟩; exact outcome.noConfusion e
      · rintro ⟨_, err, e⟩; exact Except.noConfusion e
    · intro err _ e; exact Except.noConfusion e
  | error err0 =>
    have h := completeWordsChecked_error err0 cword words
    refine ⟨?_, ?_, ?_, ?_⟩
    · rw [h]; split <;> exact fun e => outcome.noConfusion e
    · intro m hm; exact Except.noConfusion hm
    · rw [h]
      by_cases hw : words = []
      · rw [if_pos hw]
        constructor
        · rintro ⟨err, e⟩; exact outcome.noConfusion e
        · rintro ⟨hne, _⟩; exact absurd hw hne
      · rw [if_neg hw]
        exact ⟨fun _ => ⟨hw, err0, rfl⟩, fun _ => ⟨err0, rfl⟩⟩
    · intro err hw e
      injection e with e
      subst e
      rw [h, if_neg hw]

/-! ## C19: storing and listing a service account -/

/-! ### Prefixes and suffixes -/

theorem HasPrefix_append (a b : String) : strings.HasPrefix (a ++ b) a = true := by
  unfold strings.HasPrefix
  rw [List.isPrefixOf_iff_prefix, String.data_append]
  exact List.prefix_append _ _

theorem HasSuffix_append (a b : String) : strings.HasSuffix (a ++ b) b = true := by
  unfold strings.HasSuffix
  rw [List.isSuffixOf_iff_suffix, String.data_append]
  exact List.suffix_append _ _

theorem TrimPrefix_append (a b : String) : strings.TrimPrefix (a ++ b) a = b := by
  unfold strings.TrimPrefix
  rw [if_pos (HasPrefix_append a b)]
  apply String.ext
  show List.drop a.data.length (a ++ b).data = b.data
  rw [String.data_append]
  exact List.drop_left _ _

theorem TrimSuffix_append (a b : String) : strings.TrimSuffix (a ++ b) b = a := by
  unfold strings.TrimSuffix
  rw [if_pos (HasSuffix_append a b)]
  apply String.ext
  show List.take ((a ++ b).length - b.length) (a ++ b).data = a.data
  rw [String.length_append, Nat.add_sub_cancel, String.data_append]
  exact List.take_left _ _

/-! ### Trimming and lower-casing -/

theorem dropWhile_of_head (p : Char → Bool) (l : List Char)
    (h : ∀ c, l.head? = some c → p c = false) : l.dropWhile p = l := by
  cases l with
  | nil => rfl
  | cons c cs =>
    have hc := h c rfl
    simp [List.dropWhile, hc]

theorem head?_dropWhile (p : Char → Bool) (l : List Char) (c : Char)
    (h : (l.dropWhile p).head? = some c) : p c = false := by
  have := List.head?_dropWhile_not p l
  rw [h] at this
  exact this

theorem head?_prefix_eq (l1 l2 : List Char) (c : Char) (hp : l1 <+: l2)
    (h : l1.head? = some c) : l2.head? = some c := by
  obtain ⟨t, ht⟩ := hp
  cases l1 with
  | nil => simp at h
  | cons a l1 => rw [← ht]; exact h

/-- A trimmed sequence of characters neither starts nor ends with white space. -/
theorem trimmed_of_trim (l : List Char) :
    (∀ c, (((l.dropWhile unicode.IsSpace).reverse.dropWhile unicode.IsSpace).reverse).head?
        = some c → unicode.IsSpace c = false) ∧
    (∀ c, (((l.dropWhile unicode.IsSpace).reverse.dropWhile unicode.IsSpace).reverse).getLast?
        = some c → unicode.IsSpace c = false) := by
  constructor
  · intro c hc
    have hsuf : ((l.dropWhile unicode.IsSpace).reverse.dropWhile unicode.IsSpace) <:+
        (l.dropWhile unicode.IsSpace).reverse := List.dropWhile_suffix _
    have hpre : ((l.dropWhile unicode.IsSpace).reverse.dropWhile unicode.IsSpace).reverse <+:
        l.dropWhile unicode.IsSpace := by
      have := List.reverse_prefix.mpr hsuf
      simpa using this
    exact head?_dropWhile _ _ _ (head?_prefix_eq _ _ c hpre hc)
  · intro c hc
    rw [List.getLast?_reverse] at hc
    exact head?_dropWhile _ _ _ hc

theorem trim_of_trimmed (l : List Char)
    (h1 : ∀ c, l.head? = some c → unicode.IsSpace c = false)
    (h2 : ∀ c, l.getLast? = some c → unicode.IsSpace c = false) :
    ((l.dropWhile unicode.IsSpace).reverse.dropWhile unicode.IsSpace).reverse = l := by
  rw [dropWhile_of_head _ l h1, dropWhile_of_head _ l.reverse (by
    intro c hc
    rw [List.head?_reverse] at hc
    exact h2 c hc), List.reverse_reverse]

/-- A trimmed and lower-cased text is left as it is by trimming and by
lower-casing, when lower-casing a rune twice is lower-casing it once and
lower-casing neither makes nor removes white space. -/
theorem normalized_fixed (lower : Char → Char)
    (hlow1 : ∀ c, lower (lower c) = lower c)
    (hlow2 : ∀ c, unicode.IsSpace (lower c) = unicode.IsSpace c) (email : String) :
    strings.TrimSpace (strings.ToLower lower (strings.TrimSpace email)) =
        strings.ToLower lower (strings.TrimSpace email) ∧
      strings.ToLower lower (strings.ToLower lower (strings.TrimSpace email)) =
        strings.ToLower lower (strings.TrimSpace email) := by
  constructor
  · unfold strings.TrimSpace strings.ToLower
    apply String.ext
    simp only
    obtain ⟨h1, h2⟩ := trimmed_of_trim email.data
    apply trim_of_trimmed
    · intro c hc
      rw [List.head?_map] at hc
      obtain ⟨c0, hc0, e⟩ := Option.map_eq_some'.mp hc
      rw [← e, hlow2]
      exact h1 c0 hc0
    · intro c hc
      rw [List.getLast?_map] at hc
      obtain ⟨c0, hc0, e⟩ := Option.map_eq_some'.mp hc
      rw [← e, hlow2]
      exact h2 c0 hc0
  · unfold strings.ToLower
    apply String.ext
    simp only [List.map_map]
    apply List.map_congr_left
    intro c _
    exact hlow1 c

/-! ### The base64 encoding -/

theorem decodeChar_encodeChar (n : Nat) (h : n < 64) :
    base64.decodeChar (base64.encodeChar n) = some n := by
  interval_cases n <;> rfl

theorem encodeChar_not_newline (n : Nat) (h : n < 64) :
    (base64.encodeChar n != '\r' && base64.encodeChar n != '\n') = true := by
  interval_cases n <;> rfl

theorem values_encodeChar_cons (n : Nat) (h : n < 64) (cs : List Char) :
    base64.values (base64.encodeChar n :: cs) = (base64.values cs).map (fun vs => n :: vs) := by
  rw [base64.values, decodeChar_encodeChar n h]
  cases base64.values cs <;> rfl

/-- Decoding the characters of an encoding gives the bytes back. -/
theorem decodeValues_values_encode (bytes : List Nat) (h : ∀ b ∈ bytes, b < 256) :
    (base64.values (base64.encode bytes)).bind base64.decodeValues = some bytes := by
  induction bytes using base64.encode.induct with
  | case1 a b c rest ih =>
    have ha : a < 256 := h a (by simp)
    have hb : b < 256 := h b (by simp)
    have hc : c < 256 := h c (by simp)
    have hrest := ih (fun x hx => h x (by simp [hx]))
    rw [base64.encode, values_encodeChar_cons _ (by omega), values_encodeChar_cons _ (by omega),
      values_encodeChar_cons _ (by omega), values_encodeChar_cons _ (by omega)]
    cases hv : base64.values (base64.encode rest) with
    | none => rw [hv] at hrest; simp at hrest
    | some vs =>
      rw [hv] at hrest
      simp only [Option.some_bind] at hrest
      simp only [Option.map_some', Option.some_bind, base64.decodeValues, hrest]
      have e1 : a / 4 * 4 + (a % 4 * 16 + b / 16) / 16 = a := by omega
      have e2 : (a % 4 * 16 + b / 16) % 16 * 16 + (b % 16 * 4 + c / 64) / 4 = b := by omega
      have e3 : (b % 16 * 4 + c / 64) % 4 * 64 + c % 64 = c := by omega
      rw [e1, e2, e3]
  | case2 a b =>
    have ha : a < 256 := h a (by simp)
    have hb : b < 256 := h b (by simp)
    rw [base64.encode, values_encodeChar_cons _ (by omega), values_encodeChar_cons _ (by omega),
      values_encodeChar_cons _ (by omega)]
    simp only [base64.values, Option.map_some', Option.some_bind, base64.decodeValues]
    have e1 : a / 4 * 4 + (a % 4 * 16 + b / 16) / 16 = a := by omega
    have e2 : (a % 4 * 16 + b / 16) % 16 * 16 + b % 16 * 4 / 4 = b := by omega
    rw [e1, e2]
  | case3 a =>
    have ha : a < 256 := h a (by simp)
    rw [base64.encode, values_encodeChar_cons _ (by omega), values_encodeChar_cons _ (by omega)]
    simp only [base64.values, Option.map_some', Option.some_bind, base64.decodeValues]
    have e1 : a / 4 * 4 + a % 4 * 16 / 16 = a := by omega
    rw [e1]
  | case4 => rfl

theorem encode_no_newline (bytes : List Nat) (h : ∀ b ∈ bytes, b < 256) :
    ∀ ch ∈ base64.encode bytes, (ch != '\r' && ch != '\n') = true := by
  induction bytes using base64.encode.induct with
  | case1 a b c rest ih =>
    have ha : a < 256 := h a (by simp)
    have hb : b < 256 := h b (by simp)
    have hc : c < 256 := h c (by simp)
    intro ch hch
    rw [base64.encode] at hch
    simp only [List.mem_cons] at hch
    rcases hch with rfl | rfl | rfl | rfl | hch
    · exact encodeChar_not_newline _ (by omega)
    · exact encodeChar_not_newline _ (by omega)
    · exact encodeChar_not_newline _ (by omega)
    · exact encodeChar_not_newline _ (by omega)
    · exact ih (fun x hx => h x (by simp [hx])) ch hch
  | case2 a b =>
    have ha : a < 256 := h a (by simp)
    have hb : b < 256 := h b (by simp)
    intro ch hch
    rw [base64.encode] at hch
    simp only [List.mem_cons, List.mem_singleton, List.not_mem_nil, or_false] at hch
    rcases hch with rfl | rfl | rfl
    · exact encodeChar_not_newline _ (by omega)
    · exact encodeChar_not_newline _ (by omega)
    · exact encodeChar_not_newline _ (by omega)
  | case3 a =>
    have ha : a < 256 := h a (by simp)
    intro ch hch
    rw [base64.encode] at hch
    simp only [List.mem_cons, List.mem_singleton, List.not_mem_nil, or_false] at hch
    rcases hch with rfl | rfl
    · exact encodeChar_not_newline _ (by omega)
    · exact encodeChar_not_newline _ (by omega)
  | case4 => intro ch hch; simp [base64.encode] at hch

/-- The decoder inverts the encoder on byte sequences. -/
theorem DecodeString_EncodeToString (bytes : List Nat) (h : ∀ b ∈ bytes, b < 256) :
    base64.RawURLEncoding.DecodeString (base64.RawURLEncoding.EncodeToString bytes) =
      some bytes := by
  unfold base64.RawURLEncoding.DecodeString base64.RawURLEncoding.EncodeToString
  simp only
  rw [List.filter_eq_self.mpr (encode_no_newline bytes h)]
  exact decodeValues_values_encode bytes h

/-! ### The bytes of a text -/

theorem Char.toNat_lt_max (c : Char) : c.toNat < 0x110000 := by
  have h := c.valid
  have e : c.toNat = c.val.toNat := rfl
  rw [e]
  rcases h with h | ⟨_, h⟩
  · have : c.val.toNat < 0xd800 := h
    omega
  · exact h

theorem EncodeRune_lt (c : Char) : ∀ b ∈ utf8.EncodeRune c, b < 256 := by
  have hc := Char.toNat_lt_max c
  intro b hb
  unfold utf8.EncodeRune at hb
  simp only at hb
  split at hb
  · simp only [List.mem_singleton] at hb; omega
  · split at hb
    · simp only [List.mem_cons, List.mem_singleton, List.not_mem_nil, or_false] at hb
      rcases hb with rfl | rfl <;> omega
    · split at hb
      · simp only [List.mem_cons, List.mem_singleton, List.not_mem_nil, or_false] at hb
        rcases hb with rfl | rfl | rfl <;> omega
      · simp only [List.mem_cons, List.mem_singleton, List.not_mem_nil, or_false] at hb
        rcases hb with rfl | rfl | rfl | rfl <;> omega

theorem bytesOf_lt (s : String) : ∀ b ∈ bytesOf s, b < 256 := by
  intro b hb
  unfold bytesOf at hb
  rw [List.mem_flatMap] at hb
  obtain ⟨c, _, hc⟩ := hb
  exact EncodeRune_lt c b hc

/-- The first byte of the encoding of a rune tells how the encoding goes on:
below 128 it is the whole encoding, and a first byte from 192 to 223 is followed
by a byte of at least 128. -/
theorem EncodeRune_cases (c : Char) :
    (∃ n, n < 128 ∧ utf8.EncodeRune c = [n]) ∨
    (∃ n m, 192 ≤ n ∧ n < 224 ∧ 128 ≤ m ∧ utf8.EncodeRune c = [n, m]) ∨
    (∃ n l, 224 ≤ n ∧ utf8.EncodeRune c = n :: l) := by
  have hc := Char.toNat_lt_max c
  unfold utf8.EncodeRune
  simp only
  split
  · exact Or.inl ⟨_, by omega, rfl⟩
  · split
    · exact Or.inr (Or.inl ⟨_, _, by omega, by omega, by omega, rfl⟩)
    · split
      · exact Or.inr (Or.inr ⟨_, _, by omega, rfl⟩)
      · exact Or.inr (Or.inr ⟨_, _, by omega, rfl⟩)

theorem bytes_cons_small (cs : List Char) (n : Nat) (rest : List Nat) (hn : n < 128)
    (h : cs.flatMap utf8.EncodeRune = n :: rest) :
    ∃ cs2 : List Char, rest = cs2.flatMap utf8.EncodeRune := by
  cases cs with
  | nil => simp at h
  | cons c cs' =>
    rw [List.flatMap_cons] at h
    rcases EncodeRune_cases c with ⟨m, hm, e⟩ | ⟨m, k, hm, _, _, e⟩ | ⟨m, l, hm, e⟩
    · rw [e] at h
      simp only [List.singleton_append, List.cons.injEq] at h
      exact ⟨cs', h.2.symm⟩
    · rw [e] at h
      simp only [List.cons_append, List.cons.injEq] at h
      omega
    · rw [e] at h
      simp only [List.cons_append, List.cons.injEq] at h
      omega

theorem bytes_cons_two (cs : List Char) (n d : Nat) (rest : List Nat) (h1 : 192 ≤ n)
    (h2 : n < 224) (h : cs.flatMap utf8.EncodeRune = n :: d :: rest) : 128 ≤ d := by
  cases cs with
  | nil => simp at h
  | cons c cs' =>
    rw [List.flatMap_cons] at h
    rcases EncodeRune_cases c with ⟨m, hm, e⟩ | ⟨m, k, hm, _, hk, e⟩ | ⟨m, l, hm, e⟩
    · rw [e] at h
      simp only [List.singleton_append, List.cons.injEq] at h
      omega
    · rw [e] at h
      simp only [List.cons_append, List.nil_append, List.cons.injEq] at h
      omega
    · rw [e] at h
      simp only [List.cons_append, List.cons.injEq] at h
      omega

/-- No text has UTF-8 bytes that begin with 118, 42, 222 and a byte below 128. -/
theorem bytesOf_not_direct (s : String) (d : Nat) (rest : List Nat)
    (h : bytesOf s = 118 :: 42 :: 222 :: d :: rest) : 128 ≤ d := by
  unfold bytesOf at h
  obtain ⟨cs1, h1⟩ := bytes_cons_small s.data 118 _ (by omega) h
  obtain ⟨cs2, h2⟩ := bytes_cons_small cs1 42 _ (by omega) h1.symm
  exact bytes_cons_two cs2 222 d rest (by omega) (by omega) h2.symm


/-! ### A delegation file is never read as a direct file -/

theorem encodeChar_eq_iff (n m : Nat) (hn : n < 64) (hm : m < 64)
    (h : base64.encodeChar n = base64.encodeChar m) : n = m := by
  have h1 := decodeChar_encodeChar n hn
  have h2 := decodeChar_encodeChar m hm
  rw [h] at h1
  rw [h1] at h2
  exact Option.some.inj h2

theorem encodeChar_ne_dot (n : Nat) : base64.encodeChar n ≠ '.' := by
  by_cases hn : n < 64
  · interval_cases n <;> decide
  · have : base64.encodeChar n = 'A' := by
      unfold base64.encodeChar
      rw [List.getD_eq_default]
      simp [base64.encodeURL]
      omega
    rw [this]
    decide

theorem encode_head (d : Nat) (rest : List Nat) :
    ∃ tl, base64.encode (d :: rest) = base64.encodeChar (d / 4) :: tl := by
  match rest with
  | [] => exact ⟨_, rfl⟩
  | [_] => exact ⟨_, rfl⟩
  | _ :: _ :: _ => exact ⟨_, rfl⟩

theorem encodeChar_values :
    base64.encodeChar 29 = 'd' ∧ base64.encodeChar 34 = 'i' ∧ base64.encodeChar 43 = 'r' ∧
      base64.encodeChar 30 = 'e' ∧ base64.encodeChar 28 = 'c' := by
  decide

/-- The encoding of bytes that do not begin with 118, 42, 222 and a byte below
128, followed by `.json`, does not begin with `direct-`. -/
theorem encode_not_direct (bytes : List Nat) (hb : ∀ b ∈ bytes, b < 256)
    (hd : ∀ d rest, bytes = 118 :: 42 :: 222 :: d :: rest → 128 ≤ d) :
    ¬ ['d', 'i', 'r', 'e', 'c', 't', '-'] <+:
      base64.encode bytes ++ ['.', 'j', 's', 'o', 'n'] := by
  rintro ⟨t, ht⟩
  obtain ⟨v29, v34, v43, v30, v28⟩ := encodeChar_values
  match bytes, hb, hd, ht with
  | [], _, _, ht => simp [base64.encode] at ht
  | [a], _, _, ht =>
    simp only [base64.encode, List.cons_append, List.nil_append, List.cons.injEq] at ht
    exact absurd ht.2.2.1 (by decide)
  | [a, b], _, _, ht =>
    simp only [base64.encode, List.cons_append, List.nil_append, List.cons.injEq] at ht
    exact absurd ht.2.2.2.1 (by decide)
  | [a, b, c], _, _, ht =>
    simp only [base64.encode, List.cons_append, List.nil_append, List.cons.injEq] at ht
    exact absurd ht.2.2.2.2.1 (by decide)
  | a :: b :: c :: d :: rest, hb, hd, ht =>
    obtain ⟨tl, htl⟩ := encode_head d rest
    rw [base64.encode, htl] at ht
    simp only [List.cons_append, List.cons.injEq] at ht
    obtain ⟨h1, h2, h3, h4, h5, _⟩ := ht
    have ha : a < 256 := hb a (by simp)
    have hb2 : b < 256 := hb b (by simp)
    have hc : c < 256 := hb c (by simp)
    have hd2 : d < 256 := hb d (by simp)
    rw [← v29] at h1
    rw [← v34] at h2
    rw [← v43] at h3
    rw [← v30] at h4
    rw [← v28] at h5
    have e1 := encodeChar_eq_iff _ _ (by omega) (by omega) h1
    have e2 := encodeChar_eq_iff _ _ (by omega) (by omega) h2
    have e3 := encodeChar_eq_iff _ _ (by omega) (by omega) h3
    have e4 := encodeChar_eq_iff _ _ (by omega) (by omega) h4
    have e5 := encodeChar_eq_iff _ _ (by omega) (by omega) h5
    have ea : a = 118 := by omega
    have eb : b = 42 := by omega
    have ec : c = 222 := by omega
    subst ea eb ec
    have := hd d rest rfl
    omega

/-- The name of a delegation file does not begin with `sa-direct-`. -/
theorem ServiceAccount_name_not_direct (lower : Char → Char) (email : String) :
    strings.HasPrefix ("sa-" ++ safeEmail lower email ++ ".json") "sa-direct-" = false := by
  rw [Bool.eq_false_iff]
  intro h
  unfold strings.HasPrefix at h
  rw [List.isPrefixOf_iff_prefix] at h
  have e1 : ("sa-direct-" : String).data =
      ['s', 'a', '-'] ++ ['d', 'i', 'r', 'e', 'c', 't', '-'] := by decide
  have e2 : ("sa-" ++ safeEmail lower email ++ ".json").data =
      ['s', 'a', '-'] ++ (base64.encode
        (bytesOf (strings.ToLower lower (strings.TrimSpace email))) ++
          ['.', 'j', 's', 'o', 'n']) := by
    rw [String.data_append, String.data_append, List.append_assoc]
    rfl
  rw [e1, e2, List.prefix_append_right_inj] at h
  exact encode_not_direct _ (bytesOf_lt _) (bytesOf_not_direct _) h

/-! ### Reading back the two file names -/

theorem emailOfName_ServiceAccount (lower : Char → Char) (stringOf : List Nat → String)
    (email : String) :
    emailOfName stringOf ("sa-" ++ safeEmail lower email ++ ".json") =
      some (strings.TrimSpace
        (stringOf (bytesOf (strings.ToLower lower (strings.TrimSpace email))))) := by
  have hp : strings.HasPrefix ("sa-" ++ safeEmail lower email ++ ".json") "sa-" = true := by
    rw [String.append_assoc]
    exact HasPrefix_append _ _
  have hs : strings.HasSuffix ("sa-" ++ safeEmail lower email ++ ".json") ".json" = true :=
    HasSuffix_append _ _
  have ht : strings.TrimSuffix
      (strings.TrimPrefix ("sa-" ++ safeEmail lower email ++ ".json") "sa-") ".json" =
        safeEmail lower email := by
    rw [String.append_assoc, TrimPrefix_append, TrimSuffix_append]
  unfold emailOfName
  rw [ServiceAccount_name_not_direct, hp, hs, ht]
  simp only [Bool.false_and, Bool.false_eq_true, if_false, Bool.and_self, if_true]
  unfold decodedEmail safeEmail
  rw [DecodeString_EncodeToString _ (bytesOf_lt _)]

theorem emailOfName_DirectServiceAccount (lower : Char → Char)
    (stringOf : List Nat → String) (email : String) :
    emailOfName stringOf ("sa-direct-" ++ safeEmail lower email ++ ".json") =
      some (strings.TrimSpace
        (stringOf (bytesOf (strings.ToLower lower (strings.TrimSpace email))))) := by
  have hp : strings.HasPrefix ("sa-direct-" ++ safeEmail lower email ++ ".json")
      "sa-direct-" = true := by
    rw [String.append_assoc]
    exact HasPrefix_append _ _
  have hs : strings.HasSuffix ("sa-direct-" ++ safeEmail lower email ++ ".json")
      ".json" = true :=
    HasSuffix_append _ _
  have ht : strings.TrimSuffix
      (strings.TrimPrefix ("sa-direct-" ++ safeEmail lower email ++ ".json") "sa-direct-")
        ".json" = safeEmail lower email := by
    rw [String.append_assoc, TrimPrefix_append, TrimSuffix_append]
  unfold emailOfName
  rw [hp, hs, ht]
  simp only [Bool.and_self, if_true]
  unfold decodedEmail safeEmail
  rw [DecodeString_EncodeToString _ (bytesOf_lt _)]

/-! ### The loop of `ListServiceAccountEmails` -/

theorem listStep_mono (lower : Char → Char) (stringOf : List Nat → String)
    (st : List String × List String) (e : DirEntry) (y : String) (h : y ∈ st.1) :
    y ∈ (listStep lower stringOf st e).1 := by
  unfold listStep
  split
  · exact h
  · split
    · exact h
    · simp only
      split
      · exact h
      · split
        · exact h
        · exact List.mem_append_left _ h

theorem listStep_seen (lower : Char → Char) (stringOf : List Nat → String)
    (st : List String × List String) (e : DirEntry) (h : ∀ y ∈ st.2, y ∈ st.1) :
    ∀ y ∈ (listStep lower stringOf st e).2, y ∈ (listStep lower stringOf st e).1 := by
  unfold listStep
  split
  · exact h
  · split
    · exact h
    · simp only
      split
      · exact h
      · split
        · exact h
        · intro y hy
          rcases List.mem_cons.mp hy with rfl | hy
          · exact List.mem_append_right _ (List.mem_singleton_self _)
          · exact List.mem_append_left _ (h y hy)

theorem listStep_adds (lower : Char → Char) (stringOf : List Nat → String)
    (st : List String × List String) (e : DirEntry) (email : String)
    (h : ∀ y ∈ st.2, y ∈ st.1) (hdir : e.IsDir = false)
    (hname : emailOfName stringOf e.Name = some email)
    (hne : strings.ToLower lower (strings.TrimSpace email) ≠ "") :
    strings.ToLower lower (strings.TrimSpace email) ∈ (listStep lower stringOf st e).1 := by
  unfold listStep
  rw [hdir, hname]
  simp only [Bool.false_eq_true, if_false]
  rw [if_neg hne]
  split
  · next hin => exact h _ hin
  · exact List.mem_append_right _ (List.mem_singleton_self _)

theorem foldl_listStep_mono (lower : Char → Char) (stringOf : List Nat → String)
    (es : List DirEntry) (st : List String × List String) (y : String) (h : y ∈ st.1) :
    y ∈ (es.foldl (listStep lower stringOf) st).1 := by
  induction es generalizing st with
  | nil => exact h
  | cons e es ih =>
    rw [List.foldl_cons]
    exact ih _ (listStep_mono lower stringOf st e y h)

theorem foldl_listStep_adds (lower : Char → Char) (stringOf : List Nat → String)
    (es : List DirEntry) (st : List String × List String) (e : DirEntry) (email : String)
    (h : ∀ y ∈ st.2, y ∈ st.1) (he : e ∈ es) (hdir : e.IsDir = false)
    (hname : emailOfName stringOf e.Name = some email)
    (hne : strings.ToLower lower (strings.TrimSpace email) ≠ "") :
    strings.ToLower lower (strings.TrimSpace email) ∈
      (es.foldl (listStep lower stringOf) st).1 := by
  induction es generalizing st with
  | nil => simp at he
  | cons e0 es ih =>
    rw [List.foldl_cons]
    rcases List.mem_cons.mp he with rfl | he
    · exact foldl_listStep_mono lower stringOf es _ _
        (listStep_adds lower stringOf st e email h hdir hname hne)
    · exact ih _ (listStep_seen lower stringOf st e0 h) he

theorem Join_injective (dir a b : String) (h : filepath.Join dir a = filepath.Join dir b) :
    a = b := by
  unfold filepath.Join at h
  have h2 := congrArg String.data h
  rw [String.data_append, String.data_append] at h2
  exact String.ext (List.append_cancel_left h2)

/-! ### A lower-casing to try the statement on -/

theorem toLower_of_not_upper (c : Char) (h : ¬ (65 ≤ c.toNat ∧ c.toNat ≤ 90)) :
    c.toLower = c := by
  unfold Char.toLower
  simp only [ge_iff_le]
  rw [if_neg h]

theorem toLower_idempotent (c : Char) : c.toLower.toLower = c.toLower := by
  by_cases h : 65 ≤ c.toNat ∧ c.toNat ≤ 90
  · obtain ⟨h1, h2⟩ := h
    have hc : Char.ofNat c.toNat = c := Char.ofNat_toNat c
    generalize c.toNat = n at h1 h2 hc
    subst hc
    interval_cases n <;> decide
  · rw [toLower_of_not_upper c h, toLower_of_not_upper c h]

theorem toLower_IsSpace (c : Char) : unicode.IsSpace c.toLower = unicode.IsSpace c := by
  by_cases h : 65 ≤ c.toNat ∧ c.toNat ≤ 90
  · obtain ⟨h1, h2⟩ := h
    have hc : Char.ofNat c.toNat = c := Char.ofNat_toNat c
    generalize c.toNat = n at h1 h2 hc
    subst hc
    interval_cases n <;> decide
  · rw [toLower_of_not_upper c h]

/-- C19: storing then listing a service account round-trips. For every e-mail
whose trimmed, lower-cased form is not empty, when the configuration directory
holds a regular file named as `ServiceAccountPath` or `DirectServiceAccountPath`
names it, `ListServiceAccountEmails` returns a list that contains the trimmed,
lower-cased e-mail; and the file name of `ServiceAccountPath` never begins with
`sa-direct-`, so that it is read by the second case of the switch. The library
facts used are that lower-casing a rune twice is lower-casing it once, that
lower-casing neither makes nor removes white space, and that converting the
bytes of the normalized e-mail back to text gives that text. -/
theorem ListServiceAccountEmails_round_trip {ε : Type} (lower : Char → Char)
    (stringOf : List Nat → String) (Dir : Except ε String)
    (ReadDir : String → Except ε (List DirEntry)) (IsNotExist : ε → Bool)
    (email dir : String) (entries : List DirEntry) (entry : DirEntry)
    (hlow1 : ∀ c, lower (lower c) = lower c)
    (hlow2 : ∀ c, unicode.IsSpace (lower c) = unicode.IsSpace c)
    (hstr : stringOf (bytesOf (strings.ToLower lower (strings.TrimSpace email))) =
      strings.ToLower lower (strings.TrimSpace email))
    (hne : strings.ToLower lower (strings.TrimSpace email) ≠ "")
    (hdir : Dir = .ok dir) (hread : ReadDir dir = .ok entries)
    (hentry : entry ∈ entries) (hreg : entry.IsDir = false)
    (hname : Except.ok (filepath.Join dir entry.Name) = ServiceAccountPath lower Dir email ∨
      Except.ok (filepath.Join dir entry.Name) = DirectServiceAccountPath lower Dir email) :
    (∃ l, ListServiceAccountEmails lower stringOf Dir ReadDir IsNotExist = .ok l ∧
        strings.ToLower lower (strings.TrimSpace email) ∈ l) ∧
      (∀ name, ServiceAccountPath lower Dir email = .ok (filepath.Join dir name) →
        strings.HasPrefix name "sa-direct-" = false ∧
          emailOfName stringOf name = some (decodedEmail stringOf
            (strings.TrimSuffix (strings.TrimPrefix name "sa-") ".json"))) := by
  subst hdir
  obtain ⟨hfix1, hfix2⟩ := normalized_fixed lower hlow1 hlow2 email
  have hem : emailOfName stringOf entry.Name =
      some (strings.TrimSpace
        (stringOf (bytesOf (strings.ToLower lower (strings.TrimSpace email))))) := by
    rcases hname with h | h
    · simp only [ServiceAccountPath, Except.ok.injEq] at h
      rw [Join_injective _ _ _ h]
      exact emailOfName_ServiceAccount lower stringOf email
    · simp only [DirectServiceAccountPath, Except.ok.injEq] at h
      rw [Join_injective _ _ _ h]
      exact emailOfName_DirectServiceAccount lower stringOf email
  rw [hstr, hfix1] at hem
  have hnorm : strings.ToLower lower (strings.TrimSpace
      (strings.ToLower lower (strings.TrimSpace email))) =
        strings.ToLower lower (strings.TrimSpace email) := by
    rw [hfix1, hfix2]
  refine ⟨⟨sort.Strings (entries.foldl (listStep lower stringOf) ([], [])).1, ?_, ?_⟩, ?_⟩
  · simp only [ListServiceAccountEmails, hread]
  · rw [mem_sort.Strings]
    have := foldl_listStep_adds lower stringOf entries ([], []) entry _
      (by intro y hy; simp at hy) hentry hreg hem (by rw [hnorm]; exact hne)
    rw [hnorm] at this
    exact this
  · intro name h
    simp only [ServiceAccountPath, Except.ok.injEq] at h
    have e := (Join_injective _ _ _ h).symm
    subst e
    refine ⟨ServiceAccount_name_not_direct lower email, ?_⟩
    have hp : strings.HasPrefix ("sa-" ++ safeEmail lower email ++ ".json") "sa-" = true := by
      rw [String.append_assoc]
      exact HasPrefix_append _ _
    have hs : strings.HasSuffix ("sa-" ++ safeEmail lower email ++ ".json") ".json" = true :=
      HasSuffix_append _ _
    unfold emailOfName
    rw [ServiceAccount_name_not_direct, hp, hs]
    simp only [Bool.false_and, Bool.false_eq_true, if_false, Bool.and_self, if_true]

/-- C19 (witness): with ASCII lower-casing, the directory `/cfg` that holds the
regular file written for ` User@Example.com ` by `ServiceAccountPath` lists
`user@example.com`. -/
theorem ListServiceAccountEmails_round_trip_witness :
    (∃ l, ListServiceAccountEmails Char.toLower (fun b => String.mk (b.map Char.ofNat))
        (Except.ok "/cfg" : Except String String)
        (fun _ => .ok [⟨"credentials.json", false⟩,
          ⟨"sa-dXNlckBleGFtcGxlLmNvbQ.json", false⟩])
        (fun _ => false) = .ok l ∧
        strings.ToLower Char.toLower (strings.TrimSpace " User@Example.com ") ∈ l) ∧
      (∀ name, ServiceAccountPath Char.toLower (Except.ok "/cfg" : Except String String)
          " User@Example.com " = .ok (filepath.Join "/cfg" name) →
        strings.HasPrefix name "sa-direct-" = false ∧
          emailOfName (fun b => String.mk (b.map Char.ofNat)) name =
            some (decodedEmail (fun b => String.mk (b.map Char.ofNat))
              (strings.TrimSuffix (strings.TrimPrefix name "sa-") ".json"))) :=
  ListServiceAccountEmails_round_trip Char.toLower (fun b => String.mk (b.map Char.ofNat))
    (Except.ok "/cfg") (fun _ => .ok [⟨"credentials.json", false⟩,
      ⟨"sa-dXNlckBleGFtcGxlLmNvbQ.json", false⟩]) (fun _ => false)
    " User@Example.com " "/cfg" [⟨"credentials.json", false⟩,
      ⟨"sa-dXNlckBleGFtcGxlLmNvbQ.json", false⟩] ⟨"sa-dXNlckBleGFtcGxlLmNvbQ.json", false⟩
    toLower_idempotent toLower_IsSpace (by decide) (by decide) rfl rfl
    (by simp) rfl (Or.inl (by simp only [ServiceAccountPath, Except.ok.injEq]; decide))


/-! ## C21: a value-taking flag and its value are skipped together -/

/-- A terminator index shifted by `d` is `-1` exactly when the original is. -/
theorem shifted_terminatorIndex_iff_of (ws : List String) (c i d : Nat)
    (node : completionNode) :
    (if (walk ws c i node).terminatorIndex = -1 then (-1 : Int)
      else (walk ws c i node).terminatorIndex + (d : Int)) = -1 ↔
      (walk ws c i node).terminatorIndex = -1 := by
  rcases walk_terminatorIndex ws c i node with h | ⟨t, h, _⟩
  · simp [h]
  · rw [h]
    have h1 : ¬((t : Int) = -1) := by omega
    have h2 : ¬((t : Int) + (d : Int) = -1) := by omega
    simp [h1, h2]

theorem ne_terminator_of_not_dash (w : String) (h : strings.HasPrefix w "-" = false) :
    w ≠ "--" := by
  intro e
  subst e
  revert h
  decide

/-- C21: for every tree `root`, program-name token `g`, token `f` that starts
with `-`, is not `--`, holds no `=` and is a value-taking flag of `root`, every
token `v` that does not start with `-` (a child name of `root` or not), every
token list `rest` and every cursor `k ≥ 1`, `completeWords` on `[g, f, v] ++ rest`
at cursor `k+2` returns what it returns on `[g] ++ rest` at cursor `k`. -/
theorem completeWords_skip_flag_value (root : completionNode) (g f v : String)
    (rest : List String) (k : Int)
    (hg : isProgramName g = true) (hf : strings.HasPrefix f "-" = true) (hne : f ≠ "--")
    (heq : '=' ∉ f.data) (htv : takesValueOn root f = true)
    (hv : strings.HasPrefix v "-" = false) (hk : 1 ≤ k) :
    completeWords root (k + 2) (g :: f :: v :: rest) = completeWords root k (g :: rest) := by
  have hs1 : startIndex (g :: f :: v :: rest) = 1 := startIndex_of_isProgramName g _ hg
  have hs2 : startIndex (g :: rest) = 1 := startIndex_of_isProgramName g _ hg
  have hcc : cursor (k + 2) (g :: f :: v :: rest) = cursor k (g :: rest) + 2 := by
    have e : k + 2 = k + 1 + 1 := by omega
    rw [e, cursor_cons_cons g f (v :: rest) (k + 1) (by omega),
      cursor_cons_cons g v rest k hk]
  have hle2 : cursor k (g :: rest) ≤ (g :: rest).length := cursor_le k _ (by simp)
  have hpos : 1 ≤ cursor k (g :: rest) := cursor_pos k _ (by simp) hk
  have hsplit := splitFlagToken_of_no_eq f heq
  rw [completeWords_eq_completeFrom root _ _ (by simp),
    completeWords_eq_completeFrom root _ _ (by simp), hcc]
  have hstep : walk (g :: f :: v :: rest) (cursor k (g :: rest) + 2) 1 root =
      walk (g :: f :: v :: rest) (cursor k (g :: rest) + 2) (1 + 2) root :=
    walk_valueFlag _ _ 1 root f (by omega) (by simp) hne hf (by rw [hsplit])
      (by rw [hsplit]; exact htv) (by omega)
  have hshift := walk_shift (g :: f :: v :: rest) (g :: rest) (cursor k (g :: rest)) 2 1
    (fun j hj _ => by
      obtain ⟨j', rfl⟩ : ∃ j', j = j' + 1 := ⟨j - 1, by omega⟩
      simp) 1 root (le_refl 1)
  have hw := hstep.trans hshift
  apply completeFrom_congr
  · rw [hs1, hs2, hw]
  · rw [hs1, hs2, hw]
  · rw [hs1, hs2, hw]
    exact shifted_terminatorIndex_iff_of _ _ _ 2 _
  · rw [currentWord_eq_getD, currentWord_eq_getD]
    obtain ⟨n, hn⟩ : ∃ n, cursor k (g :: rest) = n + 1 := ⟨cursor k (g :: rest) - 1, by omega⟩
    rw [hn]
    simp
  · rw [hs1, hs2]
    by_cases h1 : cursor k (g :: rest) = 1
    · rw [h1]
      unfold prevTakesValue
      rw [dif_pos ⟨by omega, by simp⟩, dif_neg (by omega)]
      simp [hv]
    · apply prevTakesValue_congr
      · constructor <;> intro _ <;> omega
      · simp only [List.length_cons] at hle2 ⊢
        omega
      · exact hle2
      · intro _
        obtain ⟨n, hn⟩ : ∃ n, cursor k (g :: rest) = n + 2 :=
          ⟨cursor k (g :: rest) - 2, by omega⟩
        rw [hn]
        simp

/-- C21 (witness): after `--account auth` the token `auth` is the value of the
flag, not the subcommand: the root is completed, as on `gog ""`. -/
theorem completeWords_skip_flag_value_witness :
    completeWords sampleRoot (1 + 2) ("gog" :: "--account" :: "auth" :: [""]) =
      completeWords sampleRoot 1 ("gog" :: [""]) :=
  completeWords_skip_flag_value sampleRoot "gog" "--account" "auth" [""] 1 (by decide)
    (by decide) (by decide) (by decide) (by decide) (by decide) (by decide)

/-! ## C22: unrecognised tokens are skipped -/

/-- C22: for every tree `root`, program-name token `g`, token list `rest`,
cursor `k ≥ 1` and token `u` that either does not start with `-` and is no key
of `root`'s children, or starts with `-`, is not `--`, holds no `=` and is not
a value-taking flag of `root`, `completeWords` on `[g, u] ++ rest` at cursor
`k+1` returns what it returns on `[g] ++ rest` at cursor `k`. -/
theorem completeWords_skip_unrecognised (root : completionNode) (g u : String)
    (rest : List String) (k : Int) (hg : isProgramName g = true)
    (hu : (strings.HasPrefix u "-" = false ∧ u ∉ keys root.children) ∨
      (strings.HasPrefix u "-" = true ∧ u ≠ "--" ∧ '=' ∉ u.data ∧
        takesValueOn root u = false))
    (hk : 1 ≤ k) :
    completeWords root (k + 1) (g :: u :: rest) = completeWords root k (g :: rest) := by
  have hs1 : startIndex (g :: u :: rest) = 1 := startIndex_of_isProgramName g _ hg
  have hs2 : startIndex (g :: rest) = 1 := startIndex_of_isProgramName g _ hg
  have hcc := cursor_cons_cons g u rest k hk
  have hle2 : cursor k (g :: rest) ≤ (g :: rest).length := cursor_le k _ (by simp)
  have hpos : 1 ≤ cursor k (g :: rest) := cursor_pos k _ (by simp) hk
  rw [completeWords_eq_completeFrom root _ _ (by simp),
    completeWords_eq_completeFrom root _ _ (by simp), hcc]
  have hstep : walk (g :: u :: rest) (cursor k (g :: rest) + 1) 1 root =
      walk (g :: u :: rest) (cursor k (g :: rest) + 1) (1 + 1) root := by
    rcases hu with ⟨hp, hl⟩ | ⟨hp, hne, heq, htv⟩
    · exact walk_positional _ _ 1 root u (by omega) (by simp)
        (ne_terminator_of_not_dash u hp) hp ((lookup_eq_none_iff _ _).mpr hl)
    · have hsplit := splitFlagToken_of_no_eq u heq
      exact walk_plainFlag _ _ 1 root u (by omega) (by simp) hne hp (by rw [hsplit])
        (by rw [hsplit]; exact htv)
  have hshift := walk_shift (g :: u :: rest) (g :: rest) (cursor k (g :: rest)) 1 1
    (fun j hj _ => by
      obtain ⟨j', rfl⟩ : ∃ j', j = j' + 1 := ⟨j - 1, by omega⟩
      simp) 1 root (le_refl 1)
  have hw := hstep.trans hshift
  apply completeFrom_congr
  · rw [hs1, hs2, hw]
  · rw [hs1, hs2, hw]
  · rw [hs1, hs2, hw]
    exact shifted_terminatorIndex_iff _ _ _ _
  · rw [currentWord_eq_getD, currentWord_eq_getD]
    obtain ⟨n, hn⟩ : ∃ n, cursor k (g :: rest) = n + 1 := ⟨cursor k (g :: rest) - 1, by omega⟩
    rw [hn]
    simp
  · rw [hs1, hs2]
    by_cases h1 : cursor k (g :: rest) = 1
    · rw [h1, walk_exit _ 1 1 root (by omega)]
      unfold prevTakesValue
      rw [dif_pos ⟨by omega, by simp⟩, dif_neg (by omega)]
      rcases hu with ⟨hp, hl⟩ | ⟨hp, hne, heq, htv⟩
      · simp [hp]
      · have hsplit := splitFlagToken_of_no_eq u heq
        simp [hp, hsplit, htv]
    · apply prevTakesValue_congr
      · constructor <;> intro _ <;> omega
      · simp only [List.length_cons] at hle2 ⊢
        omega
      · exact hle2
      · intro _
        obtain ⟨n, hn⟩ : ∃ n, cursor k (g :: rest) = n + 2 :=
          ⟨cursor k (g :: rest) - 2, by omega⟩
        rw [hn]
        simp

/-- C22 (witness): the boolean flag `--verbose` before `a` is skipped. -/
theorem completeWords_skip_unrecognised_witness :
    completeWords sampleRoot (1 + 1) ("gog" :: "--verbose" :: ["a"]) =
      completeWords sampleRoot 1 ("gog" :: ["a"]) :=
  completeWords_skip_unrecognised sampleRoot "gog" "--verbose" ["a"] 1 (by decide)
    (Or.inr ⟨by decide, by decide, by decide, by decide⟩) (by decide)

/-! ## C27: tokens after the cursor -/

/-- Two non-empty token lists that agree up to the cursor are completed alike. -/
theorem completeWords_agree (root : completionNode) (ws1 ws2 : List String) (cword : Int)
    (h0 : 0 ≤ cword) (h1 : cword < ws1.length) (h2 : cword < ws2.length)
    (hagree : ∀ j : Nat, (j : Int) ≤ cword → ws1[j]? = ws2[j]?) :
    completeWords root cword ws1 = completeWords root cword ws2 := by
  have hne1 : ws1 ≠ [] := by
    intro e
    subst e
    simp at h1
    omega
  have hne2 : ws2 ≠ [] := by
    intro e
    subst e
    simp at h2
    omega
  have hstart : startIndex ws1 = startIndex ws2 := by
    have e := hagree 0 (by simpa using h0)
    cases ws1 with
    | nil => exact absurd rfl hne1
    | cons a ws1 =>
      cases ws2 with
      | nil => exact absurd rfl hne2
      | cons b ws2 =>
        simp only [List.getElem?_cons_zero, Option.some.injEq] at e
        subst e
        rfl
  obtain ⟨c, rfl⟩ : ∃ c : Nat, cword = (c : Int) := ⟨cword.toNat, by omega⟩
  have hc1 : c < ws1.length := by omega
  have hc2 : c < ws2.length := by omega
  rw [completeWords_eq_completeFrom root _ _ hne1, completeWords_eq_completeFrom root _ _ hne2,
    cursor_of_nonneg _ _ h0 (by omega), cursor_of_nonneg _ _ h0 (by omega)]
  simp only [Int.toNat_ofNat]
  have hwalk : walk ws1 c (startIndex ws1) root = walk ws2 c (startIndex ws2) root := by
    rw [hstart]
    exact walk_congr ws1 ws2 c (fun j hj => hagree j (by omega)) _ root
  apply completeFrom_congr
  · rw [hwalk]
  · rw [hwalk]
  · rw [hwalk]
  · rw [currentWord_eq_getD, currentWord_eq_getD, hagree c (le_refl _)]
  · rw [hstart]
    apply prevTakesValue_congr
    · exact Iff.rfl
    · omega
    · omega
    · intro _
      exact hagree (c - 1) (by omega)

/-- C27: for every tree, token list and cursor with `0 ≤ cword < len(tokens)`,
`completeWords` returns on the tokens what it returns on their first `cword+1`
elements, and what it returns on every token list that agrees with them on
the indices `0..cword`. -/
theorem completeWords_ignores_later_tokens (root : completionNode) (tokens : List String)
    (cword : Int) (h0 : 0 ≤ cword) (h1 : cword < tokens.length) :
    completeWords root cword tokens =
        completeWords root cword (tokens.take (cword.toNat + 1)) ∧
      ∀ other : List String, (∀ j : Nat, (j : Int) ≤ cword → tokens[j]? = other[j]?) →
        completeWords root cword tokens = completeWords root cword other := by
  constructor
  · apply completeWords_agree root _ _ cword h0 h1
    · rw [List.length_take]
      omega
    · intro j hj
      rw [List.getElem?_take_of_lt (by omega)]
  · intro other hagree
    apply completeWords_agree root _ _ cword h0 h1 _ hagree
    have e := hagree cword.toNat (by omega)
    have hlt : cword.toNat < tokens.length := by omega
    rw [List.getElem?_eq_getElem hlt] at e
    by_contra hge
    rw [List.getElem?_eq_none (by omega)] at e
    exact Option.noConfusion e

/-- C27 (witness): what follows the cursor on `gog a` is not read. -/
theorem completeWords_ignores_later_tokens_witness :
    completeWords sampleRoot 1 ["gog", "a", "--", "x"] =
        completeWords sampleRoot 1 (["gog", "a", "--", "x"].take ((1 : Int).toNat + 1)) ∧
      ∀ other : List String,
        (∀ j : Nat, (j : Int) ≤ 1 → ["gog", "a", "--", "x"][j]? = other[j]?) →
        completeWords sampleRoot 1 ["gog", "a", "--", "x"] =
          completeWords sampleRoot 1 other :=
  completeWords_ignores_later_tokens sampleRoot ["gog", "a", "--", "x"] 1 (by decide)
    (by decide)

/-! ## C28: typing more characters -/

theorem HasPrefix_trans (s q p : String) (h1 : strings.HasPrefix s q = true)
    (h2 : strings.HasPrefix q p = true) : strings.HasPrefix s p = true := by
  unfold strings.HasPrefix at h1 h2 ⊢
  rw [List.isPrefixOf_iff_prefix] at h1 h2 ⊢
  exact h2.trans h1

theorem mem_suggestions_of_longer (node : completionNode) (p q s : String)
    (hpq : strings.HasPrefix q p = true) (h : s ∈ suggestions node q) :
    s ∈ suggestions node p := by
  rw [mem_suggestions] at h ⊢
  by_cases hp : strings.HasPrefix p "-" = true
  · have hq : strings.HasPrefix q "-" = true := HasPrefix_trans q p "-" hpq hp
    rw [if_pos hq] at h
    rw [if_pos hp]
    exact ⟨h.1, HasPrefix_trans s q p h.2 hpq⟩
  · rw [if_neg hp]
    by_cases hq : strings.HasPrefix q "-" = true
    · rw [if_pos hq] at h
      exact ⟨Or.inr h.1, HasPrefix_trans s q p h.2 hpq⟩
    · rw [if_neg hq] at h
      exact ⟨h.1, HasPrefix_trans s q p h.2 hpq⟩

theorem cursor_length_append (pre : List String) (x : String) :
    cursor (pre.length : Int) (pre ++ [x]) = pre.length := by
  rw [cursor_of_nonneg _ _ (by omega) (by simp)]
  simp

theorem walk_append_last (root : completionNode) (pre : List String) (p q : String) :
    walk (pre ++ [q]) pre.length (startIndex (pre ++ [q])) root =
        walk (pre ++ [p]) pre.length (startIndex (pre ++ [p])) root ∧
      prevTakesValue (pre ++ [q]) (walk (pre ++ [p]) pre.length
          (startIndex (pre ++ [p])) root).node (startIndex (pre ++ [q])) pre.length =
        prevTakesValue (pre ++ [p]) (walk (pre ++ [p]) pre.length
          (startIndex (pre ++ [p])) root).node (startIndex (pre ++ [p])) pre.length := by
  cases pre with
  | nil =>
    constructor
    · rw [walk_exit _ _ _ _ (by simp), walk_exit _ _ _ _ (by simp)]
    · unfold prevTakesValue
      rw [dif_neg (by simp), dif_neg (by simp)]
  | cons a pre =>
    have hstart : startIndex ((a :: pre) ++ [q]) = startIndex ((a :: pre) ++ [p]) := rfl
    constructor
    · rw [hstart]
      apply walk_congr
      intro j hj
      rw [List.getElem?_append_left hj, List.getElem?_append_left hj]
    · rw [hstart]
      apply prevTakesValue_congr
      · exact Iff.rfl
      · simp
      · simp
      · intro _
        have hj : (a :: pre).length - 1 < (a :: pre).length := by simp
        rw [List.getElem?_append_left hj, List.getElem?_append_left hj]

theorem currentWord_append_last (pre : List String) (x : String) :
    currentWord (pre ++ [x]) pre.length = x := by
  rw [currentWord_eq_getD]
  simp

/-- C28: for every tree, every list `pre` of preceding tokens and every two
tokens `p`, `q` such that `p` is a prefix of `q` and `p` is not `--`, every
suggestion for `pre ++ [q]` at the cursor `len(pre)` is a suggestion for
`pre ++ [p]` at that cursor. -/
theorem completeWords_longer_token (root : completionNode) (pre : List String)
    (p q : String) (hpq : strings.HasPrefix q p = true) (hp : p ≠ "--") :
    ∀ s ∈ completeWords root pre.length (pre ++ [q]),
      s ∈ completeWords root pre.length (pre ++ [p]) := by
  intro s hs
  obtain ⟨hwalk, hprev⟩ := walk_append_last root pre p q
  rw [completeWords_eq_completeFrom root _ _ (by simp), cursor_length_append,
    completeFrom_eq_ite, currentWord_append_last, hwalk, hprev] at hs
  rw [completeWords_eq_completeFrom root _ _ (by simp), cursor_length_append,
    completeFrom_eq_ite, currentWord_append_last]
  split at hs
  · simp at hs
  · next hcond =>
    have hcond2 : ¬((walk (pre ++ [p]) pre.length (startIndex (pre ++ [p])) root).returned
        = true ∨
        (walk (pre ++ [p]) pre.length (startIndex (pre ++ [p])) root).terminatorIndex ≠ -1 ∨
        p = "--" ∨
        prevTakesValue (pre ++ [p]) (walk (pre ++ [p]) pre.length
          (startIndex (pre ++ [p])) root).node (startIndex (pre ++ [p])) pre.length = true) := by
      intro h
      rcases h with h | h | h | h
      · exact hcond (Or.inl h)
      · exact hcond (Or.inr (Or.inl h))
      · exact hp h
      · exact hcond (Or.inr (Or.inr (Or.inr h)))
    rw [if_neg hcond2]
    exact mem_suggestions_of_longer _ p q s hpq hs

/-- C28 (witness): the suggestions for `au` are among those for `a`. -/
theorem completeWords_longer_token_witness :
    strings.HasPrefix "au" "a" = true ∧ "a" ≠ "--" ∧
      ∀ s ∈ completeWords sampleRoot (["gog"] : List String).length (["gog"] ++ ["au"]),
        s ∈ completeWords sampleRoot (["gog"] : List String).length (["gog"] ++ ["a"]) :=
  ⟨by decide, by decide,
    completeWords_longer_token sampleRoot ["gog"] "a" "au" (by decide) (by decide)⟩


/-! ## C23: the program name -/

theorem takeWhile_split (r : List Char) (hany : r.any isSeparator = true) :
    ∃ s tail, isSeparator s = true ∧
      r = r.takeWhile (fun c => !isSeparator c) ++ s :: tail := by
  induction r with
  | nil => simp at hany
  | cons a r ih =>
    by_cases ha : isSeparator a = true
    · exact ⟨a, r, ha, by simp [List.takeWhile, ha]⟩
    · have ha2 : isSeparator a = false := by simpa using ha
      rw [List.any_cons, ha2, Bool.false_or] at hany
      obtain ⟨s, tail, hs, hr⟩ := ih hany
      refine ⟨s, tail, hs, ?_⟩
      simp only [List.takeWhile, ha2, Bool.not_false, List.cons_append]
      rw [← hr]

theorem takeWhile_of_split (seg : List Char) (s : Char) (tail : List Char)
    (hseg : ∀ c ∈ seg, isSeparator c = false) (hs : isSeparator s = true) :
    (seg ++ s :: tail).takeWhile (fun c => !isSeparator c) = seg := by
  induction seg with
  | nil => simp [List.takeWhile, hs]
  | cons a seg ih =>
    have ha : isSeparator a = false := hseg a (List.mem_cons_self _ _)
    rw [List.cons_append, List.takeWhile_cons]
    simp only [ha, Bool.not_false, if_true]
    rw [ih (fun c hc => hseg c (List.mem_cons_of_mem _ hc))]

theorem isSeparator_iff (s : Char) : isSeparator s = true ↔ s = '/' ∨ s = '\\' := by
  unfold isSeparator
  simp

/-- A text ends with a separator followed by a segment without separator
exactly when it holds a separator and its final segment is that segment. -/
theorem suffix_separator_iff (l seg : List Char) (hseg : ∀ c ∈ seg, isSeparator c = false) :
    (('/' :: seg) <:+ l ∨ ('\\' :: seg) <:+ l) ↔
      (l.any isSeparator = true ∧
        (l.reverse.takeWhile (fun c => !isSeparator c)).reverse = seg) := by
  have hsegr : ∀ c ∈ seg.reverse, isSeparator c = false :=
    fun c hc => hseg c (List.mem_reverse.mp hc)
  constructor
  · intro h
    have key : ∀ s, isSeparator s = true → (s :: seg) <:+ l →
        (l.any isSeparator = true ∧
          (l.reverse.takeWhile (fun c => !isSeparator c)).reverse = seg) := by
      rintro s hs ⟨t, ht⟩
      constructor
      · rw [List.any_eq_true]
        exact ⟨s, by rw [← ht]; simp, hs⟩
      · have hr : l.reverse = seg.reverse ++ s :: t.reverse := by
          rw [← ht]
          simp
        rw [hr, takeWhile_of_split _ _ _ hsegr hs, List.reverse_reverse]
    rcases h with h | h
    · exact key '/' (by decide) h
    · exact key '\\' (by decide) h
  · rintro ⟨hany, hfin⟩
    have hany2 : l.reverse.any isSeparator = true := by
      rw [List.any_eq_true] at hany ⊢
      obtain ⟨c, hc, hs⟩ := hany
      exact ⟨c, List.mem_reverse.mpr hc, hs⟩
    obtain ⟨s, tail, hs, hr⟩ := takeWhile_split l.reverse hany2
    have htw : l.reverse.takeWhile (fun c => !isSeparator c) = seg.reverse := by
      rw [← hfin, List.reverse_reverse]
    rw [htw] at hr
    have hl : l = tail.reverse ++ s :: seg := by
      have := congrArg List.reverse hr
      simpa using this
    rcases (isSeparator_iff s).mp hs with rfl | rfl
    · exact Or.inl ⟨tail.reverse, hl.symm⟩
    · exact Or.inr ⟨tail.reverse, hl.symm⟩

theorem finalSegment_eq_iff (w seg : String) :
    finalSegment w = seg ↔
      (w.data.reverse.takeWhile (fun c => !isSeparator c)).reverse = seg.data := by
  unfold finalSegment
  constructor
  · intro h
    rw [← h]
  · intro h
    exact String.ext h

theorem isProgramName_eq_true_iff (word : String) :
    isProgramName word = true ↔
      word = "gog" ∨
        ((strings.HasSuffix word "/gog" = true ∨ strings.HasSuffix word "\\gog" = true) ∨
          (strings.HasSuffix word "/gog.exe" = true ∨
            strings.HasSuffix word "\\gog.exe" = true)) := by
  unfold isProgramName
  by_cases h1 : word = "gog"
  · simp [h1]
  · rw [if_neg h1]
    by_cases h2 : (strings.HasSuffix word "/gog" || strings.HasSuffix word "\\gog") = true
    · rw [if_pos h2]
      simp only [Bool.or_eq_true] at h2
      simp [h2]
    · rw [if_neg h2]
      simp only [Bool.or_eq_true] at h2
      by_cases h3 : (strings.HasSuffix word "/gog.exe" ||
          strings.HasSuffix word "\\gog.exe") = true
      · rw [if_pos h3]
        simp only [Bool.or_eq_true] at h3
        simp [h3]
      · rw [if_neg h3]
        simp only [Bool.or_eq_true] at h3
        simp [h1, h2, h3]

/-- C23 (amended): `isProgramName(w)` is true exactly when `w` is `gog`, or `w`
holds a `/` or a backslash and its final path segment is `gog` or `gog.exe`;
scanning starts at index 1 exactly in that case and at index 0 otherwise. -/
theorem isProgramName_iff (w : String) (ws : List String) :
    (isProgramName w = true ↔
      w = "gog" ∨ (w.data.any isSeparator = true ∧
        (finalSegment w = "gog" ∨ finalSegment w = "gog.exe"))) ∧
      startIndex (w :: ws) = (if isProgramName w = true then 1 else 0) := by
  refine ⟨?_, rfl⟩
  rw [isProgramName_eq_true_iff]
  have e1 := suffix_separator_iff w.data "gog".data (by decide)
  have e2 := suffix_separator_iff w.data "gog.exe".data (by decide)
  have s1 : strings.HasSuffix w "/gog" = true ↔ ('/' :: "gog".data) <:+ w.data := by
    unfold strings.HasSuffix
    rw [List.isSuffixOf_iff_suffix]
  have s2 : strings.HasSuffix w "\\gog" = true ↔ ('\\' :: "gog".data) <:+ w.data := by
    unfold strings.HasSuffix
    rw [List.isSuffixOf_iff_suffix]
  have s3 : strings.HasSuffix w "/gog.exe" = true ↔ ('/' :: "gog.exe".data) <:+ w.data := by
    unfold strings.HasSuffix
    rw [List.isSuffixOf_iff_suffix]
  have s4 : strings.HasSuffix w "\\gog.exe" = true ↔
      ('\\' :: "gog.exe".data) <:+ w.data := by
    unfold strings.HasSuffix
    rw [List.isSuffixOf_iff_suffix]
  rw [s1, s2, s3, s4, e1, e2, finalSegment_eq_iff, finalSegment_eq_iff]
  constructor
  · rintro (h | ⟨ha, hf⟩ | ⟨ha, hf⟩)
    · exact Or.inl h
    · exact Or.inr ⟨ha, Or.inl hf⟩
    · exact Or.inr ⟨ha, Or.inr hf⟩
  · rintro (h | ⟨ha, hf | hf⟩)
    · exact Or.inl h
    · exact Or.inr (Or.inl ⟨ha, hf⟩)
    · exact Or.inr (Or.inr ⟨ha, hf⟩)

/-- C23 (witness): a Windows path to `gog.exe` is a program name. -/
theorem isProgramName_iff_witness :
    (isProgramName "C:\\bin\\gog.exe" = true ↔
      "C:\\bin\\gog.exe" = "gog" ∨ ("C:\\bin\\gog.exe".data.any isSeparator = true ∧
        (finalSegment "C:\\bin\\gog.exe" = "gog" ∨
          finalSegment "C:\\bin\\gog.exe" = "gog.exe"))) ∧
      startIndex ("C:\\bin\\gog.exe" :: ["a"]) =
        (if isProgramName "C:\\bin\\gog.exe" = true then 1 else 0) :=
  isProgramName_iff "C:\\bin\\gog.exe" ["a"]

/-- C23 (counterexample): the bare name `gog.exe` holds no separator, so its
final path segment is `gog.exe`, yet `isProgramName` is false on it and scanning
starts at index 0. -/
theorem isProgramName_iff_counterexample :
    finalSegment "gog.exe" = "gog.exe" ∧ isProgramName "gog.exe" = false ∧
      startIndex ["gog.exe", "a"] = 0 := by
  decide


/-! ## C24: the tokens of a flag and their arity -/

theorem dash_append_ne_empty (x : String) : "--" ++ x ≠ "" ∧ "-" ++ x ≠ "" := by
  have h2 : ("--" : String).length = 2 := by decide
  have h1 : ("-" : String).length = 1 := by decide
  have h0 : ("" : String).length = 0 := by decide
  constructor
  · intro h
    have hlen := congrArg String.length h
    rw [String.length_append] at hlen
    omega
  · intro h
    have hlen := congrArg String.length h
    rw [String.length_append] at hlen
    omega

theorem foldl_invariant_mem {α β : Type} (P : β → Prop) (f : β → α → β) (l : List α)
    (hf : ∀ b, ∀ a ∈ l, P b → P (f b a)) (b : β) (hb : P b) : P (l.foldl f b) := by
  induction l generalizing b with
  | nil => exact hb
  | cons a l ih =>
    rw [List.foldl_cons]
    exact ih (fun b a' ha' => hf b a' (List.mem_cons_of_mem _ ha')) _
      (hf b a (List.mem_cons_self _ _) hb)

theorem mem_positiveTokens (flag : kongFlag) (t : String) :
    t ∈ positiveTokens flag ↔
      t = "--" ++ flag.Name ∨ (∃ al ∈ flag.Aliases, t = "--" ++ al) ∨
        (flag.Short ≠ Char.ofNat 0 ∧ t = "-" ++ String.singleton flag.Short) := by
  unfold positiveTokens
  by_cases hs : flag.Short ≠ Char.ofNat 0
  · rw [if_pos hs]
    simp only [List.cons_append, List.mem_cons, List.mem_append, List.mem_map,
      List.mem_singleton, List.not_mem_nil, or_false]
    constructor
    · rintro (h | ⟨al, hal, rfl⟩ | h)
      · exact Or.inl h
      · exact Or.inr (Or.inl ⟨al, hal, rfl⟩)
      · exact Or.inr (Or.inr ⟨hs, h⟩)
    · rintro (h | ⟨al, hal, rfl⟩ | ⟨_, h⟩)
      · exact Or.inl h
      · exact Or.inr (Or.inl ⟨al, hal, rfl⟩)
      · exact Or.inr (Or.inr h)
  · rw [if_neg hs]
    simp only [List.cons_append, List.append_nil, List.mem_cons, List.mem_map]
    constructor
    · rintro (h | ⟨al, hal, rfl⟩)
      · exact Or.inl h
      · exact Or.inr (Or.inl ⟨al, hal, rfl⟩)
    · rintro (h | ⟨al, hal, rfl⟩ | ⟨h, _⟩)
      · exact Or.inl h
      · exact Or.inr ⟨al, hal, rfl⟩
      · exact absurd h hs

/-- A property of the flags map that every registration of a token of the flag
keeps holds after lines 157-164 of `addFlagTokens`. -/
theorem addPositiveTokens_invariant (P : List (String × completionFlag) → Prop)
    (flag : kongFlag)
    (hP : ∀ fs, ∀ tok ∈ positiveTokens flag, P fs →
      P (addFlag fs tok (!(flag.IsBool || flag.IsCounter))))
    (flags : List (String × completionFlag)) (h : P flags) :
    P (addPositiveTokens flags flag) := by
  have h1 := hP flags ("--" ++ flag.Name) ((mem_positiveTokens flag _).mpr (Or.inl rfl)) h
  have h2 := foldl_invariant_mem P
    (fun fs al => addFlag fs ("--" ++ al) (!(flag.IsBool || flag.IsCounter))) flag.Aliases
    (fun b a ha hb => hP b ("--" ++ a)
      ((mem_positiveTokens flag _).mpr (Or.inr (Or.inl ⟨a, ha, rfl⟩))) hb) _ h1
  unfold addPositiveTokens
  by_cases hs : flag.Short ≠ Char.ofNat 0
  · rw [if_pos hs]
    exact hP _ _ ((mem_positiveTokens flag _).mpr (Or.inr (Or.inr ⟨hs, rfl⟩))) h2
  · rw [if_neg hs]; exact h2

theorem positiveTokens_ne_empty (flag : kongFlag) (t : String) (ht : t ∈ positiveTokens flag) :
    t ≠ "" := by
  rcases (mem_positiveTokens flag t).mp ht with rfl | ⟨al, _, rfl⟩ | ⟨_, rfl⟩
  · exact (dash_append_ne_empty _).1
  · exact (dash_append_ne_empty _).1
  · exact (dash_append_ne_empty _).2

theorem mem_keys_addPositiveTokens (flags : List (String × completionFlag)) (flag : kongFlag)
    (t : String) (ht : t ∈ positiveTokens flag) :
    t ∈ keys (addPositiveTokens flags flag) := by
  have hne := positiveTokens_ne_empty flag t ht
  have hfin : t ∈ keys (flag.Aliases.foldl
      (fun fs al => addFlag fs ("--" ++ al) (!(flag.IsBool || flag.IsCounter)))
      (addFlag flags ("--" ++ flag.Name) (!(flag.IsBool || flag.IsCounter)))) ∨
      (flag.Short ≠ Char.ofNat 0 ∧ t = "-" ++ String.singleton flag.Short) := by
    rcases (mem_positiveTokens flag t).mp ht with rfl | ⟨al, hal, rfl⟩ | h
    · left
      exact foldl_invariant (fun fs => "--" ++ flag.Name ∈ keys fs)
        (fun fs al => addFlag fs ("--" ++ al) (!(flag.IsBool || flag.IsCounter)))
        (fun b a hb => mem_keys_addFlag_of_mem b _ _ _ hb) flag.Aliases _
        (mem_keys_addFlag_self flags _ _ hne)
    · left
      exact foldl_establish (fun fs => "--" ++ al ∈ keys fs)
        (fun fs a => addFlag fs ("--" ++ a) (!(flag.IsBool || flag.IsCounter))) al
        (fun b a hb => mem_keys_addFlag_of_mem b _ _ _ hb)
        (fun b => mem_keys_addFlag_self b _ _ hne) flag.Aliases _ hal
    · exact Or.inr h
  unfold addPositiveTokens
  by_cases hs : flag.Short ≠ Char.ofNat 0
  · rw [if_pos hs]
    rcases hfin with h | ⟨_, rfl⟩
    · exact mem_keys_addFlag_of_mem _ _ _ t h
    · exact mem_keys_addFlag_self _ _ _ hne
  · rw [if_neg hs]
    rcases hfin with h | ⟨h, _⟩
    · exact h
    · exact absurd h hs

theorem lookup_addFlag_of_some (flags : List (String × completionFlag)) (token : String)
    (tv : Bool) (t : String) (spec : completionFlag) (h : flags.lookup t = some spec) :
    (addFlag flags token tv).lookup t = some spec := by
  unfold addFlag
  split
  · exact h
  · split
    · exact h
    · exact lookup_append_of_some _ _ _ _ h

theorem mem_keys_addFlag (flags : List (String × completionFlag)) (token : String)
    (tv : Bool) (t : String) (h : t ∈ keys (addFlag flags token tv)) :
    t ∈ keys flags ∨ (t = token ∧ token ≠ "") := by
  unfold addFlag at h
  split at h
  · exact Or.inl h
  · next hne =>
    split at h
    · exact Or.inl h
    · simp only [keys, List.map_append, List.mem_append, List.map_cons, List.map_nil,
        List.mem_singleton] at h ⊢
      rcases h with h | h
      · exact Or.inl h
      · exact Or.inr ⟨h, hne⟩

/-- Registering a token with arity `tv` keeps the property that every token
registered since `flags` has arity `tv`. -/
theorem addFlag_arity (flags fs : List (String × completionFlag)) (token : String)
    (tv : Bool) (hP : ∀ t ∈ keys fs, t ∉ keys flags → fs.lookup t = some ⟨tv⟩) :
    ∀ t ∈ keys (addFlag fs token tv), t ∉ keys flags →
      (addFlag fs token tv).lookup t = some ⟨tv⟩ := by
  intro t ht hnew
  rcases mem_keys_addFlag fs token tv t ht with hin | ⟨rfl, hne⟩
  · exact lookup_addFlag_of_some fs token tv t _ (hP t hin hnew)
  · by_cases hin : t ∈ keys fs
    · exact lookup_addFlag_of_some fs t tv t _ (hP t hin hnew)
    · exact lookup_addFlag_new fs t tv hne hin

/-- C24: `addFlagTokens` registers the long token `--<name>`, one token
`--<alias>` per alias and, when a short form is set, `-<short>`: each of them
that was not registered before gets the arity that is true exactly when the
flag is neither a boolean nor a counter, and every token that was registered
before keeps its arity. -/
theorem addFlagTokens_registers (flags : List (String × completionFlag)) (flag : kongFlag) :
    (∀ t ∈ positiveTokens flag, t ∉ keys flags →
      (addFlagTokens flags flag).lookup t = some ⟨!(flag.IsBool || flag.IsCounter)⟩) ∧
    (∀ t spec, flags.lookup t = some spec →
      (addFlagTokens flags flag).lookup t = some spec) := by
  have hneg : ∀ t spec, (addPositiveTokens flags flag).lookup t = some spec →
      (addFlagTokens flags flag).lookup t = some spec := by
    intro t spec h
    rw [addFlagTokens_eq]
    by_cases hn : negatedFlagName flag ≠ ""
    · rw [if_pos hn]
      exact lookup_addFlag_of_some _ _ _ t spec h
    · rw [if_neg hn]
      exact h
  constructor
  · intro t ht hnew
    apply hneg
    exact addPositiveTokens_invariant
      (fun fs => ∀ t ∈ keys fs, t ∉ keys flags →
        fs.lookup t = some ⟨!(flag.IsBool || flag.IsCounter)⟩) flag
      (fun fs tok _ hfs => addFlag_arity flags fs tok _ hfs) flags
      (fun t ht hnew => absurd ht hnew) t (mem_keys_addPositiveTokens flags flag t ht) hnew
  · intro t spec h
    apply hneg
    exact addPositiveTokens_invariant (fun fs => fs.lookup t = some spec) flag
      (fun fs tok _ hfs => lookup_addFlag_of_some fs tok _ t spec hfs) flags h

/-- C24 (witness): on a map that holds `-v` as a value-taking token, the
counter `verbose` with alias `loud` and short form `v` registers `--verbose` and
`--loud` without value, and `-v` keeps its value. -/
theorem addFlagTokens_registers_witness :
    (∀ t ∈ positiveTokens ⟨"verbose", ["loud"], 'v', false, true, ""⟩,
      t ∉ keys [("-v", (⟨true⟩ : completionFlag))] →
      (addFlagTokens [("-v", ⟨true⟩)] ⟨"verbose", ["loud"], 'v', false, true, ""⟩).lookup t =
        some ⟨!(false || true)⟩) ∧
    (∀ t spec, [("-v", (⟨true⟩ : completionFlag))].lookup t = some spec →
      (addFlagTokens [("-v", ⟨true⟩)] ⟨"verbose", ["loud"], 'v', false, true, ""⟩).lookup t =
        some spec) :=
  addFlagTokens_registers [("-v", ⟨true⟩)] ⟨"verbose", ["loud"], 'v', false, true, ""⟩


/-! ## C30: flag tokens begin with a dash -/

theorem HasPrefix_dash_append (x : String) :
    strings.HasPrefix ("--" ++ x) "-" = true ∧ strings.HasPrefix ("-" ++ x) "-" = true ∧
      strings.HasPrefix ("--no-" ++ x) "-" = true :=
  ⟨HasPrefix_trans _ _ _ (HasPrefix_append "--" x) (by decide), HasPrefix_append "-" x,
    HasPrefix_trans _ _ _ (HasPrefix_append "--no-" x) (by decide)⟩

theorem positiveTokens_dash (flag : kongFlag) (t : String) (ht : t ∈ positiveTokens flag) :
    strings.HasPrefix t "-" = true := by
  rcases (mem_positiveTokens flag t).mp ht with rfl | ⟨al, _, rfl⟩ | ⟨_, rfl⟩
  · exact (HasPrefix_dash_append _).1
  · exact (HasPrefix_dash_append _).1
  · exact (HasPrefix_dash_append _).2.1

theorem negatedFlagName_dash (flag : kongFlag) (h : negatedFlagName flag ≠ "") :
    strings.HasPrefix (negatedFlagName flag) "-" = true := by
  unfold negatedFlagName at h ⊢
  split
  · next h0 => rw [if_pos h0] at h; exact absurd rfl h
  · split
    · exact (HasPrefix_dash_append _).2.2
    · exact (HasPrefix_dash_append _).1

/-- Every token that `addFlagTokens` adds to the map begins with `-`. -/
theorem addFlagTokens_dash (flags : List (String × completionFlag)) (flag : kongFlag)
    (t : String) (ht : t ∈ keys (addFlagTokens flags flag)) (hnew : t ∉ keys flags) :
    strings.HasPrefix t "-" = true := by
  have hpos : ∀ t ∈ keys (addPositiveTokens flags flag), t ∉ keys flags →
      strings.HasPrefix t "-" = true :=
    addPositiveTokens_invariant
      (fun fs => ∀ t ∈ keys fs, t ∉ keys flags → strings.HasPrefix t "-" = true) flag
      (fun fs tok htok hfs t ht hnew => by
        rcases mem_keys_addFlag fs tok _ t ht with hin | ⟨rfl, _⟩
        · exact hfs t hin hnew
        · exact positiveTokens_dash flag t htok) flags
      (fun t ht hnew => absurd ht hnew)
  rw [addFlagTokens_eq] at ht
  by_cases hn : negatedFlagName flag ≠ ""
  · rw [if_pos hn] at ht
    rcases mem_keys_addFlag _ _ _ t ht with hin | ⟨rfl, _⟩
    · exact hpos t hin hnew
    · exact negatedFlagName_dash flag hn
  · rw [if_neg hn] at ht
    exact hpos t ht hnew

/-- Every flag token of a built node begins with `-`. -/
theorem buildCompletionNode_flags_dash (model : kongNode) (t : String)
    (ht : t ∈ keys (buildCompletionNode model).flags) : strings.HasPrefix t "-" = true := by
  rw [buildCompletionNode_flags] at ht
  have hstep : ∀ (fs : List (String × completionFlag)) (flag : kongFlag),
      (∀ t ∈ keys fs, strings.HasPrefix t "-" = true) →
      ∀ t ∈ keys (addFlagTokens fs flag), strings.HasPrefix t "-" = true := by
    intro fs flag hfs t ht
    by_cases hin : t ∈ keys fs
    · exact hfs t hin
    · exact addFlagTokens_dash fs flag t ht hin
  exact foldl_invariant (fun fs => ∀ t ∈ keys fs, strings.HasPrefix t "-" = true)
    (fun fs group => group.foldl addFlagTokens fs)
    (fun b group hb => foldl_invariant
      (fun fs => ∀ t ∈ keys fs, strings.HasPrefix t "-" = true) addFlagTokens
      (fun b2 flag hb2 => hstep b2 flag hb2) group b hb)
    model.AllFlags [] (fun t ht => by simp [keys] at ht) t ht

theorem not_dash_of_HasPrefix (s cur : String) (h : strings.HasPrefix s cur = true)
    (hne : cur ≠ "") (hnd : strings.HasPrefix cur "-" = false) :
    strings.HasPrefix s "-" = false := by
  unfold strings.HasPrefix at h hnd ⊢
  have hd : ("-" : String).data = ['-'] := rfl
  rw [hd] at hnd ⊢
  cases hc : cur.data with
  | nil => exact absurd (String.ext hc) hne
  | cons c cs =>
    rw [hc] at h hnd
    rw [List.isPrefixOf_iff_prefix] at h
    obtain ⟨rest, hrest⟩ := h
    rw [← hrest]
    simp only [List.isPrefixOf, List.cons_append, Bool.and_true] at hnd ⊢
    exact hnd

/-- C30: every token that `addFlagTokens` registers begins with `-`; and on a
tree built by `buildCompletionNode`, when the token being completed is not
empty and does not start with `-`, every string that `completeWords` returns is
a key of the children of the current node, does not start with `-` and is a
flag token of no built node. -/
theorem completeWords_commands_only (model : kongNode) (cword : Int) (words : List String)
    (hne : currentWord words (cursor cword words) ≠ "")
    (hnd : strings.HasPrefix (currentWord words (cursor cword words)) "-" = false) :
    (∀ flags flag t, t ∈ keys (addFlagTokens flags flag) → t ∉ keys flags →
      strings.HasPrefix t "-" = true) ∧
    ∀ s ∈ completeWords (buildCompletionNode model) cword words,
      s ∈ keys (walk words (cursor cword words) (startIndex words)
        (buildCompletionNode model)).node.children ∧
      strings.HasPrefix s "-" = false ∧
      ∀ m : kongNode, s ∉ keys (buildCompletionNode m).flags := by
  refine ⟨addFlagTokens_dash, ?_⟩
  intro s hs
  rcases completeWords_cases (buildCompletionNode model) cword words with h | ⟨_, h⟩
  · rw [h] at hs; simp at hs
  rw [h] at hs
  rcases completeFrom_cases (buildCompletionNode model) (cursor cword words) words with h2 | h2
  · rw [h2] at hs; simp at hs
  rw [h2, mem_suggestions, if_neg (by rw [hnd]; simp)] at hs
  obtain ⟨hmem, hpre⟩ := hs
  have hsd := not_dash_of_HasPrefix s _ hpre hne hnd
  have hnoflag : ∀ m : kongNode, s ∉ keys (buildCompletionNode m).flags := by
    intro m hm
    rw [buildCompletionNode_flags_dash m s hm] at hsd
    exact Bool.noConfusion hsd
  obtain ⟨m, _, hnode⟩ :=
    walk_built model words (cursor cword words) (startIndex words) model
      kongNode.visibleBelow.self
  refine ⟨?_, hsd, hnoflag⟩
  rcases hmem with hk | hk
  · exact hk
  · rw [hnode] at hk
    exact absurd hk (hnoflag m)

/-- C30 (witness): completing `a` on the sample model. -/
theorem completeWords_commands_only_witness :
    (∀ flags flag t, t ∈ keys (addFlagTokens flags flag) → t ∉ keys flags →
      strings.HasPrefix t "-" = true) ∧
    ∀ s ∈ completeWords (buildCompletionNode sampleModel) 1 ["gog", "a"],
      s ∈ keys (walk ["gog", "a"] (cursor 1 ["gog", "a"]) (startIndex ["gog", "a"])
        (buildCompletionNode sampleModel)).node.children ∧
      strings.HasPrefix s "-" = false ∧
      ∀ m : kongNode, s ∉ keys (buildCompletionNode m).flags :=
  completeWords_commands_only sampleModel 1 ["gog", "a"] (by decide) (by decide)


/-! ## C29: the walk is a single forward pass -/

/-- What holds of a run of the loop entered with scan index `i`. -/
theorem walkTrace_base (cword i n : Nat) (hn : n ≤ cword - i) (h1 : n ≤ 1) :
    (⟨[i], n⟩ : walkTrace).indices.head? = some i ∧
      List.Chain' advances (⟨[i], n⟩ : walkTrace).indices ∧
      (∀ j ∈ (⟨[i], n⟩ : walkTrace).indices, i ≤ j ∧ j ≤ max cword i) ∧
      (⟨[i], n⟩ : walkTrace).iterations ≤ cword - i ∧
      (⟨[i], n⟩ : walkTrace).iterations ≤ (⟨[i], n⟩ : walkTrace).indices.length ∧
      (⟨[i], n⟩ : walkTrace).indices.length ≤ (⟨[i], n⟩ : walkTrace).iterations + 1 := by
  refine ⟨rfl, List.chain'_singleton _, ?_, hn, h1, ?_⟩
  · intro j hj
    simp only [List.mem_singleton] at hj
    subst hj
    exact ⟨le_refl _, le_max_right _ _⟩
  · show 1 ≤ n + 1
    omega

theorem walkTrace_after (cword i d : Nat) (t : walkTrace) (hd : d = 1 ∨ d = 2)
    (hle : i + d ≤ cword)
    (ht : t.indices.head? = some (i + d) ∧ List.Chain' advances t.indices ∧
      (∀ j ∈ t.indices, i + d ≤ j ∧ j ≤ max cword (i + d)) ∧
      t.iterations ≤ cword - (i + d) ∧ t.iterations ≤ t.indices.length ∧
      t.indices.length ≤ t.iterations + 1) :
    (walkTrace.after i t).indices.head? = some i ∧
      List.Chain' advances (walkTrace.after i t).indices ∧
      (∀ j ∈ (walkTrace.after i t).indices, i ≤ j ∧ j ≤ max cword i) ∧
      (walkTrace.after i t).iterations ≤ cword - i ∧
      (walkTrace.after i t).iterations ≤ (walkTrace.after i t).indices.length ∧
      (walkTrace.after i t).indices.length ≤ (walkTrace.after i t).iterations + 1 := by
  obtain ⟨hhead, hchain, hbound, hiter, hlen1, hlen2⟩ := ht
  refine ⟨rfl, ?_, ?_, ?_, ?_, ?_⟩
  · show List.Chain' advances (i :: t.indices)
    rw [List.chain'_cons']
    refine ⟨?_, hchain⟩
    intro y hy
    rw [hhead] at hy
    have e : i + d = y := Option.some.inj hy
    rcases hd with rfl | rfl
    · exact Or.inl e.symm
    · exact Or.inr e.symm
  · intro j hj
    have hj2 : j = i ∨ j ∈ t.indices := List.mem_cons.mp hj
    rcases hj2 with rfl | hj2
    · exact ⟨le_refl _, le_max_right _ _⟩
    · obtain ⟨h1, h2⟩ := hbound j hj2
      have h3 : max cword (i + d) = cword := max_eq_left hle
      rw [h3] at h2
      exact ⟨by omega, le_trans h2 (le_max_left _ _)⟩
  · show t.iterations + 1 ≤ cword - i
    rcases hd with rfl | rfl <;> omega
  · show t.iterations + 1 ≤ (i :: t.indices).length
    rw [List.length_cons]
    omega
  · show (i :: t.indices).length ≤ t.iterations + 1 + 1
    rw [List.length_cons]
    omega

theorem walkTraced_run (words : List String) (cword i : Nat) (node : completionNode) :
    (walkTraced words cword i node).indices.head? = some i ∧
      List.Chain' advances (walkTraced words cword i node).indices ∧
      (∀ j ∈ (walkTraced words cword i node).indices, i ≤ j ∧ j ≤ max cword i) ∧
      (walkTraced words cword i node).iterations ≤ cword - i ∧
      (walkTraced words cword i node).iterations ≤
        (walkTraced words cword i node).indices.length ∧
      (walkTraced words cword i node).indices.length ≤
        (walkTraced words cword i node).iterations + 1 := by
  induction i, node using walkTraced.induct words cword with
  | case1 i node h word hw =>
    rw [walkTraced, dif_pos h]
    simp only [word] at hw
    simp only [hw, if_true]
    exact walkTrace_base cword i 1 (by omega) (le_refl 1)
  | case2 i node h word hw hp hv ih =>
    rw [walkTraced, dif_pos h]
    simp only [word] at hw hp hv
    simp only [hw, hp, hv, if_true, if_false]
    exact walkTrace_after cword i 1 _ (Or.inl rfl) (by omega) ih
  | case3 i node h word hw hp hv ht hc =>
    rw [walkTraced, dif_pos h]
    simp only [word] at hw hp hv ht
    simp only [hw, hp, hv, ht, hc, if_true, if_false]
    exact walkTrace_base cword i 1 (by omega) (le_refl 1)
  | case4 i node h word hw hp hv ht hc ih =>
    rw [walkTraced, dif_pos h]
    simp only [word] at hw hp hv ht
    simp only [hw, hp, hv, ht, hc, if_true, if_false]
    exact walkTrace_after cword i 2 _ (Or.inr rfl) (by omega) ih
  | case5 i node h word hw hp hv ht ih =>
    rw [walkTraced, dif_pos h]
    simp only [word] at hw hp hv ht
    simp only [hw, hp, hv, ht, if_true, if_false]
    exact walkTrace_after cword i 1 _ (Or.inl rfl) (by omega) ih
  | case6 i node h word hw hp child hl ih =>
    rw [walkTraced, dif_pos h]
    simp only [word] at hw hp hl
    simp only [hw, hp, hl, if_true, if_false]
    exact walkTrace_after cword i 1 _ (Or.inl rfl) (by omega) ih
  | case7 i node h word hw hp hl ih =>
    rw [walkTraced, dif_pos h]
    simp only [word] at hw hp hl
    simp only [hw, hp, hl, if_true, if_false]
    exact walkTrace_after cword i 1 _ (Or.inl rfl) (by omega) ih
  | case8 i node h =>
    rw [walkTraced, dif_neg h]
    exact walkTrace_base cword i 0 (by omega) (by omega)

/-- C29 (amended): the walk of `completeWords` is a single forward pass that
always terminates. The scan index starts at `start`; each execution of the loop
body but possibly the last one advances it by 1 or by 2, and the last one
advances it or stops the walk; the scan index never exceeds the larger of
`cword` and `start`; and the body is executed at most `cword - start` times,
never when `cword < start`. -/
theorem walk_single_pass (root : completionNode) (cword : Int) (words : List String) :
    (walkTraced words (cursor cword words) (startIndex words) root).indices.head? =
        some (startIndex words) ∧
      List.Chain' advances
        (walkTraced words (cursor cword words) (startIndex words) root).indices ∧
      (∀ j ∈ (walkTraced words (cursor cword words) (startIndex words) root).indices,
        startIndex words ≤ j ∧ j ≤ max (cursor cword words) (startIndex words)) ∧
      (walkTraced words (cursor cword words) (startIndex words) root).iterations ≤
        cursor cword words - startIndex words ∧
      (walkTraced words (cursor cword words) (startIndex words) root).iterations ≤
        (walkTraced words (cursor cword words) (startIndex words) root).indices.length ∧
      (walkTraced words (cursor cword words) (startIndex words) root).indices.length ≤
        (walkTraced words (cursor cword words) (startIndex words) root).iterations + 1 :=
  walkTraced_run words (cursor cword words) (startIndex words) root

/-- C29 (witness): the walk over `gog --account x auth` up to the cursor 4. -/
theorem walk_single_pass_witness :
    (walkTraced ["gog", "--account", "x", "auth", ""]
        (cursor 4 ["gog", "--account", "x", "auth", ""])
        (startIndex ["gog", "--account", "x", "auth", ""]) sampleRoot).indices.head? =
        some (startIndex ["gog", "--account", "x", "auth", ""]) ∧
      List.Chain' advances
        (walkTraced ["gog", "--account", "x", "auth", ""]
          (cursor 4 ["gog", "--account", "x", "auth", ""])
          (startIndex ["gog", "--account", "x", "auth", ""]) sampleRoot).indices ∧
      (∀ j ∈ (walkTraced ["gog", "--account", "x", "auth", ""]
          (cursor 4 ["gog", "--account", "x", "auth", ""])
          (startIndex ["gog", "--account", "x", "auth", ""]) sampleRoot).indices,
        startIndex ["gog", "--account", "x", "auth", ""] ≤ j ∧
          j ≤ max (cursor 4 ["gog", "--account", "x", "auth", ""])
            (startIndex ["gog", "--account", "x", "auth", ""])) ∧
      (walkTraced ["gog", "--account", "x", "auth", ""]
          (cursor 4 ["gog", "--account", "x", "auth", ""])
          (startIndex ["gog", "--account", "x", "auth", ""]) sampleRoot).iterations ≤
        cursor 4 ["gog", "--account", "x", "auth", ""] -
          startIndex ["gog", "--account", "x", "auth", ""] ∧
      (walkTraced ["gog", "--account", "x", "auth", ""]
          (cursor 4 ["gog", "--account", "x", "auth", ""])
          (startIndex ["gog", "--account", "x", "auth", ""]) sampleRoot).iterations ≤
        (walkTraced ["gog", "--account", "x", "auth", ""]
          (cursor 4 ["gog", "--account", "x", "auth", ""])
          (startIndex ["gog", "--account", "x", "auth", ""]) sampleRoot).indices.length ∧
      (walkTraced ["gog", "--account", "x", "auth", ""]
          (cursor 4 ["gog", "--account", "x", "auth", ""])
          (startIndex ["gog", "--account", "x", "auth", ""]) sampleRoot).indices.length ≤
        (walkTraced ["gog", "--account", "x", "auth", ""]
          (cursor 4 ["gog", "--account", "x", "auth", ""])
          (startIndex ["gog", "--account", "x", "auth", ""]) sampleRoot).iterations + 1 :=
  walk_single_pass sampleRoot 4 ["gog", "--account", "x", "auth", ""]

/-- C29 (counterexample): on the single token `gog` with the cursor 0 the scan
starts at index 1, so the scan index exceeds `cword`, and the loop body is
executed 0 times, which is more than `cword - start = -1`. -/
theorem walk_single_pass_counterexample :
    cursor 0 ["gog"] = 0 ∧ startIndex ["gog"] = 1 ∧
      (walkTraced ["gog"] (cursor 0 ["gog"]) (startIndex ["gog"]) sampleRoot).indices = [1] ∧
      (walkTraced ["gog"] (cursor 0 ["gog"]) (startIndex ["gog"]) sampleRoot).iterations = 0 ∧
      ¬ (∀ j ∈ (walkTraced ["gog"] (cursor 0 ["gog"]) (startIndex ["gog"]) sampleRoot).indices,
        j ≤ cursor 0 ["gog"]) ∧
      ¬ (((walkTraced ["gog"] (cursor 0 ["gog"]) (startIndex ["gog"])
          sampleRoot).iterations : Int) ≤
        (cursor 0 ["gog"] : Int) - (startIndex ["gog"] : Int)) := by
  have hc : cursor 0 ["gog"] = 0 := by decide
  have hs : startIndex ["gog"] = 1 := by decide
  have hw : walkTraced ["gog"] 0 1 sampleRoot = ⟨[1], 0⟩ := by
    rw [walkTraced, dif_neg (by omega)]
  rw [hc, hs, hw]
  refine ⟨rfl, rfl, rfl, rfl, ?_, ?_⟩
  · intro h
    have := h 1 (by simp)
    omega
  · simp


/-! ## C26: the next occurrence of a weekday -/

theorem daysUntil_spec (d c : Nat) (hd : d < 7) (hc : c < 7) :
    1 ≤ daysUntil d c ∧ daysUntil d c ≤ 7 ∧ ((c : Int) + daysUntil d c) % 7 = d ∧
      (d = c → daysUntil d c = 7) := by
  unfold daysUntil
  simp only
  split <;> omega

theorem parseWeekday_of_lookup {T : Type} (Weekday : T → Nat) (AddDate : T → Int → T)
    (startOfDay : T → T) (name : String) (d : Nat) (now : T)
    (h1 : strings.TrimPrefix name "next " = name) (h2 : weekdays.lookup name = some d) :
    parseWeekday Weekday AddDate startOfDay name now =
        some (startOfDay (AddDate now (daysUntil d (Weekday now)))) ∧
      parseWeekday Weekday AddDate startOfDay ("next " ++ name) now =
        some (startOfDay (AddDate now (daysUntil d (Weekday now)))) := by
  unfold parseWeekday
  simp only
  rw [TrimPrefix_append, h1, h2]
  exact ⟨rfl, rfl⟩

theorem weekdays_lookup_names (d : Nat) (full name : String)
    (hfull : weekdayNames[d]? = some full)
    (hname : name = full ∨ name = String.mk (full.data.take 3)) :
    d < 7 ∧ strings.TrimPrefix name "next " = name ∧ weekdays.lookup name = some d := by
  have hd : d < 7 := by
    by_contra hge
    have hlen : weekdayNames.length ≤ d := by
      have : weekdayNames.length = 7 := rfl
      omega
    rw [List.getElem?_eq_none hlen] at hfull
    exact Option.noConfusion hfull
  refine ⟨hd, ?_⟩
  interval_cases d <;>
  · simp only [weekdayNames, List.getElem?_cons_zero, List.getElem?_cons_succ,
      Option.some.injEq] at hfull
    subst hfull
    rcases hname with rfl | rfl <;> exact ⟨by decide, by decide⟩

/-- C26: for every name of a day of the week, in full or cut to three letters,
with or without a leading `next `, and every current weekday `c`,
`parseWeekday` returns the start of the day `n` days after `now`, where
`1 ≤ n ≤ 7` and `(c + n) mod 7` is the number of the named day; `n` is 7 when
the named day is the current weekday, and `next <d>` gives the result of
`<d>`. An expression that, without its leading `next `, is no key of the
map `weekdays` returns not-ok. -/
theorem parseWeekday_next_occurrence {T : Type} (Weekday : T → Nat) (AddDate : T → Int → T)
    (startOfDay : T → T) (now : T) (d : Nat) (full name : String)
    (hc : Weekday now < 7) (hfull : weekdayNames[d]? = some full)
    (hname : name = full ∨ name = String.mk (full.data.take 3)) :
    (∃ n : Int, 1 ≤ n ∧ n ≤ 7 ∧ ((Weekday now : Int) + n) % 7 = d ∧
      (d = Weekday now → n = 7) ∧
      parseWeekday Weekday AddDate startOfDay name now = some (startOfDay (AddDate now n)) ∧
      parseWeekday Weekday AddDate startOfDay ("next " ++ name) now =
        parseWeekday Weekday AddDate startOfDay name now) ∧
    ∀ expr : String, strings.TrimPrefix expr "next " ∉ keys weekdays →
      parseWeekday Weekday AddDate startOfDay expr now = none := by
  obtain ⟨hd, h1, h2⟩ := weekdays_lookup_names d full name hfull hname
  obtain ⟨s1, s2, s3, s4⟩ := daysUntil_spec d (Weekday now) hd hc
  obtain ⟨p1, p2⟩ := parseWeekday_of_lookup Weekday AddDate startOfDay name d now h1 h2
  refine ⟨⟨daysUntil d (Weekday now), s1, s2, s3, s4, p1, ?_⟩, ?_⟩
  · rw [p1, p2]
  · intro expr hexpr
    unfold parseWeekday
    simp only
    rw [(lookup_eq_none_iff weekdays _).mpr hexpr]

/-- C26 (witness): on a Wednesday (day 3 of the week), `wed` is 7 days ahead.
Times are day numbers, day 0 being a Sunday. -/
theorem parseWeekday_next_occurrence_witness :
    (∃ n : Int, 1 ≤ n ∧ n ≤ 7 ∧
      (((fun t : Int => (t % 7).toNat) 10 : Nat) + n) % 7 = (3 : Nat) ∧
      (3 = (fun t : Int => (t % 7).toNat) 10 → n = 7) ∧
      parseWeekday (fun t : Int => (t % 7).toNat) (fun t n => t + n) (fun t => t) "wed" 10 =
        some ((fun t : Int => t) ((fun (t : Int) (n : Int) => t + n) 10 n)) ∧
      parseWeekday (fun t : Int => (t % 7).toNat) (fun t n => t + n) (fun t => t)
          ("next " ++ "wed") 10 =
        parseWeekday (fun t : Int => (t % 7).toNat) (fun t n => t + n) (fun t => t) "wed" 10) ∧
    ∀ expr : String, strings.TrimPrefix expr "next " ∉ keys weekdays →
      parseWeekday (fun t : Int => (t % 7).toNat) (fun t n => t + n) (fun t => t) expr 10 =
        none :=
  parseWeekday_next_occurrence (fun t : Int => (t % 7).toNat) (fun t n => t + n) (fun t => t)
    10 3 "wednesday" "wed" (by decide) (by decide) (Or.inr (by decide))


/-! ## C25: scanning pages for a topic -/

/-- The slice `filtered` holds the items of the page that are not `nil` and
whose topic is the filter, in the order of the page. -/
theorem filterTopic_eq (topic : String) (items : List (Option CourseWorkMaterial)) :
    filterTopic topic items =
      items.filter (fun x => decide (x.map CourseWorkMaterial.TopicId = some topic)) := by
  unfold filterTopic
  apply List.filter_congr
  intro x _
  cases x with
  | none => simp
  | some m => simp

theorem filterTopic_length_pos_iff (topic : String) (items : List (Option CourseWorkMaterial)) :
    (filterTopic topic items).length > 0 ↔
      ∃ x ∈ items, x.map CourseWorkMaterial.TopicId = some topic := by
  rw [filterTopic_eq]
  constructor
  · intro h
    obtain ⟨x, hx⟩ := List.exists_mem_of_length_pos h
    rw [List.mem_filter] at hx
    exact ⟨x, hx.1, of_decide_eq_true hx.2⟩
  · rintro ⟨x, hx, hm⟩
    exact List.length_pos_of_mem (List.mem_filter.mpr ⟨hx, decide_eq_true hm⟩)

theorem scanLoop_error {ε : Type} (Do : String → Except ε ListCourseWorkMaterialResponse)
    (topic : String) (scanPages : Int) (page : Nat) (tok : String) (err : ε)
    (hD : Do tok = .error err) :
    scanLoop Do topic scanPages page tok = ⟨[tok], .error err⟩ := by
  rw [scanLoop, hD]

theorem scanLoop_no_topic {ε : Type} (Do : String → Except ε ListCourseWorkMaterialResponse)
    (topic : String) (scanPages : Int) (page : Nat) (tok : String)
    (resp : ListCourseWorkMaterialResponse) (hD : Do tok = .ok resp) (ht : topic = "") :
    scanLoop Do topic scanPages page tok =
      ⟨[tok], .ok ⟨resp.CourseWorkMaterial, resp.NextPageToken⟩⟩ := by
  rw [scanLoop, hD]
  simp only
  rw [if_pos ht]

theorem scanLoop_stop {ε : Type} (Do : String → Except ε ListCourseWorkMaterialResponse)
    (topic : String) (scanPages : Int) (page : Nat) (tok : String)
    (resp : ListCourseWorkMaterialResponse) (hD : Do tok = .ok resp) (ht : topic ≠ "")
    (h : (filterTopic topic resp.CourseWorkMaterial).length > 0 ∨
      resp.NextPageToken = "" ∨ (page : Int) + 1 ≥ scanPages) :
    scanLoop Do topic scanPages page tok =
      ⟨[tok], .ok ⟨filterTopic topic resp.CourseWorkMaterial, resp.NextPageToken⟩⟩ := by
  rw [scanLoop, hD]
  simp only
  rw [if_neg ht]
  by_cases hf : (filterTopic topic resp.CourseWorkMaterial).length > 0
  · rw [if_pos hf]
  · rw [if_neg hf, dif_pos (h.resolve_left hf)]

theorem scanLoop_continue {ε : Type} (Do : String → Except ε ListCourseWorkMaterialResponse)
    (topic : String) (scanPages : Int) (page : Nat) (tok : String)
    (resp : ListCourseWorkMaterialResponse) (hD : Do tok = .ok resp) (ht : topic ≠ "")
    (hf : ¬(filterTopic topic resp.CourseWorkMaterial).length > 0)
    (hstop : ¬(resp.NextPageToken = "" ∨ (page : Int) + 1 ≥ scanPages)) :
    (scanLoop Do topic scanPages page tok).requests =
        tok :: (scanLoop Do topic scanPages (page + 1) resp.NextPageToken).requests ∧
      (scanLoop Do topic scanPages page tok).result =
        (scanLoop Do topic scanPages (page + 1) resp.NextPageToken).result := by
  constructor
  · conv_lhs => rw [scanLoop, hD]
    simp only
    rw [if_neg ht, if_neg hf, dif_neg hstop]
  · conv_lhs => rw [scanLoop, hD]
    simp only
    rw [if_neg ht, if_neg hf, dif_neg hstop]

/-- A run of the loop entered at page number `page` with the token `tok`,
whatever the requests answer. -/
theorem scanLoop_run {ε : Type} (Do : String → Except ε ListCourseWorkMaterialResponse)
    (topic : String) (scanPages : Int) :
    ∀ (m page : Nat) (tok : String), scanPages.toNat - page ≤ m → (page : Int) < scanPages →
      ∃ n : Nat,
        (scanLoop Do topic scanPages page tok).requests.length = n + 1 ∧
        (page : Int) + n + 1 ≤ scanPages ∧
        (topic = "" → n = 0) ∧
        (scanLoop Do topic scanPages page tok).requests[0]? = some tok ∧
        (∀ k, k < n → ∃ t resp,
          (scanLoop Do topic scanPages page tok).requests[k]? = some t ∧ Do t = .ok resp ∧
          (∀ x ∈ resp.CourseWorkMaterial,
            x.map CourseWorkMaterial.TopicId ≠ some topic) ∧
          resp.NextPageToken ≠ "" ∧
          (scanLoop Do topic scanPages page tok).requests[k + 1]? =
            some resp.NextPageToken) ∧
        ∃ t, (scanLoop Do topic scanPages page tok).requests[n]? = some t ∧
          (∀ err, Do t = .error err →
            (scanLoop Do topic scanPages page tok).result = .error err) ∧
          (∀ resp, Do t = .ok resp →
            (topic = "" → (scanLoop Do topic scanPages page tok).result =
              .ok ⟨resp.CourseWorkMaterial, resp.NextPageToken⟩) ∧
            (topic ≠ "" →
              ((∃ x ∈ resp.CourseWorkMaterial,
                  x.map CourseWorkMaterial.TopicId = some topic) ∨
                resp.NextPageToken = "" ∨ (page : Int) + n + 1 = scanPages) ∧
              (scanLoop Do topic scanPages page tok).result =
                .ok ⟨resp.CourseWorkMaterial.filter
                  (fun x => decide (x.map CourseWorkMaterial.TopicId = some topic)),
                  resp.NextPageToken⟩)) := by
  intro m
  induction m with
  | zero =>
    intro page tok hm hlt
    exfalso
    omega
  | succ m ih =>
    intro page tok hm hlt
    cases hD : Do tok with
    | error err =>
      rw [scanLoop_error Do topic scanPages page tok err hD]
      refine ⟨0, rfl, by omega, fun _ => rfl, rfl, fun k hk => absurd hk (by omega),
        tok, rfl, ?_, ?_⟩
      · intro err2 h
        rw [hD] at h
        rw [Except.error.inj h]
      · intro resp h
        rw [hD] at h
        exact Except.noConfusion h
    | ok resp =>
      by_cases ht : topic = ""
      · rw [scanLoop_no_topic Do topic scanPages page tok resp hD ht]
        refine ⟨0, rfl, by omega, fun _ => rfl, rfl, fun k hk => absurd hk (by omega),
          tok, rfl, ?_, ?_⟩
        · intro err h
          rw [hD] at h
          exact Except.noConfusion h
        · intro resp2 h
          rw [hD] at h
          rw [← Except.ok.inj h]
          exact ⟨fun _ => rfl, fun hne => absurd ht hne⟩
      · by_cases hs : (filterTopic topic resp.CourseWorkMaterial).length > 0 ∨
            resp.NextPageToken = "" ∨ (page : Int) + 1 ≥ scanPages
        · rw [scanLoop_stop Do topic scanPages page tok resp hD ht hs]
          refine ⟨0, rfl, by omega, fun h => absurd h ht, rfl,
            fun k hk => absurd hk (by omega), tok, rfl, ?_, ?_⟩
          · intro err h
            rw [hD] at h
            exact Except.noConfusion h
          · intro resp2 h
            rw [hD] at h
            rw [← Except.ok.inj h]
            refine ⟨fun h0 => absurd h0 ht, fun _ => ⟨?_, ?_⟩⟩
            · rcases hs with h1 | h1 | h1
              · exact Or.inl ((filterTopic_length_pos_iff _ _).mp h1)
              · exact Or.inr (Or.inl h1)
              · refine Or.inr (Or.inr ?_)
                omega
            · show Except.ok _ = Except.ok _
              rw [filterTopic_eq]
        · have hf : ¬(filterTopic topic resp.CourseWorkMaterial).length > 0 :=
            fun h => hs (Or.inl h)
          have hstop : ¬(resp.NextPageToken = "" ∨ (page : Int) + 1 ≥ scanPages) :=
            fun h => hs (Or.inr h)
          have hnext : resp.NextPageToken ≠ "" := fun e => hstop (Or.inl e)
          have hpage : ¬((page : Int) + 1 ≥ scanPages) := fun e => hstop (Or.inr e)
          have hnone : ∀ x ∈ resp.CourseWorkMaterial,
              x.map CourseWorkMaterial.TopicId ≠ some topic := by
            intro x hx hm
            exact hf ((filterTopic_length_pos_iff _ _).mpr ⟨x, hx, hm⟩)
          obtain ⟨hreq, hres⟩ :=
            scanLoop_continue Do topic scanPages page tok resp hD ht hf hstop
          obtain ⟨n, hlen, hbound, _, hhead, hbefore, t, hlast, herr, hok⟩ :=
            ih (page + 1) resp.NextPageToken (by omega) (by push_cast; omega)
          rw [hreq, hres]
          refine ⟨n + 1, ?_, ?_, fun h => absurd h ht, List.getElem?_cons_zero, ?_, t, ?_, herr, ?_⟩
          · rw [List.length_cons, hlen]
          · push_cast at hbound ⊢
            omega
          · intro k hk
            cases k with
            | zero =>
              refine ⟨tok, resp, List.getElem?_cons_zero, hD, hnone, hnext, ?_⟩
              rw [List.getElem?_cons_succ]
              exact hhead
            | succ k =>
              obtain ⟨t2, resp2, h1, h2, h3, h4, h5⟩ := hbefore k (by omega)
              refine ⟨t2, resp2, ?_, h2, h3, h4, ?_⟩
              · rw [List.getElem?_cons_succ]
                exact h1
              · rw [List.getElem?_cons_succ]
                exact h5
          · rw [List.getElem?_cons_succ]
            exact hlast
          · intro resp2 h
            obtain ⟨o1, o2⟩ := hok resp2 h
            refine ⟨o1, fun hne => ?_⟩
            obtain ⟨o3, o4⟩ := o2 hne
            refine ⟨?_, o4⟩
            rcases o3 with h1 | h1 | h1
            · exact Or.inl h1
            · exact Or.inr (Or.inl h1)
            · refine Or.inr (Or.inr ?_)
              push_cast at h1 ⊢
              omega

/-- C25: for every behaviour of the requests. The loop makes `n + 1` requests
with `1 ≤ n + 1 ≤ max(scan-pages, 1)`, exactly one when the trimmed topic is
empty; the first request carries `Page` and each later one the next-page token
of the page before, which held no item with the topic and had a next-page
token. When the last request fails its error is returned. When it succeeds,
with no topic filter its page is returned unfiltered; with a topic filter that
page holds an item with the topic, or has no next-page token, or is page number
`max(scan-pages, 1)`, and the result is the list of the items of that page that
are not `nil` and have the topic, in order, with the next-page token of that
page. -/
theorem scanMaterials_bounded {ε : Type} (Do : String → Except ε ListCourseWorkMaterialResponse)
    (Topic Page : String) (ScanPages : Int) :
    ∃ n : Nat,
      (scanMaterials Do Topic Page ScanPages).requests.length = n + 1 ∧
      (n : Int) + 1 ≤ max ScanPages 1 ∧
      (strings.TrimSpace Topic = "" → n = 0) ∧
      (scanMaterials Do Topic Page ScanPages).requests[0]? = some Page ∧
      (∀ k, k < n → ∃ t resp,
        (scanMaterials Do Topic Page ScanPages).requests[k]? = some t ∧ Do t = .ok resp ∧
        (∀ x ∈ resp.CourseWorkMaterial,
          x.map CourseWorkMaterial.TopicId ≠ some (strings.TrimSpace Topic)) ∧
        resp.NextPageToken ≠ "" ∧
        (scanMaterials Do Topic Page ScanPages).requests[k + 1]? =
          some resp.NextPageToken) ∧
      ∃ t, (scanMaterials Do Topic Page ScanPages).requests[n]? = some t ∧
        (∀ err, Do t = .error err →
          (scanMaterials Do Topic Page ScanPages).result = .error err) ∧
        (∀ resp, Do t = .ok resp →
          (strings.TrimSpace Topic = "" → (scanMaterials Do Topic Page ScanPages).result =
            .ok ⟨resp.CourseWorkMaterial, resp.NextPageToken⟩) ∧
          (strings.TrimSpace Topic ≠ "" →
            ((∃ x ∈ resp.CourseWorkMaterial,
                x.map CourseWorkMaterial.TopicId = some (strings.TrimSpace Topic)) ∨
              resp.NextPageToken = "" ∨ (n : Int) + 1 = max ScanPages 1) ∧
            (scanMaterials Do Topic Page ScanPages).result =
              .ok ⟨resp.CourseWorkMaterial.filter
                (fun x => decide
                  (x.map CourseWorkMaterial.TopicId = some (strings.TrimSpace Topic))),
                resp.NextPageToken⟩)) := by
  have hmax : (if ScanPages ≤ 0 then (1 : Int) else ScanPages) = max ScanPages 1 := by
    split
    · rw [max_eq_right (by omega)]
    · rw [max_eq_left (by omega)]
  have h1 : (1 : Int) ≤ max ScanPages 1 := le_max_right _ _
  have hrun : scanMaterials Do Topic Page ScanPages =
      scanLoop Do (strings.TrimSpace Topic) (max ScanPages 1) 0 Page := by
    unfold scanMaterials
    simp only
    rw [hmax]
  rw [hrun]
  obtain ⟨n, hlen, hbound, hzero, hhead, hbefore, t, hlast, herr, hok⟩ :=
    scanLoop_run Do (strings.TrimSpace Topic) (max ScanPages 1) (max ScanPages 1).toNat 0 Page
      (by omega) (by push_cast; omega)
  refine ⟨n, hlen, by push_cast at hbound; omega, hzero, hhead, hbefore, t, hlast, herr, ?_⟩
  intro resp h
  obtain ⟨o1, o2⟩ := hok resp h
  refine ⟨o1, fun hne => ?_⟩
  obtain ⟨o3, o4⟩ := o2 hne
  refine ⟨?_, o4⟩
  rcases o3 with h2 | h2 | h2
  · exact Or.inl h2
  · exact Or.inr (Or.inl h2)
  · refine Or.inr (Or.inr ?_)
    push_cast at h2
    omega

/-- C25 (witness): scanning the two sample pages for the topic `t1` with up to
3 pages makes two requests, for the tokens `""` and `p2`, and returns the item
`m2` of the second page; with up to 1 page it makes one request and returns no
item and the token `p2`; when the request for `p2` fails, its error is
returned after the two requests. -/
theorem scanMaterials_bounded_witness :
    (∃ n : Nat,
      (scanMaterials (fun tok => (Except.ok (samplePages tok) : Except String _))
        "t1" "" 3).requests.length = n + 1 ∧
      (n : Int) + 1 ≤ max 3 1 ∧
      (strings.TrimSpace "t1" = "" → n = 0) ∧
      (scanMaterials (fun tok => (Except.ok (samplePages tok) : Except String _))
        "t1" "" 3).requests[0]? = some "" ∧
      (∀ k, k < n → ∃ t resp,
        (scanMaterials (fun tok => (Except.ok (samplePages tok) : Except String _))
          "t1" "" 3).requests[k]? = some t ∧
        (fun tok => (Except.ok (samplePages tok) : Except String _)) t = .ok resp ∧
        (∀ x ∈ resp.CourseWorkMaterial,
          x.map CourseWorkMaterial.TopicId ≠ some (strings.TrimSpace "t1")) ∧
        resp.NextPageToken ≠ "" ∧
        (scanMaterials (fun tok => (Except.ok (samplePages tok) : Except String _))
          "t1" "" 3).requests[k + 1]? = some resp.NextPageToken) ∧
      ∃ t, (scanMaterials (fun tok => (Except.ok (samplePages tok) : Except String _))
          "t1" "" 3).requests[n]? = some t ∧
        (∀ err, (fun tok => (Except.ok (samplePages tok) : Except String _)) t = .error err →
          (scanMaterials (fun tok => (Except.ok (samplePages tok) : Except String _))
            "t1" "" 3).result = .error err) ∧
        (∀ resp, (fun tok => (Except.ok (samplePages tok) : Except String _)) t = .ok resp →
          (strings.TrimSpace "t1" = "" →
            (scanMaterials (fun tok => (Except.ok (samplePages tok) : Except String _))
              "t1" "" 3).result = .ok ⟨resp.CourseWorkMaterial, resp.NextPageToken⟩) ∧
          (strings.TrimSpace "t1" ≠ "" →
            ((∃ x ∈ resp.CourseWorkMaterial,
                x.map CourseWorkMaterial.TopicId = some (strings.TrimSpace "t1")) ∨
              resp.NextPageToken = "" ∨ (n : Int) + 1 = max 3 1) ∧
            (scanMaterials (fun tok => (Except.ok (samplePages tok) : Except String _))
              "t1" "" 3).result =
              .ok ⟨resp.CourseWorkMaterial.filter
                (fun x => decide
                  (x.map CourseWorkMaterial.TopicId = some (strings.TrimSpace "t1"))),
                resp.NextPageToken⟩))) ∧
    scanMaterials (fun tok => (Except.ok (samplePages tok) : Except String _)) "t1" "" 3 =
      ⟨["", "p2"], .ok ⟨[some ⟨"m2", "t1"⟩], ""⟩⟩ ∧
    scanMaterials (fun tok => (Except.ok (samplePages tok) : Except String _)) "t1" "" 0 =
      ⟨[""], .ok ⟨[], "p2"⟩⟩ ∧
    scanMaterials (fun tok => if tok = "" then Except.ok (samplePages tok)
        else Except.error "quota") "t1" "" 3 =
      ⟨["", "p2"], .error "quota"⟩ := by
  refine ⟨scanMaterials_bounded (fun tok => Except.ok (samplePages tok)) "t1" "" 3, ?_, ?_, ?_⟩
  · have ht : strings.TrimSpace "t1" = "t1" := by decide
    unfold scanMaterials
    simp only [ht]
    rw [scanLoop]
    simp [samplePages, filterTopic]
    rw [scanLoop]
    simp [samplePages, filterTopic]
  · have ht : strings.TrimSpace "t1" = "t1" := by decide
    unfold scanMaterials
    simp only [ht]
    rw [scanLoop]
    simp [samplePages, filterTopic]
  · have ht : strings.TrimSpace "t1" = "t1" := by decide
    unfold scanMaterials
    simp only [ht]
    rw [scanLoop]
    simp [samplePages, filterTopic]
    rw [scanLoop]
    simp [samplePages]

end Gog
